import Mathlib

/-!
# Closure memory of libffi (`src/closures.c`)

A shallow embedding of the closure allocators of `closures.c` and the
properties claimed for them.

* Part 1: the trampoline-table pool (`FFI_EXEC_TRAMPOLINE_TABLE`, Mach):
  `ffi_trampoline_table_alloc`, `ffi_trampoline_table_free`,
  `ffi_closure_alloc`, `ffi_closure_free`, `ffi_deinit`.
* Part 2: the dual-map allocator (`FFI_MMAP_EXEC_WRIT`) and the trivial
  allocator: `ffi_closure_alloc`, `ffi_data_to_code_pointer`.
* Part 3: the backing file of the dual-map allocator:
  `open_temp_exec_file_opts`, `open_temp_exec_file`, `dlmmap_locked`, `dlmmap`,
  `dlmunmap`.
* Part 4: the remap-based allocator (NetBSD with `PROT_MPROTECT`):
  `ffi_closure_alloc`, `ffi_closure_free`.

Memory is explicit: every block obtained from `mem_callbacks.calloc` /
`mem_callbacks.malloc` is a binding of a finite map keyed by its address, a
pointer is an address (`Option Nat`, `none` for `NULL`), and a read or write
through a pointer that has no binding (a released or foreign block) is the
error `Err.fault`: the C program has no defined behaviour there.
What the operating system and the allocator answer (`vm_allocate`, `malloc`,
`calloc`, ...) is an input of the operation that asks, see `AllocEnv`.
The mutex `ffi_trampoline_lock` is not modelled: calls are executed one after
the other.
In Parts 3 and 4 the system calls are answered by an input as well (`Sys`,
`Env`), every call made is kept in a log, and `size_t` arithmetic is modulo
`2 ^ w`.  A loop of the source is a function with a bound on its iterations,
and running into the bound is the error `Err.fuel`.
-/

namespace Closures

/-! ## Finite maps from addresses to blocks -/

/-- The block bound to address `a`, if any. -/
def load {α : Type} : List (Nat × α) → Nat → Option α
  | [], _ => none
  | (k, v) :: m, a => if k = a then some v else load m a

/-- Overwrite the block at address `a` (every binding of `a`). -/
def store {α : Type} (m : List (Nat × α)) (a : Nat) (x : α) : List (Nat × α) :=
  m.map fun kv => if kv.1 = a then (kv.1, x) else kv

/-- Drop the block at address `a`. -/
def unbind {α : Type} (m : List (Nat × α)) (a : Nat) : List (Nat × α) :=
  m.filter fun kv => !decide (kv.1 = a)

/-! ## Part 1: the trampoline-table pool -/

/-- The two constants of the target's headers that `closures.c` uses in the
trampoline pool; they are not defined in `closures.c`. -/
structure Target where
  PAGE_MAX_SIZE : Nat
  FFI_TRAMPOLINE_SIZE : Nat
deriving DecidableEq, Repr

/-- The macro `#define FFI_TRAMPOLINE_COUNT (PAGE_MAX_SIZE / FFI_TRAMPOLINE_SIZE)`. -/
def FFI_TRAMPOLINE_COUNT (tg : Target) : Nat :=
  tg.PAGE_MAX_SIZE / tg.FFI_TRAMPOLINE_SIZE

/-- A pointer `&table->free_list_pool[idx]`.  The pool array is allocated in
`ffi_trampoline_table_alloc` and freed in `ffi_trampoline_table_free` together
with its table, so it is stored with the table and `pool` is the address of
that table. -/
structure EntryPtr where
  pool : Nat
  idx : Nat
deriving DecidableEq, Repr

/-- The type `struct ffi_trampoline_table_entry`. -/
structure ffi_trampoline_table_entry where
  trampoline : Nat
  next : Option EntryPtr
deriving DecidableEq, Repr

/-- The type `struct ffi_trampoline_table`; `free_count` is a `uint16_t`. -/
structure ffi_trampoline_table where
  config_page : Nat
  trampoline_page : Nat
  free_count : Nat
  free_list : Option EntryPtr
  free_list_pool : List ffi_trampoline_table_entry
  prev : Option Nat
  next : Option Nat
deriving DecidableEq, Repr

/-- The two fields of `ffi_closure` that `closures.c` writes. -/
structure ffi_closure where
  trampoline_table : Nat
  trampoline_table_entry : EntryPtr
deriving DecidableEq, Repr

/-- What `mem_callbacks.free` is called on. -/
inductive Block where
  | closure (ptr : Nat)
  | pool (table : Nat)
  | table (ptr : Nat)
deriving DecidableEq, Repr

/-- The observable calls: page mapping and unmapping, the two hooks and
`mem_callbacks.free`. -/
inductive Event where
  | vm_allocate (addr size : Nat)
  | vm_deallocate (addr size : Nat)
  | on_allocate (addr size : Nat)
  | on_deallocate (addr size : Nat)
  | free (b : Block)
deriving DecidableEq, Repr

/-- Why an operation has no result. -/
inductive Err where
  | fault
  | fuel
deriving DecidableEq, Repr

/-- The static `ffi_trampoline_tables` (the registry head), the allocated
table blocks, the allocated closure blocks, and the calls made so far (oldest
first). -/
structure State where
  ffi_trampoline_tables : Option Nat
  tables : List (Nat × ffi_trampoline_table)
  closures : List (Nat × ffi_closure)
  log : List Event
deriving DecidableEq, Repr

/-- The state at program start: `ffi_trampoline_tables = NULL`. -/
def State.empty : State :=
  { ffi_trampoline_tables := none, tables := [], closures := [], log := [] }

/-- Answers of the system to one `ffi_closure_alloc`: `malloc` of the closure
(`none` is `NULL`), `vm_allocate` (`none` is a failure code, `some a` the
address of the two pages), whether `vm_write` and `vm_protect` returned
`KERN_SUCCESS`, and `calloc` of the table block.  The second `calloc`, of the
pool array, is taken to succeed: the array is stored with its table. -/
structure AllocEnv where
  malloc : Option Nat
  vm_allocate : Option Nat
  vm_write : Bool
  vm_protect : Bool
  calloc : Option Nat
deriving DecidableEq, Repr

def emit (st : State) (e : Event) : State :=
  { st with log := st.log ++ [e] }

/-- Read `*t` for a table pointer `t`. -/
def read_table (st : State) (t : Nat) : Except Err ffi_trampoline_table :=
  match load st.tables t with
  | some T => .ok T
  | none => .error .fault

/-- Write `*t` for a table pointer `t` that was read before. -/
def write_table (st : State) (t : Nat) (T : ffi_trampoline_table) : State :=
  { st with tables := store st.tables t T }

/-- Read `*e` for an entry pointer `e`. -/
def read_entry (st : State) (e : EntryPtr) : Except Err ffi_trampoline_table_entry :=
  match load st.tables e.pool with
  | some T =>
    match T.free_list_pool[e.idx]? with
    | some x => .ok x
    | none => .error .fault
  | none => .error .fault

/-- Write `e->next = n` for an entry pointer `e`. -/
def write_entry_next (st : State) (e : EntryPtr) (n : Option EntryPtr) : Except Err State :=
  match load st.tables e.pool with
  | some T =>
    match T.free_list_pool[e.idx]? with
    | some x =>
      .ok (write_table st e.pool
        { T with free_list_pool := T.free_list_pool.set e.idx { x with next := n } })
    | none => .error .fault
  | none => .error .fault

/-- The pool after the loop of `ffi_trampoline_table_alloc`: `calloc` gives
`FFI_TRAMPOLINE_COUNT` zeroed entries and the loop fills the first
`free_count`: `trampoline = trampoline_page + i * FFI_TRAMPOLINE_SIZE`, and
`next = &pool[i + 1]` when `i < free_count - 1` (an `int` comparison). -/
def init_free_list_pool (tg : Target) (table trampoline_page free_count : Nat) :
    List ffi_trampoline_table_entry :=
  (List.range (FFI_TRAMPOLINE_COUNT tg)).map fun i =>
    if i < free_count then
      { trampoline := trampoline_page + i * tg.FFI_TRAMPOLINE_SIZE,
        next := if i + 1 < free_count then some ⟨table, i + 1⟩ else none }
    else
      { trampoline := 0, next := none }

/-- The table `ffi_trampoline_table_alloc` fills in at address `table` for the
two pages at `config_page`: `free_count = FFI_TRAMPOLINE_COUNT` cut to 16 bits
and `free_list = free_list_pool`; `pv` and `nx` are the two links. -/
def new_table (tg : Target) (table config_page : Nat) (pv nx : Option Nat) :
    ffi_trampoline_table :=
  { config_page := config_page,
    trampoline_page := config_page + tg.PAGE_MAX_SIZE,
    free_count := FFI_TRAMPOLINE_COUNT tg % 65536,
    free_list := some ⟨table, 0⟩,
    free_list_pool := init_free_list_pool tg table (config_page + tg.PAGE_MAX_SIZE)
      (FFI_TRAMPOLINE_COUNT tg % 65536),
    prev := pv,
    next := nx }

/-- The function `ffi_trampoline_table_alloc`: `NULL` when `vm_allocate` fails; the results
of `vm_write` and `vm_protect` are stored in `ktt` and not looked at.  The new
table is returned unlinked (`prev = next = NULL` from `calloc`).  A `NULL` from
`calloc` is written through at once. -/
def ffi_trampoline_table_alloc (tg : Target) (env : AllocEnv) (st : State) :
    Except Err (State × Option Nat) :=
  match env.vm_allocate with
  | none => .ok (st, none)
  | some config_page =>
    let st := emit st (.vm_allocate config_page (tg.PAGE_MAX_SIZE * 2))
    let _ktt := env.vm_write
    let _ktt := env.vm_protect
    let st := emit st (.on_allocate config_page (tg.PAGE_MAX_SIZE * 2))
    match env.calloc with
    | none => .error .fault
    | some table =>
      .ok ({ st with tables := (table, new_table tg table config_page none none) :: st.tables },
        some table)

/-- The statement `if (p != NULL) p->next = v;`. -/
def set_next (p v : Option Nat) (st : State) : Except Err State :=
  match p with
  | none => .ok st
  | some p =>
    match load st.tables p with
    | none => .error .fault
    | some P => .ok (write_table st p { P with next := v })

/-- The statement `if (p != NULL) p->prev = v;`. -/
def set_prev (p v : Option Nat) (st : State) : Except Err State :=
  match p with
  | none => .ok st
  | some p =>
    match load st.tables p with
    | none => .error .fault
    | some P => .ok (write_table st p { P with prev := v })

/-- The function `ffi_trampoline_table_free`: unlink from the neighbours, unmap the two
pages, fire `on_deallocate`, free the pool and the table block. -/
def ffi_trampoline_table_free (tg : Target) (table : Nat) (st : State) : Except Err State := do
  let T ← read_table st table
  let st ← set_next T.prev T.next st
  let T ← read_table st table
  let st ← set_prev T.next T.prev st
  let T ← read_table st table
  let st := emit st (.vm_deallocate T.config_page (tg.PAGE_MAX_SIZE * 2))
  let st := emit st (.on_deallocate T.config_page (tg.PAGE_MAX_SIZE * 2))
  let st := emit st (.free (.pool table))
  let st := emit st (.free (.table table))
  pure { st with tables := unbind st.tables table }

/-- The branch of `ffi_closure_alloc` taken when the head is `NULL` or has an
empty free list: make a table and insert it at the top of the list.  The
result is `NULL` when no table could be made. -/
def push_new_table (tg : Target) (env : AllocEnv) (st : State) :
    Except Err (State × Option Nat) := do
  let (st, r) ← ffi_trampoline_table_alloc tg env st
  match r with
  | none => pure (st, none)
  | some table =>
    let T ← read_table st table
    let st := write_table st table { T with next := st.ffi_trampoline_tables }
    let T ← read_table st table
    let st ← set_prev T.next (some table) st
    pure ({ st with ffi_trampoline_tables := some table }, some table)

/-- The block "Claim the free entry" of `ffi_closure_alloc`: pop the first
entry of the head table's free list; the result is the entry popped. -/
def claim_entry (st : State) : Except Err (State × EntryPtr) :=
  match st.ffi_trampoline_tables with
  | none => .error .fault
  | some head =>
    match load st.tables head with
    | none => .error .fault
    | some H =>
      match H.free_list with
      | none => .error .fault
      | some entry => do
        let E ← read_entry st entry
        let st := write_table st head { H with free_list := E.next }
        let H ← read_table st head
        let st := write_table st head { H with free_count := (H.free_count + 65535) % 65536 }
        let st ← write_entry_next st entry none
        pure (st, entry)

/-- The test `table == NULL || table->free_list == NULL` of
`ffi_closure_alloc`, for `table = ffi_trampoline_tables`. -/
def needs_table (st : State) : Except Err Bool :=
  match st.ffi_trampoline_tables with
  | none => .ok true
  | some t =>
    match load st.tables t with
    | none => .error .fault
    | some T => .ok T.free_list.isNone

/-- The function `ffi_closure_alloc (size, code)` of the trampoline pool, without
`HAVE_PTRAUTH`.  The result is the new state and `none` for `NULL`, or
`some (closure, c)` with `c` the value stored in `*code`.  The local `table`
is the head in both branches. -/
def ffi_closure_alloc (tg : Target) (size : Nat) (env : AllocEnv) (st : State) :
    Except Err (State × Option (Nat × Nat)) :=
  let _size := size
  match env.malloc with
  | none => .ok (st, none)
  | some closure => do
    let exhausted ← needs_table st
    let (st, table) ← if exhausted then push_new_table tg env st
      else pure (st, st.ffi_trampoline_tables)
    match table with
    | none => pure (emit st (.free (.closure closure)), none)
    | some table =>
      let (st, entry) ← claim_entry st
      let E ← read_entry st entry
      let c : ffi_closure := { trampoline_table := table, trampoline_table_entry := entry }
      pure ({ st with closures := (closure, c) :: st.closures }, some (closure, E.trampoline))

/-- The block "Return the entry to the free list" of `ffi_closure_free`. -/
def return_entry (table : Nat) (entry : EntryPtr) (st : State) : Except Err State := do
  let T ← read_table st table
  let st ← write_entry_next st entry T.free_list
  let T ← read_table st table
  let st := write_table st table { T with free_list := some entry }
  let T ← read_table st table
  pure (write_table st table { T with free_count := (T.free_count + 1) % 65536 })

/-- The block "bump this table to the top of the list" of `ffi_closure_free`.
The table is not taken out of the place it has in the list. -/
def bump_to_top (table : Nat) (st : State) : Except Err State := do
  let T ← read_table st table
  let st := write_table st table { T with prev := none }
  let T ← read_table st table
  let st := write_table st table { T with next := st.ffi_trampoline_tables }
  let st ← set_prev st.ffi_trampoline_tables (some table) st
  pure { st with ffi_trampoline_tables := some table }

/-- The table of closure `c` after "Return the entry to the free list". -/
def returned (T : ffi_trampoline_table) (c : ffi_closure) (E : ffi_trampoline_table_entry) :
    ffi_trampoline_table :=
  { T with
    free_list_pool := T.free_list_pool.set c.trampoline_table_entry.idx
      { E with next := T.free_list },
    free_list := some c.trampoline_table_entry,
    free_count := (T.free_count + 1) % 65536 }

/-- The function `ffi_closure_free (ptr)` of the trampoline pool. -/
def ffi_closure_free (tg : Target) (ptr : Nat) (st : State) : Except Err State :=
  match load st.closures ptr with
  | none => .error .fault
  | some closure => do
    let table := closure.trampoline_table
    let entry := closure.trampoline_table_entry
    let st ← return_entry table entry st
    let T ← read_table st table
    let st ←
      if T.free_count = FFI_TRAMPOLINE_COUNT tg ∧ st.ffi_trampoline_tables ≠ some table then
        ffi_trampoline_table_free tg table st
      else if st.ffi_trampoline_tables ≠ some table then
        bump_to_top table st
      else pure st
    let st := emit st (.free (.closure ptr))
    pure { st with closures := unbind st.closures ptr }

/-- The loop of `ffi_deinit`, at most `fuel` iterations; `Err.fuel` when an
iteration more would be needed. -/
def ffi_deinit_loop (tg : Target) : Nat → State → Except Err State
  | 0, st =>
    match st.ffi_trampoline_tables with
    | none => .ok st
    | some table => do
      let _ ← read_table st table
      .error .fuel
  | fuel + 1, st =>
    match st.ffi_trampoline_tables with
    | none => .ok st
    | some table => do
      let T ← read_table st table
      let st := { st with ffi_trampoline_tables := T.next }
      let st ← ffi_trampoline_table_free tg table st
      ffi_deinit_loop tg fuel st

/-- The function `ffi_deinit` of the trampoline pool.  Every iteration that does not fault
frees one table block, so one iteration per allocated block is enough. -/
def ffi_deinit (tg : Target) (st : State) : Except Err State :=
  ffi_deinit_loop tg st.tables.length st

/-! ### Histories of the pool and what they keep true -/

/-- The allocator and the system answer with blocks that are not in use: the
closure block and the table block are not allocated ones, and the two pages do
not overlap the pages of an allocated table. -/
def AllocEnv.fresh (tg : Target) (env : AllocEnv) (st : State) : Prop :=
  (∀ p, env.malloc = some p → load st.closures p = none) ∧
  (∀ t, env.calloc = some t → load st.tables t = none) ∧
  (∀ a, env.vm_allocate = some a → ∀ t T, load st.tables t = some T →
    a + tg.PAGE_MAX_SIZE * 2 ≤ T.config_page ∨ T.config_page + tg.PAGE_MAX_SIZE * 2 ≤ a)

/-- Histories: `History tg a f st` says that `st` is reached from the empty registry by calls of
`ffi_closure_alloc` and `ffi_closure_free` that all have a defined result, of
which `a` calls of `ffi_closure_alloc` returned a closure and `f` are calls of
`ffi_closure_free`.  A `ffi_closure_free` of a pointer that is not an allocated
closure (a double free) has no defined result. -/
inductive History (tg : Target) : Nat → Nat → State → Prop
  | init : History tg 0 0 State.empty
  | alloc {a f : Nat} {st : State} (size : Nat) (env : AllocEnv) (st1 : State) (r : Nat × Nat) :
      History tg a f st → env.fresh tg st →
      ffi_closure_alloc tg size env st = .ok (st1, some r) → History tg (a + 1) f st1
  | alloc_null {a f : Nat} {st : State} (size : Nat) (env : AllocEnv) (st1 : State) :
      History tg a f st → env.fresh tg st →
      ffi_closure_alloc tg size env st = .ok (st1, none) → History tg a f st1
  | free {a f : Nat} {st : State} (ptr : Nat) (st1 : State) :
      History tg a f st →
      ffi_closure_free tg ptr st = .ok st1 → History tg a (f + 1) st1

/-- Sum over the allocated tables of `FFI_TRAMPOLINE_COUNT - free_count`. -/
def outstanding (tg : Target) (st : State) : Nat :=
  (st.tables.map fun kv => FFI_TRAMPOLINE_COUNT tg - kv.2.free_count).sum

/-- A table without its two list links. -/
def core (T : ffi_trampoline_table) : ffi_trampoline_table :=
  { T with prev := none, next := none }

/-- Chains: `Chain t pool p L` says that following `next` from the entry pointer `p` in the pool
of table `t` visits the entries with indices `L` and ends at `NULL`. -/
inductive Chain (t : Nat) (pool : List ffi_trampoline_table_entry) :
    Option EntryPtr → List Nat → Prop
  | nil : Chain t pool none []
  | cons {i : Nat} {e : ffi_trampoline_table_entry} {L : List Nat} :
      pool[i]? = some e → Chain t pool e.next L → Chain t pool (some ⟨t, i⟩) (i :: L)

/-- The entry pointers met following `next` from `p`, at most `n` of them. -/
def free_list_walk (st : State) : Nat → Option EntryPtr → List EntryPtr
  | 0, _ => []
  | _ + 1, none => []
  | n + 1, some e =>
    e :: match read_entry st e with
      | .ok E => free_list_walk st n E.next
      | .error _ => []

/-- Indices of the slots of table `t` that closures hold. -/
def slots_of (cl : List (Nat × ffi_closure)) (t : Nat) : List Nat :=
  (cl.filter fun pc => decide (pc.2.trampoline_table = t)).map
    fun pc => pc.2.trampoline_table_entry.idx

/-- What holds of an allocated table `T` at address `t` whose slots `S` are
held by closures: the free list is a chain through the pool, and its indices
together with `S` are the indices below `FFI_TRAMPOLINE_COUNT`, each once. -/
structure TableOK (tg : Target) (t : Nat) (T : ffi_trampoline_table) (S : List Nat) : Prop where
  pool_len : T.free_list_pool.length = FFI_TRAMPOLINE_COUNT tg
  tramp : ∀ i e, T.free_list_pool[i]? = some e →
    e.trampoline = T.trampoline_page + i * tg.FFI_TRAMPOLINE_SIZE
  page : T.trampoline_page = T.config_page + tg.PAGE_MAX_SIZE
  chain : ∃ L, Chain t T.free_list_pool T.free_list L ∧ (L ++ S).Nodup ∧
    L.length = T.free_count ∧ (L ++ S).length = FFI_TRAMPOLINE_COUNT tg ∧
    ∀ i ∈ L ++ S, i < FFI_TRAMPOLINE_COUNT tg

/-- The invariant of the pool, for a head pointer, the allocated tables and the
allocated closures. -/
structure PoolInv (tg : Target) (head : Option Nat) (tables : List (Nat × ffi_trampoline_table))
    (closures : List (Nat × ffi_closure)) : Prop where
  tkeys : (tables.map Prod.fst).Nodup
  ckeys : (closures.map Prod.fst).Nodup
  head : ∀ h, head = some h → ∃ H, load tables h = some H
  table : ∀ t T, load tables t = some T → TableOK tg t T (slots_of closures t)
  clos : ∀ p c, load closures p = some c →
    c.trampoline_table_entry.pool = c.trampoline_table ∧
    ∃ T, load tables c.trampoline_table = some T
  pages : ∀ t1 T1 t2 T2, load tables t1 = some T1 → load tables t2 = some T2 → t1 ≠ t2 →
    T1.config_page + tg.PAGE_MAX_SIZE * 2 ≤ T2.config_page ∨
    T2.config_page + tg.PAGE_MAX_SIZE * 2 ≤ T1.config_page

/-- The invariant of the pool in a state. -/
def Inv (tg : Target) (st : State) : Prop :=
  PoolInv tg st.ffi_trampoline_tables st.tables st.closures

/-- Two table maps with the same addresses and, at each address, the same
table up to the list links. -/
def LinkEq (m1 m2 : List (Nat × ffi_trampoline_table)) : Prop :=
  m1.map Prod.fst = m2.map Prod.fst ∧ ∀ t, (load m1 t).map core = (load m2 t).map core

/-- The targets the pool is built for: at least one trampoline per page, and
the count fits the `uint16_t` field `free_count`. -/
def Target.ok (tg : Target) : Prop :=
  0 < FFI_TRAMPOLINE_COUNT tg ∧ FFI_TRAMPOLINE_COUNT tg < 65536

/-- Calls of `ffi_closure_alloc` one after the other, one per answer of the
system, with what each call returned. -/
def alloc_many (tg : Target) (size : Nat) :
    List AllocEnv → State → Except Err (State × List (Option (Nat × Nat)))
  | [], st => .ok (st, [])
  | env :: envs, st => do
    let (st, r) ← ffi_closure_alloc tg size env st
    let (st, rs) ← alloc_many tg size envs st
    pure (st, r :: rs)

/-- Calls of `ffi_closure_free` one after the other. -/
def free_many (tg : Target) : List Nat → State → Except Err State
  | [], st => .ok st
  | p :: ps, st => do
    let st ← ffi_closure_free tg p st
    free_many tg ps st

/-- Pairs of calls: `ffi_closure_alloc`, then `ffi_closure_free` of the closure
it returned (no `ffi_closure_free` after a `NULL`). -/
def alloc_free_pairs (tg : Target) (size : Nat) : List AllocEnv → State → Except Err State
  | [], st => .ok st
  | env :: envs, st => do
    let (st, r) ← ffi_closure_alloc tg size env st
    let st ← match r with
      | none => pure st
      | some (closure, _) => ffi_closure_free tg closure st
    alloc_free_pairs tg size envs st

/-- The table reached from `p` after `n` steps along `next`; `none` once the
walk has left the list at `NULL` (or at a pointer to no table). -/
def nth_table (st : State) : Nat → Option Nat → Option Nat
  | 0, p => p
  | n + 1, p =>
    match p with
    | none => none
    | some t =>
      match load st.tables t with
      | none => none
      | some T => nth_table st n T.next

/-- The code address of a closure: `closure->trampoline_table_entry->trampoline`,
the value `ffi_closure_alloc` stored in `*code`. -/
def code_address (st : State) (c : ffi_closure) : Option Nat :=
  match read_entry st c.trampoline_table_entry with
  | .ok E => some E.trampoline
  | .error _ => none

/-- The registry holds one table, `t`, with no neighbours. -/
def Single (tg : Target) (t : Nat) (st : State) : Prop :=
  Inv tg st ∧ st.ffi_trampoline_tables = some t ∧
    ∃ T, st.tables = [(t, T)] ∧ T.prev = none ∧ T.next = none

/-! ### Traces -/

/-- A call of the pool's interface, with what the system answers to it. -/
inductive Call where
  | alloc (size : Nat) (env : AllocEnv)
  | free (ptr : Nat)
deriving DecidableEq, Repr

/-- The predicate `AllocEnv.fresh` as a test. -/
def AllocEnv.fresh_b (tg : Target) (env : AllocEnv) (st : State) : Bool :=
  (match env.malloc with
    | some p => (load st.closures p).isNone
    | none => true) &&
  (match env.calloc with
    | some t => (load st.tables t).isNone
    | none => true) &&
  (match env.vm_allocate with
    | some a => st.tables.all fun kv =>
        decide (a + tg.PAGE_MAX_SIZE * 2 ≤ kv.2.config_page) ||
        decide (kv.2.config_page + tg.PAGE_MAX_SIZE * 2 ≤ a)
    | none => true)

/-- Run a trace from `st`, counting in `a` the calls of `ffi_closure_alloc`
that returned a closure and in `f` the calls of `ffi_closure_free`; `none`
when a call has no defined result or an answer of the system is not fresh. -/
def run (tg : Target) : List Call → State → Nat → Nat → Option (State × Nat × Nat)
  | [], st, a, f => some (st, a, f)
  | .alloc size env :: calls, st, a, f =>
    if env.fresh_b tg st then
      match ffi_closure_alloc tg size env st with
      | .ok (st1, some _) => run tg calls st1 (a + 1) f
      | .ok (st1, none) => run tg calls st1 a f
      | .error _ => none
    else none
  | .free ptr :: calls, st, a, f =>
    match ffi_closure_free tg ptr st with
    | .ok st1 => run tg calls st1 a (f + 1)
    | .error _ => none

/-- The state a trace ends in, from the empty registry (the empty registry
when the trace cannot be run). -/
def final_state (tg : Target) (calls : List Call) : State :=
  match run tg calls State.empty 0 0 with
  | some (st, _, _) => st
  | none => State.empty

/-- A target with four trampolines to a page. -/
def tg4 : Target := { PAGE_MAX_SIZE := 16384, FFI_TRAMPOLINE_SIZE := 4096 }

/-- A target with two trampolines to a page. -/
def tg2 : Target := { PAGE_MAX_SIZE := 16384, FFI_TRAMPOLINE_SIZE := 8192 }

/-- The system answers with closure block `closure`, two pages at `pages` and
table block `table`, and `vm_write` and `vm_protect` succeed. -/
def answers (closure pages table : Nat) : AllocEnv :=
  { malloc := some closure, vm_allocate := some pages, vm_write := true, vm_protect := true,
    calloc := some table }

/-- The system answers with closure block `closure`; no pages and no table
block are asked for. -/
def answers_closure (closure : Nat) : AllocEnv :=
  { malloc := some closure, vm_allocate := none, vm_write := true, vm_protect := true,
    calloc := none }

/-- Three closures out of a page of two: the third one needs a second table. -/
def three_allocs : List Call :=
  [.alloc 64 (answers 1 65536 10), .alloc 64 (answers_closure 2),
   .alloc 64 (answers 3 131072 20)]

/-- Three closures out of a page of two, then the first closure is freed: its
table is not the head and is not fully free. -/
def three_allocs_one_free : List Call := three_allocs ++ [.free 1]

/-- After `three_allocs_one_free`, the last closure of the second table is
freed too: that table is fully free and is not the head. -/
def three_allocs_two_frees : List Call := three_allocs_one_free ++ [.free 3]

/-- Five closures out of pages of two (tables 10, 20 and 30), then closures 3,
1 and 4 are freed: table 20 is bumped, table 10 is bumped, table 20 is
released. -/
def five_allocs_three_frees : List Call :=
  [.alloc 64 (answers 1 65536 10), .alloc 64 (answers_closure 2),
   .alloc 64 (answers 3 131072 20), .alloc 64 (answers_closure 4),
   .alloc 64 (answers 5 196608 30), .free 3, .free 1, .free 4]

/-- One pair of calls with four trampolines to a page. -/
def one_pair : List AllocEnv := [answers 1 65536 10]

/-- The system gives the pages and the blocks, and then `vm_write` fails. -/
def vm_write_fails : AllocEnv :=
  { malloc := some 1, vm_allocate := some 65536, vm_write := false, vm_protect := true,
    calloc := some 10 }

/-- The system gives the pages and the blocks, and then `vm_protect` fails. -/
def vm_protect_fails : AllocEnv :=
  { malloc := some 1, vm_allocate := some 65536, vm_write := true, vm_protect := false,
    calloc := some 10 }

/-! ## Part 2: the dual-map allocator and the trivial allocator -/

namespace DualMap

/-- What `closures.c` takes from `dlmalloc.c` and `ffi_common.h`, which are not
part of `closures.c`: the allocator `dlmalloc` on the malloc state `gm` (it
returns the new state and a pointer, `0` for `NULL`), the lookup
`segment_holding (gm, p)` of the segment that holds an address (`none` for a
null result), the macro `add_segment_exec_offset (p, seg)` and the macro
`FFI_CLOSURE_PTR`. -/
structure DlMalloc (G S : Type) where
  dlmalloc : G → Nat → G × Nat
  segment_holding : G → Nat → Option S
  add_segment_exec_offset : Nat → S → Nat
  FFI_CLOSURE_PTR : Nat → Nat

/-- The function `ffi_closure_alloc (size, code)` under `FFI_MMAP_EXEC_WRIT`; `code` tells
whether the pointer `code` is non-null.  The result is the malloc state, the
pointer returned and the value stored in `*code`, if one is stored.
`add_segment_exec_offset` reads `seg->exec_offset`, so a null `seg` is a fault. -/
def ffi_closure_alloc {G S : Type} (h : DlMalloc G S) (gm : G) (size : Nat) (code : Bool) :
    Except Err (G × Nat × Option Nat) :=
  if !code then .ok (gm, 0, none)
  else
    let (gm, p) := h.dlmalloc gm size
    let ptr := h.FFI_CLOSURE_PTR p
    if ptr ≠ 0 then
      match h.segment_holding gm ptr with
      | some seg => .ok (gm, ptr, some (h.add_segment_exec_offset ptr seg))
      | none => .error .fault
    else .ok (gm, ptr, none)

/-- The function `ffi_data_to_code_pointer (data)` under `FFI_MMAP_EXEC_WRIT`. -/
def ffi_data_to_code_pointer {G S : Type} (h : DlMalloc G S) (gm : G) (data : Nat) : Nat :=
  match h.segment_holding gm data with
  | some seg => h.add_segment_exec_offset data seg
  | none => data

/-- A small instance: the malloc state is the next free address of one segment
at `[4096, 8192)` whose executable twin lies `1048576` bytes above; a segment
is its `exec_offset`. -/
def one_segment : DlMalloc Nat Nat :=
  { dlmalloc := fun gm size => if gm + size ≤ 8192 then (gm + size, gm) else (gm, 0),
    segment_holding := fun _ p => if 4096 ≤ p ∧ p < 8192 then some 1048576 else none,
    add_segment_exec_offset := fun p seg => p + seg,
    FFI_CLOSURE_PTR := fun p => p }

end DualMap

namespace Trivial

/-- The function `ffi_closure_alloc (size, code)` of the trivial allocator:
`return *code = FFI_CLOSURE_PTR (mem_callbacks.malloc (size))`.  `malloc` is
what `mem_callbacks.malloc (size)` answers (`0` for `NULL`), `code` tells
whether the pointer `code` is non-null; the result is the pointer returned and
the value stored in `*code`, if one is stored. -/
def ffi_closure_alloc (FFI_CLOSURE_PTR : Nat → Nat) (malloc : Nat) (code : Bool) :
    Nat × Option Nat :=
  if !code then (0, none)
  else (FFI_CLOSURE_PTR malloc, some (FFI_CLOSURE_PTR malloc))

/-- The function `ffi_data_to_code_pointer (data)` of the trivial allocator. -/
def ffi_data_to_code_pointer (data : Nat) : Nat := data

end Trivial

/-! ## Part 3: the backing file of the dual-map allocator -/

namespace DualMap

/-- The functions an entry of `open_temp_exec_file_opts` can name. -/
inductive OpenFunc where
  | open_temp_exec_file_memfd
  | open_temp_exec_file_env
  | open_temp_exec_file_dir
  | open_temp_exec_file_mnt
deriving DecidableEq, Repr

/-- An entry of `open_temp_exec_file_opts`: `{ func, arg, repeat }`. -/
structure Opt where
  func : OpenFunc
  arg : String
  repeats : Bool
deriving DecidableEq, Repr

/-- The table `open_temp_exec_file_opts`, entry by entry as in the source; the
first entry is there under `HAVE_MEMFD_CREATE`, the last two under
`HAVE_MNTENT`. -/
def open_temp_exec_file_opts (have_memfd_create have_mntent : Bool) : List Opt :=
  (if have_memfd_create then [⟨.open_temp_exec_file_memfd, "libffi", false⟩] else []) ++
  [⟨.open_temp_exec_file_env, "TMPDIR", false⟩,
   ⟨.open_temp_exec_file_dir, "/tmp", false⟩,
   ⟨.open_temp_exec_file_dir, "/var/tmp", false⟩,
   ⟨.open_temp_exec_file_dir, "/dev/shm", false⟩,
   ⟨.open_temp_exec_file_env, "HOME", false⟩] ++
  (if have_mntent then
    [⟨.open_temp_exec_file_mnt, "/etc/mtab", true⟩,
     ⟨.open_temp_exec_file_mnt, "/proc/mounts", true⟩]
   else [])

/-- The values of `errno` that `dlmmap` tells apart. -/
inductive Errno where
  | EPERM
  | EACCES
  | other
deriving DecidableEq, Repr

/-- What the system answers, as a function of the number of calls made before
(the field `clock` of the state): `call_opt c i` is the result of
`open_temp_exec_file_opts[i].func (arg)` (`none` for `-1`), `allocate_space c`
tells whether `allocate_space` returned `0`, `mmap c` is the address `mmap`
returns (`none` for `MFAIL`) and `errno c` the `errno` it leaves when it fails,
`munmap c` tells whether `munmap` returned `0`.  The candidate functions
`open_temp_exec_file_memfd`, `open_temp_exec_file_env`,
`open_temp_exec_file_dir` and `open_temp_exec_file_mnt` do nothing but ask the
system (`memfd_create`, `getenv`, `open`, `mkstemp`, `getmntent_r`), and
`allocate_space` does nothing but `write`; their results are taken as given. -/
structure Sys where
  call_opt : Nat → Nat → Option Nat
  allocate_space : Nat → Bool
  mmap : Nat → Option Nat
  errno : Nat → Errno
  munmap : Nat → Bool

/-- The two mappings of a range of the backing file, and the anonymous mapping
that is writable and executable at once. -/
inductive View where
  | exec
  | write
  | both
deriving DecidableEq, Repr

/-- The observable calls of the backing-file code. -/
inductive FileEvent where
  | tried (idx : Nat) (fd : Option Nat)
  | reset (idx : Nat)
  | close (fd : Nat)
  | allocate_space (fd offset len : Nat) (ok : Bool)
  | mmap (v : View) (fd : Option Nat) (offset len : Nat) (r : Option Nat)
  | munmap (addr len : Nat) (ok : Bool)
  | ftruncate (fd offset : Nat)
  | mmap_exec_offset (start len : Nat) (value : Int)
  | on_allocate (addr len : Nat)
  | on_deallocate (addr len : Nat)
deriving DecidableEq, Repr

/-- The statics `execfd` (`none` for `-1`), `execsize` and
`open_temp_exec_file_opts_idx`, the number of calls made to the system, and
the calls made so far (oldest first). -/
structure ExecState where
  execfd : Option Nat
  execsize : Nat
  open_temp_exec_file_opts_idx : Nat
  clock : Nat
  log : List FileEvent
deriving DecidableEq, Repr

/-- The state at program start: `execfd = -1`, `execsize = 0`, index `0`. -/
def ExecState.start : ExecState :=
  { execfd := none, execsize := 0, open_temp_exec_file_opts_idx := 0, clock := 0, log := [] }

/-- One call to the system was made and `e` was observed. -/
def tick (st : ExecState) (e : FileEvent) : ExecState :=
  { st with clock := st.clock + 1, log := st.log ++ [e] }

/-- The function `open_temp_exec_file_opts_next`: reset a multi-call entry,
advance, and go back to the first entry after the last one; the result tells
whether it went back. -/
def open_temp_exec_file_opts_next (opts : List Opt) (st : ExecState) : ExecState × Bool :=
  let st :=
    match opts[st.open_temp_exec_file_opts_idx]? with
    | some o => if o.repeats then tick st (.reset st.open_temp_exec_file_opts_idx) else st
    | none => st
  let st := { st with open_temp_exec_file_opts_idx := st.open_temp_exec_file_opts_idx + 1 }
  if st.open_temp_exec_file_opts_idx = opts.length then
    ({ st with open_temp_exec_file_opts_idx := 0 }, true)
  else (st, false)

/-- The `do ... while (fd == -1)` loop of `open_temp_exec_file`, at most `fuel`
iterations.  An index outside the table is a fault. -/
def open_temp_exec_file_loop (opts : List Opt) (sys : Sys) :
    Nat → ExecState → Except Err (ExecState × Option Nat)
  | 0, _ => .error .fuel
  | fuel + 1, st =>
    match opts[st.open_temp_exec_file_opts_idx]? with
    | none => .error .fault
    | some o =>
      let fd := sys.call_opt st.clock st.open_temp_exec_file_opts_idx
      let st := tick st (.tried st.open_temp_exec_file_opts_idx fd)
      if !o.repeats || fd.isNone then
        let (st, wrapped) := open_temp_exec_file_opts_next opts st
        if wrapped then .ok (st, fd)
        else if fd.isNone then open_temp_exec_file_loop opts sys fuel st
        else .ok (st, fd)
      else .ok (st, fd)

/-- The function `open_temp_exec_file`.  Every iteration but the last moves the
index on, so one iteration per entry of the table is enough. -/
def open_temp_exec_file (opts : List Opt) (sys : Sys) (st : ExecState) :
    Except Err (ExecState × Option Nat) :=
  open_temp_exec_file_loop opts sys opts.length st

/-- The statement `else if (!offset && open_temp_exec_file_opts[
open_temp_exec_file_opts_idx].repeat) open_temp_exec_file_opts_next ();` of
`dlmmap_locked`.  An index outside the table, which no call leaves behind,
reads as an entry that does not repeat. -/
def next_if_repeat (opts : List Opt) (offset : Nat) (st : ExecState) : ExecState :=
  if offset = 0 then
    match opts[st.open_temp_exec_file_opts_idx]? with
    | some o => if o.repeats then (open_temp_exec_file_opts_next opts st).1 else st
    | none => st
  else st

/-- The body of `dlmmap_locked` from `offset = execsize` to its end, with the
file `execfd` open; `bits` is the width of `size_t`.  The result is `none` for
`goto retry_open` and `some r` for `return r` (`r = none` for `MFAIL`).  The
values of `prot` and `flags` are kept as the `View` of the mapping. -/
def map_views (opts : List Opt) (sys : Sys) (bits : Nat) (length : Nat) (execfd : Nat)
    (st : ExecState) : ExecState × Option (Option Nat) :=
  let offset := st.execsize
  let ok := sys.allocate_space st.clock
  let st := tick st (.allocate_space execfd offset length ok)
  if !ok then (st, some none)
  else
    let ptr := sys.mmap st.clock
    let st := tick st (.mmap .exec (some execfd) offset length ptr)
    match ptr with
    | none =>
      if offset = 0 then (tick st (.close execfd), none)
      else (tick st (.ftruncate execfd offset), some none)
    | some ptr =>
      let st := next_if_repeat opts offset st
      let start := sys.mmap st.clock
      let st := tick st (.mmap .write (some execfd) offset length start)
      match start with
      | none =>
        let st := tick st (.munmap ptr length (sys.munmap st.clock))
        (tick st (.ftruncate execfd offset), some none)
      | some start =>
        let st := { st with
          log := st.log ++ [FileEvent.mmap_exec_offset start length ((ptr : Int) - (start : Int))] }
        let st := { st with execsize := (st.execsize + length) % 2 ^ bits }
        let st := { st with
          log := st.log ++ [FileEvent.on_allocate ptr length, FileEvent.on_allocate start length] }
        (st, some (some start))

/-- The body of `dlmmap_locked` from the label `retry_open` (`reopen = true`) or
from `offset = execsize` (`reopen = false`), with at most `fuel` passes through
`retry_open`.  The result is the address returned (`none` for `MFAIL`). -/
def dlmmap_locked_from (opts : List Opt) (sys : Sys) (bits : Nat) (length : Nat) :
    Nat → Bool → ExecState → Except Err (ExecState × Option Nat)
  | 0, _, _ => .error .fuel
  | fuel + 1, reopen, st => do
    let (st, opened) ←
      if reopen then do
        let (st, fd) ← open_temp_exec_file opts sys st
        pure ({ st with execfd := fd }, fd.isSome)
      else pure (st, true)
    if !opened then pure (st, none)
    else
      match st.execfd with
      | none => .error .fault
      | some execfd =>
        match map_views opts sys bits length execfd st with
        | (st, none) => dlmmap_locked_from opts sys bits length fuel true st
        | (st, some r) => pure (st, r)

/-- The function `dlmmap_locked (start, length, prot, flags, offset)`. -/
def dlmmap_locked (opts : List Opt) (sys : Sys) (bits : Nat) (fuel : Nat) (length : Nat)
    (st : ExecState) : Except Err (ExecState × Option Nat) :=
  match st.execfd with
  | none =>
    dlmmap_locked_from opts sys bits length fuel true { st with open_temp_exec_file_opts_idx := 0 }
  | some _ => dlmmap_locked_from opts sys bits length fuel false st

/-- The function `dlmmap (start, length, prot, flags, fd, offset)`, with
`is_emutramp_enabled ()` and `is_selinux_enabled ()` the constants `0` they are
defined to be.  The mutex `open_temp_exec_file_mutex` is not modelled. -/
def dlmmap (opts : List Opt) (sys : Sys) (bits : Nat) (fuel : Nat) (length : Nat)
    (st : ExecState) : Except Err (ExecState × Option Nat) :=
  match st.execfd with
  | none =>
    let ptr := sys.mmap st.clock
    let errno := sys.errno st.clock
    let st := tick st (.mmap .both none 0 length ptr)
    match ptr with
    | some ptr =>
      .ok ({ st with log := st.log ++ [FileEvent.on_allocate ptr length] }, some ptr)
    | none =>
      if errno ≠ .EPERM ∧ errno ≠ .EACCES then .ok (st, none)
      else dlmmap_locked opts sys bits fuel length st
  | some _ => dlmmap_locked opts sys bits fuel length st

/-- The function `dlmunmap (start, length)`; `h` and `gm` give the segment
lookup of `dlmalloc.c`. -/
def dlmunmap {G S : Type} (h : DlMalloc G S) (gm : G) (sys : Sys) (start length : Nat)
    (st : ExecState) : ExecState × Bool :=
  let code :=
    match h.segment_holding gm start with
    | some seg => h.add_segment_exec_offset start seg
    | none => start
  if code ≠ start then
    let ok := sys.munmap st.clock
    let st := tick st (.munmap code length ok)
    if !ok then (st, false)
    else
      let st := { st with log := st.log ++ [FileEvent.on_deallocate code length] }
      let ok := sys.munmap st.clock
      let st := tick st (.munmap start length ok)
      if ok then ({ st with log := st.log ++ [FileEvent.on_deallocate start length] }, true)
      else (st, false)
  else
    let ok := sys.munmap st.clock
    let st := tick st (.munmap start length ok)
    if ok then ({ st with log := st.log ++ [FileEvent.on_deallocate start length] }, true)
    else (st, false)

/-- The candidates tried, oldest first, with what each call returned. -/
def tried_of (log : List FileEvent) : List (Nat × Option Nat) :=
  log.filterMap fun e =>
    match e with
    | .tried i fd => some (i, fd)
    | _ => none

/-- The events of `open_temp_exec_file`: a candidate is tried or a multi-call
candidate is reset. -/
def FileEvent.is_search : FileEvent → Bool
  | .tried _ _ => true
  | .reset _ => true
  | _ => false

/-- The view an event maps, if it is a call of `mmap`. -/
def FileEvent.view : FileEvent → Option View
  | .mmap v _ _ _ _ => some v
  | _ => none

/-- The length an event maps from the backing file for writing: the second of
the two mappings of `dlmmap_locked`, made once the executable one is there. -/
def FileEvent.mapped_len : FileEvent → Nat
  | .mmap .write (some _) _ len (some _) => len
  | _ => 0

/-- The sum of the lengths of the successful mappings of the backing file. -/
def mapped_from_file (log : List FileEvent) : Nat :=
  (log.map FileEvent.mapped_len).sum

/-- A call of the mapping layer by `dlmalloc`: `dlmmap` with a length, or
`dlmunmap` with the allocator state of that moment, an address and a length. -/
inductive MapCall (G : Type) where
  | dlmmap (length : Nat)
  | dlmunmap (gm : G) (start length : Nat)

/-- A sequence of calls of `dlmmap` and `dlmunmap`, in order. -/
def run_calls {G S : Type} (h : DlMalloc G S) (opts : List Opt) (sys : Sys) (bits fuel : Nat) :
    List (MapCall G) → ExecState → Except Err ExecState
  | [], st => .ok st
  | .dlmmap length :: rest, st =>
    match dlmmap opts sys bits fuel length st with
    | .ok (st, _) => run_calls h opts sys bits fuel rest st
    | .error e => .error e
  | .dlmunmap gm start length :: rest, st =>
    run_calls h opts sys bits fuel rest (dlmunmap h gm sys start length st).1

/-- A system where `/tmp` (entry 1) gives file 3 and `HOME` (entry 4) gives
file 4, every other candidate fails, and every other call succeeds. -/
def tmp_and_home : Sys :=
  { call_opt := fun _ i => if i = 1 then some 3 else if i = 4 then some 4 else none,
    allocate_space := fun _ => true,
    mmap := fun c => some (1048576 * (c + 1)),
    errno := fun _ => .other,
    munmap := fun _ => true }

/-- A system that refuses the mapping that is writable and executable at once
(the first call, with `EACCES`), where `/tmp` (entry 1) gives file 3, every
other candidate fails, and every other call succeeds. -/
def denies_combined : Sys :=
  { call_opt := fun _ i => if i = 1 then some 3 else none,
    allocate_space := fun _ => true,
    mmap := fun c => if c = 0 then none else some (1048576 * (c + 1)),
    errno := fun _ => .EACCES,
    munmap := fun _ => true }

/-- The segment lookup for one segment of 4096 bytes mapped for writing at
`6291456`, whose executable twin lies `1048576` bytes below; a segment is the
distance to subtract. -/
def file_segment : DlMalloc Nat Nat :=
  { dlmalloc := fun gm _ => (gm, 0),
    segment_holding := fun _ p => if 6291456 ≤ p ∧ p < 6295552 then some 1048576 else none,
    add_segment_exec_offset := fun p seg => p - seg,
    FFI_CLOSURE_PTR := fun p => p }

/-- In the calls `new`, every executable mapping at offset 0 that was refused
for a file `fd` is followed at once by `close (fd)` and then by the call of a
candidate. -/
def refused_then_closed (length : Nat) (new : List FileEvent) : Prop :=
  ∀ pre fd post, new = pre ++ FileEvent.mmap .exec (some fd) 0 length none :: post →
    ∃ j x rest, post = FileEvent.close fd :: FileEvent.tried j x :: rest

/-- A system where the first candidate gives file 3 and the file has no room. -/
def no_space : Sys :=
  { call_opt := fun _ i => if i = 0 then some 3 else none,
    allocate_space := fun _ => false,
    mmap := fun c => some (1048576 * (c + 1)),
    errno := fun _ => .other,
    munmap := fun _ => true }

/-- A system where only `HOME` (entry 4) gives a file, and no mapping of a file
for execution is granted. -/
def only_home_noexec : Sys :=
  { call_opt := fun _ i => if i = 4 then some 3 else none,
    allocate_space := fun _ => true,
    mmap := fun _ => none,
    errno := fun _ => .EACCES,
    munmap := fun _ => true }

/-- A system where `TMPDIR` (entry 0) gives file 3, whose mapping for execution
is refused, `/tmp` (entry 1) gives file 4, and every later call succeeds. -/
def first_refused : Sys :=
  { call_opt := fun _ i => if i = 0 then some 3 else if i = 1 then some 4 else none,
    allocate_space := fun _ => true,
    mmap := fun c => if c ≤ 2 then none else some (1048576 * (c + 1)),
    errno := fun _ => .EACCES,
    munmap := fun _ => true }

/-- The segment lookup for one segment of `2 ^ 30` bytes mapped for writing at
`2 ^ 31`, whose executable twin lies `2 ^ 30` bytes below; a segment is the
distance to subtract. -/
def wide_segment : DlMalloc Nat Nat :=
  { dlmalloc := fun gm _ => (gm, 0),
    segment_holding := fun _ p =>
      if 2147483648 ≤ p ∧ p < 3221225472 then some 1073741824 else none,
    add_segment_exec_offset := fun p seg => p - seg,
    FFI_CLOSURE_PTR := fun p => p }

/-- A system with a `size_t` of 32 bits in mind: the combined mapping (the
first call) is refused with `EACCES`, `/tmp` (entry 1) gives file 3 and every
other candidate fails, the executable view of a segment is mapped at `2 ^ 30`
and the writable one at `2 ^ 31`, and the 25th call, an executable mapping, is
refused. -/
def wraps_at_four : Sys :=
  { call_opt := fun _ i => if i = 1 then some 3 else none,
    allocate_space := fun _ => true,
    mmap := fun c =>
      if c = 0 ∨ c = 24 then none
      else if c % 5 = 4 then some 1073741824 else some 2147483648,
    errno := fun _ => .EACCES,
    munmap := fun _ => true }

/-- One segment of `2 ^ 30` bytes mapped by `dlmmap` and released by
`dlmunmap`. -/
def map_and_unmap : List (MapCall Nat) :=
  [.dlmmap 1073741824, .dlmunmap 0 2147483648 1073741824]

end DualMap

/-! ## Part 4: the remap-based allocator (NetBSD with `PROT_MPROTECT`) -/

namespace NetBSD

/-- The sizes of the target, in bytes: `word` is `sizeof (size_t)`, which is
also `sizeof (void *)` and `sizeof (uintptr_t)` on every NetBSD target, and
`max_align` is `sizeof (max_align_t)`. -/
structure Plat where
  word : Nat
  max_align : Nat
deriving DecidableEq, Repr

/-- The number of values of `size_t`: arithmetic on `size_t` and `uintptr_t` is
modulo this number. -/
def Plat.range (P : Plat) : Nat := 2 ^ (8 * P.word)

/-- The constant `overhead`: `sizeof (max_align_t)` if that is more than
`sizeof (void *) + sizeof (size_t)`, else the latter. -/
def overhead (P : Plat) : Nat :=
  if P.max_align > P.word + P.word then P.max_align else P.word + P.word

/-- The macro `ADD_TO_POINTER (p, d)`: `(void *) ((uintptr_t) (p) + (d))`. -/
def ADD_TO_POINTER (P : Plat) (p d : Nat) : Nat := (p + d) % P.range

/-- The value `-x` of type `size_t`. -/
def negate (P : Plat) (x : Nat) : Nat := (P.range - x % P.range) % P.range

/-- The expression `(size + overhead + page_size - 1) & ~(page_size - 1)` on
`size_t`, evaluated from the left. -/
def rounded_size (P : Plat) (size page_size : Nat) : Nat :=
  let sum := (((size + overhead P) % P.range + page_size) % P.range + (P.range - 1)) % P.range
  let mask := (P.range - 1) - (page_size + (P.range - 1)) % P.range
  sum &&& mask

/-- The call `memcpy (a, &v, n)` for an integer or pointer `v` of `n` bytes:
the bytes of `v`, lowest first, go to `a, a + 1, ..., a + n - 1`.  Memory is a
map from addresses to bytes. -/
def write_word (mem : Nat → Nat) (a n v : Nat) : Nat → Nat :=
  fun x => if a ≤ x ∧ x < a + n then v / 256 ^ (x - a) % 256 else mem x

/-- The call `memcpy (&v, a, n)`: the value whose `n` bytes are at
`a, a + 1, ..., a + n - 1`, lowest first. -/
def read_word (mem : Nat → Nat) : Nat → Nat → Nat
  | _, 0 => 0
  | a, n + 1 => mem a % 256 + 256 * read_word mem (a + 1) n

/-- The observable calls of the allocator. -/
inductive Event where
  | mmap (len : Nat) (r : Option Nat)
  | mremap (old len : Nat) (r : Option Nat)
  | mprotect (addr len : Nat) (ok : Bool)
  | munmap (addr len : Nat)
  | on_allocate (addr len : Nat)
  | on_deallocate (addr len : Nat)
deriving DecidableEq, Repr

/-- What the system answers during one call of `ffi_closure_alloc`:
`sysconf (_SC_PAGESIZE)` as a `size_t`, the address `mmap` returns and the one
`mremap` returns (`none` for `MAP_FAILED`), and whether `mprotect` returned
`0`. -/
structure Env where
  sysconf : Nat
  mmap : Option Nat
  mremap : Option Nat
  mprotect : Bool

/-- The static `page_size` of `ffi_closure_alloc`, the memory, and the calls
made so far (oldest first). -/
structure State where
  page_size : Nat
  mem : Nat → Nat
  log : List Event

/-- The function `ffi_closure_alloc (size, code)`; `code` tells whether the
pointer `code` is non-null.  The result is the state, the pointer returned
(`0` for `NULL`) and the value stored in `*code`, if one is stored. -/
def ffi_closure_alloc (P : Plat) (env : Env) (size : Nat) (code : Bool) (st : State) :
    State × Nat × Option Nat :=
  if !code then (st, 0, none)
  else
    let st := if st.page_size = 0 then { st with page_size := env.sysconf % P.range } else st
    let rounded_size := rounded_size P size st.page_size
    let st := { st with log := st.log ++ [Event.mmap rounded_size env.mmap] }
    match env.mmap with
    | none => (st, 0, none)
    | some dataseg =>
      let st := { st with log := st.log ++ [Event.mremap dataseg rounded_size env.mremap] }
      match env.mremap with
      | none => ({ st with log := st.log ++ [Event.munmap dataseg rounded_size] }, 0, none)
      | some codeseg =>
        let st := { st with
          log := st.log ++ [Event.mprotect codeseg rounded_size env.mprotect] }
        if !env.mprotect then
          ({ st with log := st.log ++
            [Event.munmap codeseg rounded_size, Event.munmap dataseg rounded_size] }, 0, none)
        else
          let st := { st with log := st.log ++
            [Event.on_allocate dataseg rounded_size, Event.on_allocate codeseg rounded_size] }
          let mem := write_word st.mem dataseg P.word rounded_size
          let mem := write_word mem (ADD_TO_POINTER P dataseg P.word) P.word codeseg
          ({ st with mem := mem }, ADD_TO_POINTER P dataseg (overhead P),
            some (ADD_TO_POINTER P codeseg (overhead P)))

/-- The function `ffi_closure_free (ptr)`. -/
def ffi_closure_free (P : Plat) (ptr : Nat) (st : State) : State :=
  let dataseg := ADD_TO_POINTER P ptr (negate P (overhead P))
  let rounded_size := read_word st.mem dataseg P.word
  let codeseg := read_word st.mem (ADD_TO_POINTER P dataseg P.word) P.word
  { st with log := st.log ++
    [Event.munmap dataseg rounded_size, Event.munmap codeseg rounded_size,
      Event.on_deallocate codeseg rounded_size, Event.on_deallocate dataseg rounded_size] }

/-- The state at program start: `page_size` is 0, memory holds zeros. -/
def State.start : State := { page_size := 0, mem := fun _ => 0, log := [] }

/-- A 64-bit target: words of 8 bytes, `max_align_t` of 32 bytes. -/
def lp64 : Plat := { word := 8, max_align := 32 }

/-- A call where every system call succeeds: pages of 4096 bytes, the data
mapping at `1048576`, the code mapping at `2097152`. -/
def all_granted : Env :=
  { sysconf := 4096, mmap := some 1048576, mremap := some 2097152, mprotect := true }

/-- A call where the data mapping and its duplicate are made and `mprotect`
fails. -/
def mprotect_refused : Env :=
  { sysconf := 4096, mmap := some 1048576, mremap := some 2097152, mprotect := false }

/-- The page size `ffi_closure_alloc` uses: the static if it is set, else what
`sysconf` answers. -/
def page_size_used (P : Plat) (env : Env) (st : State) : Nat :=
  if st.page_size = 0 then env.sysconf % P.range else st.page_size

end NetBSD

/-! ## Theorems -/

theorem load_cons {α : Type} (k : Nat) (v : α) (m : List (Nat × α)) (a : Nat) :
    load ((k, v) :: m) a = if k = a then some v else load m a := rfl

theorem load_eq_none_iff {α : Type} (m : List (Nat × α)) (a : Nat) :
    load m a = none ↔ a ∉ m.map Prod.fst := by
  induction m with
  | nil => simp [load]
  | cons kv m ih =>
    obtain ⟨k, v⟩ := kv
    by_cases h : k = a
    · simp [load_cons, h]
    · simp [load_cons, h, ih, Ne.symm h]

theorem mem_of_load {α : Type} {m : List (Nat × α)} {a : Nat} {x : α}
    (h : load m a = some x) : (a, x) ∈ m := by
  induction m with
  | nil => simp [load] at h
  | cons kv m ih =>
    obtain ⟨k, v⟩ := kv
    by_cases hk : k = a
    · simp [load_cons, hk] at h
      simp [hk, h]
    · simp [load_cons, hk] at h
      exact List.mem_cons_of_mem _ (ih h)

theorem load_of_mem {α : Type} {m : List (Nat × α)} {a : Nat} {x : α}
    (hn : (m.map Prod.fst).Nodup) (h : (a, x) ∈ m) : load m a = some x := by
  induction m with
  | nil => simp at h
  | cons kv m ih =>
    obtain ⟨k, v⟩ := kv
    simp only [List.map_cons, List.nodup_cons] at hn
    rcases List.mem_cons.mp h with h1 | h1
    · cases h1
      simp [load_cons]
    · have hk : k ≠ a := by
        rintro rfl
        exact hn.1 (List.mem_map.mpr ⟨(k, x), h1, rfl⟩)
      simp [load_cons, hk, ih hn.2 h1]

theorem store_cons {α : Type} (k : Nat) (v : α) (m : List (Nat × α)) (a : Nat) (x : α) :
    store ((k, v) :: m) a x = (if k = a then (k, x) else (k, v)) :: store m a x := rfl

theorem unbind_cons {α : Type} (k : Nat) (v : α) (m : List (Nat × α)) (a : Nat) :
    unbind ((k, v) :: m) a = if k = a then unbind m a else (k, v) :: unbind m a := by
  by_cases hk : k = a <;> simp [unbind, hk]

theorem load_store {α : Type} (m : List (Nat × α)) (a : Nat) (x : α) (b : Nat) :
    load (store m a x) b = if b = a then (load m a).map (fun _ => x) else load m b := by
  induction m with
  | nil => simp [store, load]
  | cons kv m ih =>
    obtain ⟨k, v⟩ := kv
    rw [store_cons]
    by_cases hk : k = a
    · subst hk
      by_cases hb : b = k
      · simp [load_cons, hb]
      · simp [load_cons, hb, Ne.symm hb, ih]
    · by_cases hb : b = a
      · subst hb
        simp [load_cons, hk, ih]
      · simp [load_cons, hk, hb, ih]

theorem load_store_same {α : Type} {m : List (Nat × α)} {a : Nat} {y : α} (x : α)
    (h : load m a = some y) : load (store m a x) a = some x := by
  simp [load_store, h]

theorem load_store_ne {α : Type} (m : List (Nat × α)) {a b : Nat} (x : α) (h : b ≠ a) :
    load (store m a x) b = load m b := by
  simp [load_store, h]

theorem load_unbind {α : Type} (m : List (Nat × α)) (a b : Nat) :
    load (unbind m a) b = if b = a then none else load m b := by
  induction m with
  | nil => simp [unbind, load]
  | cons kv m ih =>
    obtain ⟨k, v⟩ := kv
    rw [unbind_cons]
    by_cases hk : k = a
    · subst hk
      by_cases hb : b = k
      · subst hb
        simpa using ih
      · simp [load_cons, hb, Ne.symm hb, ih]
    · by_cases hb : b = a
      · subst hb
        simp [load_cons, hk, ih]
      · simp [load_cons, hk, hb, ih]

theorem keys_store {α : Type} (m : List (Nat × α)) (a : Nat) (x : α) :
    (store m a x).map Prod.fst = m.map Prod.fst := by
  induction m with
  | nil => rfl
  | cons kv m ih =>
    obtain ⟨k, v⟩ := kv
    rw [store_cons]
    by_cases hk : k = a <;> simp [hk, ih]

theorem keys_unbind {α : Type} (m : List (Nat × α)) (a : Nat) :
    (unbind m a).map Prod.fst = (m.map Prod.fst).filter fun k => !decide (k = a) := by
  simp [unbind, List.filter_map, Function.comp_def]

theorem store_store {α : Type} (m : List (Nat × α)) (a : Nat) (x y : α) :
    store (store m a x) a y = store m a y := by
  simp only [store, List.map_map]
  apply List.map_congr_left
  intro kv _
  by_cases hk : kv.1 = a <;> simp [hk]

theorem length_store {α : Type} (m : List (Nat × α)) (a : Nat) (x : α) :
    (store m a x).length = m.length := by
  simp [store]

/-! ### The blocks of the pool as equations -/

theorem read_table_ok {st : State} {t : Nat} {T : ffi_trampoline_table}
    (h : load st.tables t = some T) : read_table st t = .ok T := by
  simp [read_table, h]

theorem read_table_inv {st : State} {t : Nat} {T : ffi_trampoline_table}
    (h : read_table st t = .ok T) : load st.tables t = some T := by
  unfold read_table at h
  split at h
  · cases h; assumption
  · cases h

theorem return_entry_eq {st : State} {t i : Nat} {T : ffi_trampoline_table}
    {E : ffi_trampoline_table_entry}
    (hT : load st.tables t = some T) (hE : T.free_list_pool[i]? = some E) :
    return_entry t ⟨t, i⟩ st = .ok { st with
      tables := store st.tables t { T with
        free_list_pool := T.free_list_pool.set i { E with next := T.free_list },
        free_list := some ⟨t, i⟩,
        free_count := (T.free_count + 1) % 65536 } } := by
  simp [return_entry, read_table, write_entry_next, write_table, hT, hE, bind, Except.bind,
    load_store, store_store, pure, Except.pure]

theorem claim_entry_eq {st : State} {h i : Nat} {H : ffi_trampoline_table}
    {E : ffi_trampoline_table_entry}
    (hh : st.ffi_trampoline_tables = some h)
    (hH : load st.tables h = some H) (hf : H.free_list = some ⟨h, i⟩)
    (hE : H.free_list_pool[i]? = some E) :
    claim_entry st = .ok ({ st with
      tables := store st.tables h { H with
        free_list := E.next,
        free_count := (H.free_count + 65535) % 65536,
        free_list_pool := H.free_list_pool.set i { E with next := none } } }, ⟨h, i⟩) := by
  simp [claim_entry, read_table, read_entry, write_entry_next, write_table, hh, hH, hf, hE, bind,
    Except.bind, load_store, store_store, pure, Except.pure]

/-! ### Writes of the list links -/

theorem LinkEq.refl (m : List (Nat × ffi_trampoline_table)) : LinkEq m m := ⟨rfl, fun _ => rfl⟩

theorem LinkEq.trans {m1 m2 m3 : List (Nat × ffi_trampoline_table)}
    (h1 : LinkEq m1 m2) (h2 : LinkEq m2 m3) : LinkEq m1 m3 :=
  ⟨h1.1.trans h2.1, fun t => (h1.2 t).trans (h2.2 t)⟩

theorem LinkEq.lookup {m1 m2 : List (Nat × ffi_trampoline_table)} (h : LinkEq m1 m2)
    {t : Nat} {T : ffi_trampoline_table} (hT : load m1 t = some T) :
    ∃ T2, load m2 t = some T2 ∧ core T2 = core T := by
  have := h.2 t
  rw [hT] at this
  cases h2 : load m2 t with
  | none => simp [h2] at this
  | some T2 =>
    refine ⟨T2, rfl, ?_⟩
    simpa [h2] using this.symm

theorem LinkEq.symm {m1 m2 : List (Nat × ffi_trampoline_table)} (h : LinkEq m1 m2) :
    LinkEq m2 m1 := ⟨h.1.symm, fun t => (h.2 t).symm⟩

theorem LinkEq_store {m : List (Nat × ffi_trampoline_table)} {a : Nat}
    {A X : ffi_trampoline_table} (hA : load m a = some A) (hX : core X = core A) :
    LinkEq (store m a X) m := by
  refine ⟨keys_store m a X, fun t => ?_⟩
  by_cases ht : t = a
  · subst ht
    simp [load_store, hA, hX]
  · simp [load_store, ht]

theorem set_next_inv {p v : Option Nat} {st st1 : State} (h : set_next p v st = .ok st1) :
    LinkEq st1.tables st.tables ∧ st1.ffi_trampoline_tables = st.ffi_trampoline_tables ∧
    st1.closures = st.closures ∧ st1.log = st.log := by
  unfold set_next at h
  cases p with
  | none =>
    cases h
    exact ⟨LinkEq.refl _, rfl, rfl, rfl⟩
  | some p =>
    simp only at h
    cases hP : load st.tables p with
    | none => simp [hP] at h
    | some P =>
      simp only [hP, Except.ok.injEq] at h
      subst h
      exact ⟨LinkEq_store hP rfl, rfl, rfl, rfl⟩

theorem set_prev_inv {p v : Option Nat} {st st1 : State} (h : set_prev p v st = .ok st1) :
    LinkEq st1.tables st.tables ∧ st1.ffi_trampoline_tables = st.ffi_trampoline_tables ∧
    st1.closures = st.closures ∧ st1.log = st.log := by
  unfold set_prev at h
  cases p with
  | none =>
    cases h
    exact ⟨LinkEq.refl _, rfl, rfl, rfl⟩
  | some p =>
    simp only at h
    cases hP : load st.tables p with
    | none => simp [hP] at h
    | some P =>
      simp only [hP, Except.ok.injEq] at h
      subst h
      exact ⟨LinkEq_store hP rfl, rfl, rfl, rfl⟩

theorem bind_ok_inv {ε α β : Type} {x : Except ε α} {f : α → Except ε β} {b : β}
    (h : x >>= f = .ok b) : ∃ a, x = .ok a ∧ f a = .ok b := by
  cases x with
  | error e => cases h
  | ok a => exact ⟨a, rfl, h⟩

theorem ffi_trampoline_table_free_inv {tg : Target} {t : Nat} {st st1 : State}
    (h : ffi_trampoline_table_free tg t st = .ok st1) :
    ∃ T m, load st.tables t = some T ∧ LinkEq m st.tables ∧ st1.tables = unbind m t ∧
      st1.ffi_trampoline_tables = st.ffi_trampoline_tables ∧ st1.closures = st.closures ∧
      st1.log = st.log ++ [.vm_deallocate T.config_page (tg.PAGE_MAX_SIZE * 2),
        .on_deallocate T.config_page (tg.PAGE_MAX_SIZE * 2), .free (.pool t), .free (.table t)] := by
  unfold ffi_trampoline_table_free at h
  obtain ⟨T, hT, h⟩ := bind_ok_inv h
  obtain ⟨s1, h1, h⟩ := bind_ok_inv h
  obtain ⟨T1, hT1, h⟩ := bind_ok_inv h
  obtain ⟨s2, h2, h⟩ := bind_ok_inv h
  obtain ⟨T2, hT2, h⟩ := bind_ok_inv h
  have hT := read_table_inv hT
  have hT2 := read_table_inv hT2
  obtain ⟨l1, e1, c1, g1⟩ := set_next_inv h1
  obtain ⟨l2, e2, c2, g2⟩ := set_prev_inv h2
  have l12 := l2.trans l1
  obtain ⟨T0, hT0, hc⟩ := l12.lookup hT2
  rw [hT] at hT0
  cases hT0
  have hcp : T2.config_page = T.config_page := by
    have := congrArg ffi_trampoline_table.config_page hc
    simpa [core] using this.symm
  simp only [pure, Except.pure, Except.ok.injEq] at h
  subst h
  refine ⟨T, s2.tables, hT, l12, rfl, ?_, ?_, ?_⟩
  · simp [emit, e1, e2]
  · simp [emit, c1, c2]
  · simp [emit, g1, g2, hcp]

theorem bump_to_top_inv {t : Nat} {st st1 : State} (h : bump_to_top t st = .ok st1) :
    LinkEq st1.tables st.tables ∧ st1.ffi_trampoline_tables = some t ∧
    st1.closures = st.closures ∧ st1.log = st.log := by
  unfold bump_to_top at h
  obtain ⟨T, hT, h⟩ := bind_ok_inv h
  obtain ⟨T1, hT1, h⟩ := bind_ok_inv h
  obtain ⟨s2, h2, h⟩ := bind_ok_inv h
  have hT := read_table_inv hT
  have hT1 := read_table_inv hT1
  obtain ⟨l2, e2, c2, g2⟩ := set_prev_inv h2
  simp only [pure, Except.pure, Except.ok.injEq] at h
  subst h
  have la : LinkEq (write_table st t { T with prev := none }).tables st.tables :=
    LinkEq_store hT rfl
  have lb : LinkEq (write_table (write_table st t { T with prev := none }) t
      { T1 with next := (write_table st t { T with prev := none }).ffi_trampoline_tables }).tables
      (write_table st t { T with prev := none }).tables := LinkEq_store hT1 rfl
  refine ⟨(l2.trans lb).trans la, rfl, ?_, ?_⟩
  · simpa [write_table] using c2
  · simpa [write_table] using g2

/-! ### Free-list chains -/

theorem Chain.set {t : Nat} {pool : List ffi_trampoline_table_entry} {p : Option EntryPtr}
    {L : List Nat} (h : Chain t pool p L) (i : Nat) (x : ffi_trampoline_table_entry)
    (hi : i ∉ L) : Chain t (pool.set i x) p L := by
  induction h with
  | nil => exact Chain.nil
  | @cons j e L hj _ ih =>
    have hij : i ≠ j := fun h => hi (by simp [h])
    have hL : i ∉ L := fun h => hi (by simp [h])
    refine Chain.cons (e := e) ?_ (ih hL)
    rw [List.getElem?_set_ne hij]
    exact hj

theorem Chain.none_inv {t : Nat} {pool : List ffi_trampoline_table_entry} {L : List Nat}
    (h : Chain t pool none L) : L = [] := by
  cases h; rfl

theorem Chain.some_inv {t : Nat} {pool : List ffi_trampoline_table_entry} {e : EntryPtr}
    {L : List Nat} (h : Chain t pool (some e) L) :
    ∃ i E L1, e = ⟨t, i⟩ ∧ L = i :: L1 ∧ pool[i]? = some E ∧ Chain t pool E.next L1 := by
  cases h with
  | cons hj hc => exact ⟨_, _, _, rfl, rfl, hj, hc⟩

theorem Chain.nil_inv {t : Nat} {pool : List ffi_trampoline_table_entry} {p : Option EntryPtr}
    (h : Chain t pool p []) : p = none := by
  cases h; rfl

theorem Chain.unique {t : Nat} {pool : List ffi_trampoline_table_entry} {p : Option EntryPtr}
    {L1 L2 : List Nat} (h1 : Chain t pool p L1) (h2 : Chain t pool p L2) : L1 = L2 := by
  induction h1 generalizing L2 with
  | nil => exact h2.none_inv.symm
  | @cons j e L hj _ ih =>
    obtain ⟨i, E, L3, he, hL, hE, hc⟩ := h2.some_inv
    cases he
    rw [hj] at hE
    cases hE
    rw [hL, ih hc]

/-- The chain the loop of `ffi_trampoline_table_alloc` builds, from entry `k`. -/
theorem Chain.init (tg : Target) (t tp : Nat) (n k : Nat) (hk : k + n = FFI_TRAMPOLINE_COUNT tg) :
    Chain t (init_free_list_pool tg t tp (FFI_TRAMPOLINE_COUNT tg))
      (if k < FFI_TRAMPOLINE_COUNT tg then some ⟨t, k⟩ else none) (List.range' k n) := by
  induction n generalizing k with
  | zero =>
    have : ¬ k < FFI_TRAMPOLINE_COUNT tg := by omega
    simp only [this, if_false, List.range'_zero]
    exact Chain.nil
  | succ n ih =>
    have hlt : k < FFI_TRAMPOLINE_COUNT tg := by omega
    simp only [hlt, if_true, List.range'_succ]
    refine Chain.cons (e := ⟨tp + k * tg.FFI_TRAMPOLINE_SIZE,
      if k + 1 < FFI_TRAMPOLINE_COUNT tg then some ⟨t, k + 1⟩ else none⟩) ?_ ?_
    · simp [init_free_list_pool, hlt, List.getElem?_range]
    · exact ih (k + 1) (by omega)

/-! ### Slots held by closures -/

theorem slots_of_cons (p : Nat) (c : ffi_closure) (cl : List (Nat × ffi_closure)) (t : Nat) :
    slots_of ((p, c) :: cl) t =
      if c.trampoline_table = t then c.trampoline_table_entry.idx :: slots_of cl t
      else slots_of cl t := by
  by_cases h : c.trampoline_table = t <;> simp [slots_of, h]

theorem unbind_absent {α : Type} {m : List (Nat × α)} {a : Nat} (h : load m a = none) :
    unbind m a = m := by
  rw [load_eq_none_iff] at h
  unfold unbind
  rw [List.filter_eq_self]
  intro kv hkv
  have : kv.1 ≠ a := fun e => h (e ▸ List.mem_map_of_mem Prod.fst hkv)
  simp [this]

theorem slots_of_unbind_ne {cl : List (Nat × ffi_closure)} {p : Nat} {c : ffi_closure}
    (hn : (cl.map Prod.fst).Nodup)
    (hc : load cl p = some c) {t : Nat} (ht : t ≠ c.trampoline_table) :
    slots_of (unbind cl p) t = slots_of cl t := by
  induction cl with
  | nil => rfl
  | cons qc cl ih =>
    obtain ⟨q, d⟩ := qc
    simp only [List.map_cons, List.nodup_cons] at hn
    rw [unbind_cons]
    by_cases hq : q = p
    · simp only [load_cons, hq, if_true, Option.some.injEq] at hc
      subst hc
      subst hq
      have : load cl q = none := (load_eq_none_iff cl q).mpr hn.1
      simp only [if_true, slots_of_cons, if_neg (Ne.symm ht), unbind_absent this]
    · simp only [load_cons, hq, if_false] at hc
      simp only [hq, if_false, slots_of_cons, ih hn.2 hc]

theorem slots_of_unbind_perm {cl : List (Nat × ffi_closure)} {p : Nat} {c : ffi_closure}
    (hn : (cl.map Prod.fst).Nodup) (hc : load cl p = some c) :
    (slots_of cl c.trampoline_table).Perm
      (c.trampoline_table_entry.idx :: slots_of (unbind cl p) c.trampoline_table) := by
  induction cl with
  | nil => simp [load] at hc
  | cons qc cl ih =>
    obtain ⟨q, d⟩ := qc
    simp only [List.map_cons, List.nodup_cons] at hn
    rw [unbind_cons]
    by_cases hq : q = p
    · simp only [load_cons, hq, if_true, Option.some.injEq] at hc
      subst hc
      subst hq
      have : load cl q = none := (load_eq_none_iff cl q).mpr hn.1
      simp only [if_true, slots_of_cons, unbind_absent this]
      exact List.Perm.refl _
    · simp only [load_cons, hq, if_false] at hc
      simp only [hq, if_false, slots_of_cons]
      by_cases hd : d.trampoline_table = c.trampoline_table
      · simp only [hd, if_true]
        exact ((ih hn.2 hc).cons _).trans (List.Perm.swap _ _ _)
      · simp only [hd, if_false]
        exact ih hn.2 hc

theorem slots_of_eq_nil {cl : List (Nat × ffi_closure)} {t : Nat}
    (h : ∀ pc ∈ cl, pc.2.trampoline_table ≠ t) : slots_of cl t = [] := by
  simp only [slots_of, List.map_eq_nil_iff, List.filter_eq_nil_iff]
  intro pc hpc
  simpa using h pc hpc

theorem mem_slots_of {cl : List (Nat × ffi_closure)} {p : Nat} {c : ffi_closure}
    (h : (p, c) ∈ cl) : c.trampoline_table_entry.idx ∈ slots_of cl c.trampoline_table := by
  simp only [slots_of, List.mem_map, List.mem_filter]
  exact ⟨(p, c), ⟨h, by simp⟩, rfl⟩

theorem length_slots_of_le (cl : List (Nat × ffi_closure)) (t : Nat) :
    (slots_of cl t).length ≤ cl.length := by
  simp only [slots_of, List.length_map]
  exact List.length_filter_le _ _

/-! ### One table -/

theorem TableOK.of_core {tg : Target} {t : Nat} {T T1 : ffi_trampoline_table} {S : List Nat}
    (h : TableOK tg t T S) (hc : core T1 = core T) : TableOK tg t T1 S := by
  have e1 : T1.free_list_pool = T.free_list_pool := by
    have := congrArg ffi_trampoline_table.free_list_pool hc
    simpa [core] using this
  have e2 : T1.trampoline_page = T.trampoline_page := by
    have := congrArg ffi_trampoline_table.trampoline_page hc
    simpa [core] using this
  have e3 : T1.config_page = T.config_page := by
    have := congrArg ffi_trampoline_table.config_page hc
    simpa [core] using this
  have e4 : T1.free_list = T.free_list := by
    have := congrArg ffi_trampoline_table.free_list hc
    simpa [core] using this
  have e5 : T1.free_count = T.free_count := by
    have := congrArg ffi_trampoline_table.free_count hc
    simpa [core] using this
  exact ⟨e1 ▸ h.pool_len, by rw [e1, e2]; exact h.tramp, by rw [e2, e3]; exact h.page,
    by rw [e1, e4, e5]; exact h.chain⟩

theorem TableOK.perm {tg : Target} {t : Nat} {T : ffi_trampoline_table} {S S1 : List Nat}
    (h : TableOK tg t T S) (hp : S.Perm S1) : TableOK tg t T S1 := by
  obtain ⟨L, hc, hn, hl, hlen, hlt⟩ := h.chain
  have hp2 : (L ++ S).Perm (L ++ S1) := List.Perm.append_left L hp
  refine ⟨h.pool_len, h.tramp, h.page, L, hc, hp2.nodup_iff.mp hn, hl, ?_, ?_⟩
  · rw [← hp2.length_eq]; exact hlen
  · intro i hi
    exact hlt i (hp2.mem_iff.mpr hi)

theorem TableOK.slot_count {tg : Target} {t : Nat} {T : ffi_trampoline_table} {S : List Nat}
    (h : TableOK tg t T S) : T.free_count + S.length = FFI_TRAMPOLINE_COUNT tg := by
  obtain ⟨L, _, _, hl, hlen, _⟩ := h.chain
  rw [List.length_append] at hlen
  omega

theorem TableOK.free_list_none {tg : Target} {t : Nat} {T : ffi_trampoline_table} {S : List Nat}
    (h : TableOK tg t T S) : T.free_list = none ↔ T.free_count = 0 := by
  obtain ⟨L, hc, _, hl, _, _⟩ := h.chain
  constructor
  · intro hn
    rw [hn] at hc
    rw [← hl, hc.none_inv]
    rfl
  · intro h0
    rw [h0] at hl
    have : L = [] := List.length_eq_zero.mp hl
    subst this
    exact hc.nil_inv

theorem TableOK.after_claim {tg : Target} (hok : tg.ok) {t : Nat} {T : ffi_trampoline_table}
    {S : List Nat} (h : TableOK tg t T S) {e : EntryPtr} (hf : T.free_list = some e) :
    ∃ i E, e = ⟨t, i⟩ ∧ T.free_list_pool[i]? = some E ∧ i < FFI_TRAMPOLINE_COUNT tg ∧
      E.trampoline = T.trampoline_page + i * tg.FFI_TRAMPOLINE_SIZE ∧ i ∉ S ∧
      (T.free_count + 65535) % 65536 + 1 = T.free_count ∧
      TableOK tg t { T with free_list := E.next,
                            free_count := (T.free_count + 65535) % 65536,
                            free_list_pool := T.free_list_pool.set i { E with next := none } }
        (i :: S) := by
  obtain ⟨L, hc, hn, hl, hlen, hlt⟩ := h.chain
  rw [hf] at hc
  obtain ⟨i, E, L1, he, hL, hE, hc1⟩ := hc.some_inv
  subst hL
  have hiS : i ∉ S := by
    intro hi
    have := List.nodup_append.mp hn
    exact this.2.2 (List.mem_cons_self i L1) hi
  have hiL : i ∉ L1 := by
    have := (List.nodup_append.mp hn).1
    exact (List.nodup_cons.mp this).1
  have hfc : (T.free_count + 65535) % 65536 + 1 = T.free_count := by
    have h1 := hok.2
    have h2 : T.free_count ≤ FFI_TRAMPOLINE_COUNT tg := by
      rw [List.length_append] at hlen; omega
    simp only [List.length_cons] at hl
    omega
  refine ⟨i, E, he, hE, hlt i (by simp), h.tramp i E hE, hiS, hfc, ?_⟩
  refine ⟨by simpa using h.pool_len, ?_, h.page, L1, ?_, ?_, ?_, ?_, ?_⟩
  · intro j x hj
    simp only at hj
    by_cases hij : i = j
    · subst hij
      have hlt : i < T.free_list_pool.length := by
        rcases List.getElem?_eq_some_iff.mp hE with ⟨w, _⟩
        exact w
      rw [List.getElem?_set_self hlt] at hj
      cases hj
      exact h.tramp i E hE
    · rw [List.getElem?_set_ne hij] at hj
      exact h.tramp j x hj
  · exact hc1.set i _ hiL
  · have : (i :: (L1 ++ S)).Nodup := by simpa using hn
    exact List.nodup_middle.mpr this
  · simp only [List.length_cons] at hl
    show L1.length = (T.free_count + 65535) % 65536
    omega
  · simpa [Nat.add_assoc, Nat.add_comm, Nat.add_left_comm] using hlen
  · intro j hj
    apply hlt j
    simp only [List.mem_append, List.mem_cons] at hj ⊢
    tauto

theorem TableOK.entry_back {tg : Target} (hok : tg.ok) {t : Nat} {T : ffi_trampoline_table}
    {S S1 : List Nat} {i : Nat} (h : TableOK tg t T S) (hp : S.Perm (i :: S1)) :
    ∃ E, T.free_list_pool[i]? = some E ∧ (T.free_count + 1) % 65536 = T.free_count + 1 ∧
      T.free_count + 1 + S1.length = FFI_TRAMPOLINE_COUNT tg ∧
      TableOK tg t { T with free_list_pool := T.free_list_pool.set i { E with next := T.free_list },
                            free_list := some ⟨t, i⟩,
                            free_count := (T.free_count + 1) % 65536 } S1 := by
  have h1 := h.perm hp
  obtain ⟨L, hc, hn, hl, hlen, hlt⟩ := h1.chain
  have hi : i < T.free_list_pool.length := by
    rw [h.pool_len]
    exact hlt i (by simp)
  have hnm : (i :: (L ++ S1)).Nodup := List.nodup_middle.mp hn
  have hiL : i ∉ L := fun hm => (List.nodup_cons.mp hnm).1 (List.mem_append_left _ hm)
  have hlen2 : L.length + (S1.length + 1) = FFI_TRAMPOLINE_COUNT tg := by
    simpa using hlen
  have hfc : (T.free_count + 1) % 65536 = T.free_count + 1 := by
    have := hok.2
    omega
  refine ⟨T.free_list_pool[i], List.getElem?_eq_getElem hi, hfc, by omega, ?_⟩
  refine ⟨by simpa using h.pool_len, ?_, h.page, i :: L, ?_, ?_, ?_, ?_, ?_⟩
  · intro j x hj
    simp only at hj
    by_cases hij : i = j
    · subst hij
      rw [List.getElem?_set_self hi] at hj
      cases hj
      exact h.tramp i T.free_list_pool[i] (List.getElem?_eq_getElem hi)
    · rw [List.getElem?_set_ne hij] at hj
      exact h.tramp j x hj
  · refine Chain.cons (e := { T.free_list_pool[i] with next := T.free_list }) ?_ ?_
    · simp [List.getElem?_set_self hi]
    · exact hc.set i _ hiL
  · simpa using hnm
  · show (i :: L).length = (T.free_count + 1) % 65536
    simp only [List.length_cons]
    omega
  · simp only [List.cons_append, List.length_cons, List.length_append]
    omega
  · intro j hj
    apply hlt j
    simp only [List.cons_append, List.mem_cons, List.mem_append] at hj ⊢
    tauto

theorem TableOK.fresh {tg : Target} (hok : tg.ok) (t cp : Nat) (pv nx : Option Nat) :
    TableOK tg t (new_table tg t cp pv nx) [] := by
  unfold new_table
  have hm : FFI_TRAMPOLINE_COUNT tg % 65536 = FFI_TRAMPOLINE_COUNT tg := Nat.mod_eq_of_lt hok.2
  rw [hm]
  refine ⟨by simp [init_free_list_pool], ?_, rfl, List.range' 0 (FFI_TRAMPOLINE_COUNT tg),
    ?_, ?_, ?_, ?_, ?_⟩
  · intro i e hi
    simp only [init_free_list_pool, List.getElem?_map, Option.map_eq_some'] at hi
    obtain ⟨j, hj, rfl⟩ := hi
    rcases List.getElem?_eq_some_iff.mp hj with ⟨w, hw⟩
    simp only [List.length_range] at w
    simp only [List.getElem_range] at hw
    subst hw
    simp [w]
  · have := Chain.init tg t (cp + tg.PAGE_MAX_SIZE) (FFI_TRAMPOLINE_COUNT tg) 0 (by omega)
    simpa [hok.1] using this
  · simp [List.nodup_range']
  · simp
  · simp
  · intro i hi
    simp only [List.append_nil, List.mem_range'_1] at hi
    omega

/-! ### The invariant under the writes of the pool -/

theorem PoolInv.of_empty (tg : Target) : PoolInv tg none [] [] :=
  ⟨by simp, by simp, by simp, by simp [load], by simp [load], by simp [load]⟩

theorem PoolInv.links {tg : Target} {hd hd1 : Option Nat}
    {m m1 : List (Nat × ffi_trampoline_table)} {cl : List (Nat × ffi_closure)}
    (h : PoolInv tg hd m cl) (hl : LinkEq m1 m)
    (hh : ∀ x, hd1 = some x → ∃ H, load m1 x = some H) : PoolInv tg hd1 m1 cl := by
  refine ⟨hl.1 ▸ h.tkeys, h.ckeys, hh, ?_, ?_, ?_⟩
  · intro t T hT
    obtain ⟨T2, hT2, hc⟩ := hl.lookup hT
    exact (h.table t T2 hT2).of_core hc.symm
  · intro p c hc
    obtain ⟨e, T, hT⟩ := h.clos p c hc
    obtain ⟨T2, hT2, _⟩ := hl.symm.lookup hT
    exact ⟨e, T2, hT2⟩
  · intro t1 T1 t2 T2 h1 h2 hne
    obtain ⟨U1, hU1, c1⟩ := hl.lookup h1
    obtain ⟨U2, hU2, c2⟩ := hl.lookup h2
    have e1 : U1.config_page = T1.config_page := by
      have := congrArg ffi_trampoline_table.config_page c1
      simpa [core] using this
    have e2 : U2.config_page = T2.config_page := by
      have := congrArg ffi_trampoline_table.config_page c2
      simpa [core] using this
    rw [← e1, ← e2]
    exact h.pages t1 U1 t2 U2 hU1 hU2 hne

theorem PoolInv.update {tg : Target} {hd : Option Nat}
    {m : List (Nat × ffi_trampoline_table)} {cl cl1 : List (Nat × ffi_closure)}
    (h : PoolInv tg hd m cl) {t : Nat} {T T1 : ffi_trampoline_table}
    (hT : load m t = some T) (hcp : T1.config_page = T.config_page)
    (hk : (cl1.map Prod.fst).Nodup)
    (hok : TableOK tg t T1 (slots_of cl1 t))
    (hs : ∀ t1, t1 ≠ t → slots_of cl1 t1 = slots_of cl t1)
    (hc : ∀ p c, load cl1 p = some c → c.trampoline_table_entry.pool = c.trampoline_table ∧
      ∃ T, load m c.trampoline_table = some T) :
    PoolInv tg hd (store m t T1) cl1 := by
  have hload : ∀ x X, load (store m t T1) x = some X →
      (x = t ∧ X = T1) ∨ (x ≠ t ∧ load m x = some X) := by
    intro x X hx
    rw [load_store] at hx
    by_cases hxt : x = t
    · simp only [hxt, if_true, hT, Option.map_some', Option.some.injEq] at hx
      exact Or.inl ⟨hxt, hx.symm⟩
    · simp only [hxt, if_false] at hx
      exact Or.inr ⟨hxt, hx⟩
  have hsome : ∀ x X, load m x = some X → ∃ Y, load (store m t T1) x = some Y := by
    intro x X hx
    rw [load_store]
    by_cases hxt : x = t
    · simp [hxt, hT]
    · simp [hxt, hx]
  refine ⟨by rw [keys_store]; exact h.tkeys, hk, ?_, ?_, ?_, ?_⟩
  · intro x hx
    obtain ⟨H, hH⟩ := h.head x hx
    exact hsome x H hH
  · intro x X hx
    rcases hload x X hx with ⟨rfl, rfl⟩ | ⟨hne, hX⟩
    · exact hok
    · rw [hs x hne]
      exact h.table x X hX
  · intro p c hpc
    obtain ⟨e, X, hX⟩ := hc p c hpc
    exact ⟨e, hsome _ X hX⟩
  · have cp : ∀ x X, load (store m t T1) x = some X →
        ∃ Y, load m x = some Y ∧ Y.config_page = X.config_page := by
      intro x X hx
      rcases hload x X hx with ⟨rfl, rfl⟩ | ⟨_, hX⟩
      · exact ⟨T, hT, hcp.symm⟩
      · exact ⟨X, hX, rfl⟩
    intro a A b B h1 h2 hne
    obtain ⟨U1, hU1, e1⟩ := cp a A h1
    obtain ⟨U2, hU2, e2⟩ := cp b B h2
    rw [← e1, ← e2]
    exact h.pages a U1 b U2 hU1 hU2 hne

theorem PoolInv.closure_table_ne {tg : Target} {hd : Option Nat}
    {m : List (Nat × ffi_trampoline_table)} {cl : List (Nat × ffi_closure)}
    (h : PoolInv tg hd m cl) {t : Nat} (ht : load m t = none) :
    ∀ pc ∈ cl, pc.2.trampoline_table ≠ t := by
  rintro ⟨p, c⟩ hpc hct
  obtain ⟨_, T, hT⟩ := h.clos p c (load_of_mem h.ckeys hpc)
  simp only at hct
  rw [hct, ht] at hT
  cases hT

theorem PoolInv.push {tg : Target} (hok : tg.ok) {hd : Option Nat}
    {m : List (Nat × ffi_trampoline_table)} {cl : List (Nat × ffi_closure)}
    (h : PoolInv tg hd m cl) {t cp : Nat} (ht : load m t = none)
    (hp : ∀ x X, load m x = some X →
      cp + tg.PAGE_MAX_SIZE * 2 ≤ X.config_page ∨ X.config_page + tg.PAGE_MAX_SIZE * 2 ≤ cp)
    (pv nx : Option Nat) :
    PoolInv tg hd ((t, new_table tg t cp pv nx) :: m) cl := by
  refine ⟨?_, h.ckeys, ?_, ?_, ?_, ?_⟩
  · simp only [List.map_cons, List.nodup_cons]
    exact ⟨(load_eq_none_iff m t).mp ht, h.tkeys⟩
  · intro x hx
    obtain ⟨H, hH⟩ := h.head x hx
    have : t ≠ x := by
      rintro rfl
      rw [ht] at hH
      cases hH
    exact ⟨H, by simp [load_cons, this, hH]⟩
  · intro x X hx
    rw [load_cons] at hx
    by_cases hxt : t = x
    · subst hxt
      simp only [if_true, Option.some.injEq] at hx
      subst hx
      rw [slots_of_eq_nil (h.closure_table_ne ht)]
      exact TableOK.fresh hok t cp pv nx
    · simp only [hxt, if_false] at hx
      exact h.table x X hx
  · intro p c hpc
    obtain ⟨e, X, hX⟩ := h.clos p c hpc
    have : t ≠ c.trampoline_table := by
      intro e1
      rw [← e1, ht] at hX
      cases hX
    exact ⟨e, X, by simp [load_cons, this, hX]⟩
  · intro t1 T1 t2 T2 h1 h2 hne
    rw [load_cons] at h1 h2
    by_cases e1 : t = t1
    · by_cases e2 : t = t2
      · exact absurd (e1.symm.trans e2) hne
      · simp only [e1, if_true, Option.some.injEq] at h1
        simp only [e2, if_false] at h2
        subst h1
        exact hp t2 T2 h2
    · by_cases e2 : t = t2
      · simp only [e1, if_false] at h1
        simp only [e2, if_true, Option.some.injEq] at h2
        subst h2
        exact (hp t1 T1 h1).symm
      · simp only [e1, if_false] at h1
        simp only [e2, if_false] at h2
        exact h.pages t1 T1 t2 T2 h1 h2 hne

theorem PoolInv.release {tg : Target} {hd : Option Nat}
    {m : List (Nat × ffi_trampoline_table)} {cl : List (Nat × ffi_closure)}
    (h : PoolInv tg hd m cl) {t : Nat} (hh : hd ≠ some t) (hs : slots_of cl t = []) :
    PoolInv tg hd (unbind m t) cl := by
  have hload : ∀ x X, load (unbind m t) x = some X → x ≠ t ∧ load m x = some X := by
    intro x X hx
    rw [load_unbind] at hx
    by_cases hxt : x = t
    · simp [hxt] at hx
    · simp only [hxt, if_false] at hx
      exact ⟨hxt, hx⟩
  refine ⟨?_, h.ckeys, ?_, ?_, ?_, ?_⟩
  · rw [keys_unbind]
    exact h.tkeys.filter _
  · intro x hx
    obtain ⟨H, hH⟩ := h.head x hx
    have : x ≠ t := by
      rintro rfl
      exact hh hx
    exact ⟨H, by simp [load_unbind, this, hH]⟩
  · intro x X hx
    exact h.table x X (hload x X hx).2
  · intro p c hpc
    obtain ⟨e, X, hX⟩ := h.clos p c hpc
    have : c.trampoline_table ≠ t := by
      intro e1
      have := mem_slots_of (mem_of_load hpc)
      rw [e1, hs] at this
      cases this
    exact ⟨e, X, by simp [load_unbind, this, hX]⟩
  · intro t1 T1 t2 T2 h1 h2 hne
    exact h.pages t1 T1 t2 T2 (hload _ _ h1).2 (hload _ _ h2).2 hne

/-! ### `ffi_closure_alloc` -/

/-- The table after "Claim the free entry" took entry `i`. -/
theorem PoolInv.claim_head_entry {tg : Target} (hok : tg.ok) {h : Nat}
    {m : List (Nat × ffi_trampoline_table)} {cl : List (Nat × ffi_closure)}
    (hI : PoolInv tg (some h) m cl) {H : ffi_trampoline_table} (hH : load m h = some H)
    {e : EntryPtr} (hf : H.free_list = some e) {p : Nat} (hp : load cl p = none) :
    ∃ i E, e = ⟨h, i⟩ ∧ H.free_list_pool[i]? = some E ∧ i < FFI_TRAMPOLINE_COUNT tg ∧
      E.trampoline = H.trampoline_page + i * tg.FFI_TRAMPOLINE_SIZE ∧
      (H.free_count + 65535) % 65536 + 1 = H.free_count ∧
      PoolInv tg (some h)
        (store m h { H with free_list := E.next,
                            free_count := (H.free_count + 65535) % 65536,
                            free_list_pool := H.free_list_pool.set i { E with next := none } })
        ((p, ⟨h, ⟨h, i⟩⟩) :: cl) := by
  obtain ⟨i, E, he, hE, hi, htr, hiS, hfc, hT⟩ := (hI.table h H hH).after_claim hok hf
  refine ⟨i, E, he, hE, hi, htr, hfc, ?_⟩
  refine hI.update hH rfl ?_ ?_ ?_ ?_
  · simp only [List.map_cons, List.nodup_cons]
    exact ⟨(load_eq_none_iff cl p).mp hp, hI.ckeys⟩
  · rw [slots_of_cons]
    simpa using hT
  · intro t1 ht1
    rw [slots_of_cons]
    simp [Ne.symm ht1]
  · intro q c hq
    rw [load_cons] at hq
    by_cases hpq : p = q
    · simp only [hpq, if_true, Option.some.injEq] at hq
      subst hq
      exact ⟨rfl, H, hH⟩
    · simp only [hpq, if_false] at hq
      exact hI.clos q c hq

theorem ffi_closure_alloc_reuse {tg : Target} (hok : tg.ok) {st : State} (hI : Inv tg st)
    {h : Nat} (hh : st.ffi_trampoline_tables = some h) {H : ffi_trampoline_table}
    (hH : load st.tables h = some H) {e : EntryPtr} (hf : H.free_list = some e)
    (size : Nat) {env : AllocEnv} {p : Nat} (hm : env.malloc = some p)
    (hp : load st.closures p = none) :
    ∃ i E, e = ⟨h, i⟩ ∧ H.free_list_pool[i]? = some E ∧ i < FFI_TRAMPOLINE_COUNT tg ∧
      (H.free_count + 65535) % 65536 + 1 = H.free_count ∧
      Inv tg { st with
        tables := store st.tables h { H with
          free_list := E.next,
          free_count := (H.free_count + 65535) % 65536,
          free_list_pool := H.free_list_pool.set i { E with next := none } },
        closures := (p, ⟨h, ⟨h, i⟩⟩) :: st.closures } ∧
      ffi_closure_alloc tg size env st = .ok ({ st with
        tables := store st.tables h { H with
          free_list := E.next,
          free_count := (H.free_count + 65535) % 65536,
          free_list_pool := H.free_list_pool.set i { E with next := none } },
        closures := (p, ⟨h, ⟨h, i⟩⟩) :: st.closures },
        some (p, H.trampoline_page + i * tg.FFI_TRAMPOLINE_SIZE)) := by
  have hI1 : PoolInv tg (some h) st.tables st.closures := hh ▸ hI
  obtain ⟨i, E, he, hE, hi, htr, hfc, hI2⟩ := hI1.claim_head_entry hok hH hf hp
  refine ⟨i, E, he, hE, hi, hfc, ?_, ?_⟩
  · show PoolInv tg st.ffi_trampoline_tables _ _
    rw [hh]
    exact hI2
  · subst he
    have hlt : i < H.free_list_pool.length := by
      rcases List.getElem?_eq_some_iff.mp hE with ⟨w, _⟩
      exact w
    simp [ffi_closure_alloc, needs_table, hm, hh, hH, hf, bind, Except.bind, pure, Except.pure,
      claim_entry_eq hh hH hf hE, read_entry, load_store, List.getElem?_set_self hlt, htr]

theorem store_absent {α : Type} {m : List (Nat × α)} {a : Nat} (x : α) (h : load m a = none) :
    store m a x = m := by
  rw [load_eq_none_iff] at h
  unfold store
  conv_rhs => rw [← List.map_id m]
  apply List.map_congr_left
  intro kv hkv
  have : kv.1 ≠ a := fun e => h (e ▸ List.mem_map_of_mem Prod.fst hkv)
  simp [this]

theorem push_new_table_eq (tg : Target) {env : AllocEnv} {st : State} {cp t : Nat}
    (hv : env.vm_allocate = some cp) (hc : env.calloc = some t)
    (ht : load st.tables t = none)
    (hh : ∀ h, st.ffi_trampoline_tables = some h → ∃ H, load st.tables h = some H) :
    ∃ m1, push_new_table tg env st = .ok ({
        ffi_trampoline_tables := some t,
        tables := (t, new_table tg t cp none st.ffi_trampoline_tables) :: m1,
        closures := st.closures,
        log := st.log ++ [.vm_allocate cp (tg.PAGE_MAX_SIZE * 2),
          .on_allocate cp (tg.PAGE_MAX_SIZE * 2)] }, some t) ∧
      LinkEq m1 st.tables ∧
      (∀ h H, st.ffi_trampoline_tables = some h → load st.tables h = some H →
        m1 = store st.tables h { H with prev := some t }) ∧
      (st.ffi_trampoline_tables = none → m1 = st.tables) := by
  cases hd : st.ffi_trampoline_tables with
  | none =>
    refine ⟨st.tables, ?_, LinkEq.refl _, ?_, fun _ => rfl⟩
    · simp [push_new_table, ffi_trampoline_table_alloc, hv, hc, bind, Except.bind, pure,
        Except.pure, emit, read_table, write_table, load_cons, store_cons, store_absent _ ht,
        set_prev, hd, new_table]
    · intro h H hh1
      cases hh1
  | some h =>
    obtain ⟨H, hH⟩ := hh h hd
    have hne : t ≠ h := by
      rintro rfl
      rw [ht] at hH
      cases hH
    refine ⟨store st.tables h { H with prev := some t }, ?_, LinkEq_store hH rfl, ?_, ?_⟩
    · simp [push_new_table, ffi_trampoline_table_alloc, hv, hc, bind, Except.bind, pure,
        Except.pure, emit, read_table, write_table, load_cons, store_cons, store_absent _ ht,
        set_prev, hd, new_table, hne, hH]
    · intro h1 H1 e1 e2
      cases e1
      rw [hH] at e2
      cases e2
      rfl
    · intro e1
      cases e1

theorem LinkEq.cons {m1 m2 : List (Nat × ffi_trampoline_table)} (h : LinkEq m1 m2)
    (t : Nat) (T : ffi_trampoline_table) : LinkEq ((t, T) :: m1) ((t, T) :: m2) := by
  refine ⟨by simp [h.1], fun x => ?_⟩
  by_cases hx : t = x
  · simp [load_cons, hx]
  · simp [load_cons, hx, h.2 x]

theorem LinkEq.load_none {m1 m2 : List (Nat × ffi_trampoline_table)} (h : LinkEq m1 m2)
    {t : Nat} (ht : load m2 t = none) : load m1 t = none := by
  rw [load_eq_none_iff] at ht ⊢
  rw [h.1]
  exact ht

theorem ffi_closure_alloc_grow {tg : Target} (hok : tg.ok) {st : State} (hI : Inv tg st)
    (hex : st.ffi_trampoline_tables = none ∨ ∃ h H, st.ffi_trampoline_tables = some h ∧
      load st.tables h = some H ∧ H.free_list = none)
    (size : Nat) {env : AllocEnv} {p cp t : Nat} (hm : env.malloc = some p)
    (hv : env.vm_allocate = some cp) (hc : env.calloc = some t) (hfr : env.fresh tg st) :
    ∃ st1 m1 Tn, ffi_closure_alloc tg size env st = .ok (st1, some (p, cp + tg.PAGE_MAX_SIZE)) ∧
      Inv tg st1 ∧ st1.ffi_trampoline_tables = some t ∧
      st1.closures = (p, ⟨t, ⟨t, 0⟩⟩) :: st.closures ∧
      st1.log = st.log ++ [.vm_allocate cp (tg.PAGE_MAX_SIZE * 2),
        .on_allocate cp (tg.PAGE_MAX_SIZE * 2)] ∧
      st1.tables = (t, Tn) :: m1 ∧ LinkEq m1 st.tables ∧
      Tn.next = st.ffi_trampoline_tables ∧ Tn.prev = none ∧
      Tn.free_count + 1 = FFI_TRAMPOLINE_COUNT tg ∧ Tn.config_page = cp ∧
      Tn.trampoline_page = cp + tg.PAGE_MAX_SIZE ∧
      (∀ h H, st.ffi_trampoline_tables = some h → load st.tables h = some H →
        m1 = store st.tables h { H with prev := some t }) ∧
      (st.ffi_trampoline_tables = none → m1 = st.tables) := by
  obtain ⟨hfp, hft, hfv⟩ := hfr
  have hp := hfp p hm
  have ht := hft t hc
  have hpg := hfv cp hv
  obtain ⟨m1, hpush, hl, hm1a, hm1b⟩ := push_new_table_eq tg hv hc ht hI.head
  have ht1 : load m1 t = none := hl.load_none ht
  have hI1 : PoolInv tg (some t)
      ((t, new_table tg t cp none st.ffi_trampoline_tables) :: m1) st.closures := by
    refine (hI.push hok ht hpg none st.ffi_trampoline_tables).links (hl.cons _ _) ?_
    intro x hx
    cases hx
    exact ⟨new_table tg t cp none st.ffi_trampoline_tables, by simp [load_cons]⟩
  have hX : load ((t, new_table tg t cp none st.ffi_trampoline_tables) :: m1) t =
      some (new_table tg t cp none st.ffi_trampoline_tables) := by simp [load_cons]
  obtain ⟨i, E, he, hE, hi, htr, hfc, hI2⟩ :=
    hI1.claim_head_entry hok hX (e := ⟨t, 0⟩) rfl hp
  have hi0 : i = 0 := by
    have := congrArg EntryPtr.idx he
    exact this.symm
  subst hi0
  have hlt : 0 < (new_table tg t cp none st.ffi_trampoline_tables).free_list_pool.length := by
    rcases List.getElem?_eq_some_iff.mp hE with ⟨w, _⟩
    exact w
  rw [store_cons, if_pos rfl, store_absent _ ht1] at hI2
  have hmod : FFI_TRAMPOLINE_COUNT tg % 65536 = FFI_TRAMPOLINE_COUNT tg :=
    Nat.mod_eq_of_lt hok.2
  refine ⟨⟨some t, (t, { new_table tg t cp none st.ffi_trampoline_tables with
      free_list := E.next,
      free_count := ((new_table tg t cp none st.ffi_trampoline_tables).free_count + 65535) % 65536,
      free_list_pool := (new_table tg t cp none st.ffi_trampoline_tables).free_list_pool.set 0
        { E with next := none } }) :: m1,
    (p, ⟨t, ⟨t, 0⟩⟩) :: st.closures,
    st.log ++ [.vm_allocate cp (tg.PAGE_MAX_SIZE * 2), .on_allocate cp (tg.PAGE_MAX_SIZE * 2)]⟩,
    m1, _, ?_, hI2, rfl, rfl, rfl, rfl, hl, rfl, rfl, ?_, rfl, rfl, hm1a, hm1b⟩
  · have hexh : needs_table st = .ok true := by
      rcases hex with hd | ⟨h, H, hd, hH, hf⟩
      · simp [needs_table, hd]
      · simp [needs_table, hd, hH, hf]
    unfold ffi_closure_alloc
    simp only [hm, hexh, bind, Except.bind, if_true, hpush]
    rw [@claim_entry_eq ⟨some t, _, _, _⟩ _ _ _ _ rfl hX rfl hE]
    simp only [store_cons, if_pos, store_absent _ ht1, read_entry, load_cons,
      List.getElem?_set_self hlt, pure, Except.pure]
    simp [htr, new_table]
  · show (FFI_TRAMPOLINE_COUNT tg % 65536 + 65535) % 65536 + 1 = FFI_TRAMPOLINE_COUNT tg
    have := hok.1
    omega

theorem needs_table_cases {tg : Target} {st : State} (hI : Inv tg st) :
    (needs_table st = .ok true ∧ (st.ffi_trampoline_tables = none ∨
      ∃ h H, st.ffi_trampoline_tables = some h ∧ load st.tables h = some H ∧
        H.free_list = none)) ∨
    (needs_table st = .ok false ∧ ∃ h H e, st.ffi_trampoline_tables = some h ∧
      load st.tables h = some H ∧ H.free_list = some e) := by
  cases hd : st.ffi_trampoline_tables with
  | none => exact Or.inl ⟨by simp [needs_table, hd], Or.inl rfl⟩
  | some h =>
    obtain ⟨H, hH⟩ := hI.head h hd
    cases hf : H.free_list with
    | none => exact Or.inl ⟨by simp [needs_table, hd, hH, hf], Or.inr ⟨h, H, rfl, hH, hf⟩⟩
    | some e => exact Or.inr ⟨by simp [needs_table, hd, hH, hf], h, H, e, rfl, hH, hf⟩

theorem ffi_closure_alloc_malloc_null {tg : Target} (size : Nat) {env : AllocEnv} (st : State)
    (hm : env.malloc = none) : ffi_closure_alloc tg size env st = .ok (st, none) := by
  simp [ffi_closure_alloc, hm]

theorem ffi_closure_alloc_vm_null {tg : Target} (size : Nat) {env : AllocEnv} {st : State}
    {p : Nat} (hm : env.malloc = some p) (hn : needs_table st = .ok true)
    (hv : env.vm_allocate = none) :
    ffi_closure_alloc tg size env st = .ok (emit st (.free (.closure p)), none) := by
  simp [ffi_closure_alloc, hm, hn, push_new_table, ffi_trampoline_table_alloc, hv, bind,
    Except.bind, pure, Except.pure]

theorem ffi_closure_alloc_calloc_null {tg : Target} (size : Nat) {env : AllocEnv} {st : State}
    {p cp : Nat} (hm : env.malloc = some p) (hn : needs_table st = .ok true)
    (hv : env.vm_allocate = some cp) (hc : env.calloc = none) :
    ffi_closure_alloc tg size env st = .error .fault := by
  simp [ffi_closure_alloc, hm, hn, push_new_table, ffi_trampoline_table_alloc, hv, hc, bind,
    Except.bind]

/-- What a call of `ffi_closure_alloc` with a defined result does to a state
that satisfies the invariant. -/
theorem ffi_closure_alloc_inv {tg : Target} (hok : tg.ok) {st st1 : State} (hI : Inv tg st)
    {size : Nat} {env : AllocEnv} (hfr : env.fresh tg st) {r : Option (Nat × Nat)}
    (h : ffi_closure_alloc tg size env st = .ok (st1, r)) :
    Inv tg st1 ∧
    (r = none → st1.tables = st.tables ∧ st1.closures = st.closures ∧
      st1.ffi_trampoline_tables = st.ffi_trampoline_tables) ∧
    (∀ x, r = some x → (∃ c, st1.closures = (x.1, c) :: st.closures) ∧
      st1.ffi_trampoline_tables ≠ none) := by
  cases hm : env.malloc with
  | none =>
    rw [ffi_closure_alloc_malloc_null size st hm] at h
    cases h
    exact ⟨hI, fun _ => ⟨rfl, rfl, rfl⟩, fun x hx => by cases hx⟩
  | some p =>
    have hp := hfr.1 p hm
    rcases needs_table_cases hI with ⟨hn, hex⟩ | ⟨hn, hd, H, e, hh, hH, hf⟩
    · cases hv : env.vm_allocate with
      | none =>
        rw [ffi_closure_alloc_vm_null size hm hn hv] at h
        cases h
        exact ⟨hI, fun _ => ⟨rfl, rfl, rfl⟩, fun x hx => by cases hx⟩
      | some cp =>
        cases hc : env.calloc with
        | none =>
          rw [ffi_closure_alloc_calloc_null size hm hn hv hc] at h
          cases h
        | some t =>
          obtain ⟨s2, m1, Tn, heq, hI2, hh2, hcl, _⟩ :=
            ffi_closure_alloc_grow hok hI hex size hm hv hc hfr
          rw [heq] at h
          cases h
          refine ⟨hI2, (fun hr => by cases hr), fun x hx => ?_⟩
          cases hx
          exact ⟨⟨_, hcl⟩, by rw [hh2]; simp⟩
    · obtain ⟨i, E, _, _, _, _, hI2, heq⟩ := ffi_closure_alloc_reuse hok hI hh hH hf size hm hp
      rw [heq] at h
      cases h
      refine ⟨hI2, (fun hr => by cases hr), fun x hx => ?_⟩
      cases hx
      exact ⟨⟨_, rfl⟩, by show st.ffi_trampoline_tables ≠ none; rw [hh]; simp⟩

/-! ### `ffi_closure_free` -/

/-- The first half of `ffi_closure_free`, on a state that satisfies the
invariant: the entry goes back to the free list of its table, the count of the
table goes up by one without wrapping, and the invariant holds again once the
closure block is dropped. -/
theorem PoolInv.give_back {tg : Target} (hok : tg.ok) {st : State} (hI : Inv tg st)
    {ptr : Nat} {c : ffi_closure} (hc : load st.closures ptr = some c) :
    ∃ T E, load st.tables c.trampoline_table = some T ∧
      T.free_list_pool[c.trampoline_table_entry.idx]? = some E ∧
      (returned T c E).free_count = T.free_count + 1 ∧
      T.free_count + 1 + (slots_of (unbind st.closures ptr) c.trampoline_table).length =
        FFI_TRAMPOLINE_COUNT tg ∧
      return_entry c.trampoline_table c.trampoline_table_entry st =
        .ok { st with tables := store st.tables c.trampoline_table (returned T c E) } ∧
      PoolInv tg st.ffi_trampoline_tables
        (store st.tables c.trampoline_table (returned T c E)) (unbind st.closures ptr) := by
  obtain ⟨hpool, T, hT⟩ := hI.clos ptr c hc
  have hperm := slots_of_unbind_perm hI.ckeys hc
  obtain ⟨E, hE, hfc, hcnt, hOK⟩ := (hI.table _ T hT).entry_back hok hperm
  obtain ⟨tt, ⟨pl, ix⟩⟩ := c
  simp only at hpool
  subst hpool
  refine ⟨T, E, hT, hE, hfc, hcnt, ?_, ?_⟩
  · exact return_entry_eq hT hE
  · refine PoolInv.update hI hT rfl ?_ ?_ ?_ ?_
    · rw [keys_unbind]
      exact hI.ckeys.filter _
    · exact hOK
    · intro t1 ht1
      exact slots_of_unbind_ne hI.ckeys hc ht1
    · intro q d hq
      rw [load_unbind] at hq
      by_cases hqp : q = ptr
      · simp [hqp] at hq
      · simp only [hqp, if_false] at hq
        exact hI.clos q d hq

/-- The function `ffi_closure_free` after its first half, on a state that satisfies the
invariant. -/
theorem ffi_closure_free_unfold {tg : Target} (hok : tg.ok) {st : State} (hI : Inv tg st)
    {ptr : Nat} {c : ffi_closure} (hc : load st.closures ptr = some c)
    {T : ffi_trampoline_table} {E : ffi_trampoline_table_entry}
    (hT : load st.tables c.trampoline_table = some T)
    (hE : T.free_list_pool[c.trampoline_table_entry.idx]? = some E) :
    ffi_closure_free tg ptr st =
      (if T.free_count + 1 = FFI_TRAMPOLINE_COUNT tg ∧
          st.ffi_trampoline_tables ≠ some c.trampoline_table then
        ffi_trampoline_table_free tg c.trampoline_table
          { st with tables := store st.tables c.trampoline_table (returned T c E) }
      else if st.ffi_trampoline_tables ≠ some c.trampoline_table then
        bump_to_top c.trampoline_table
          { st with tables := store st.tables c.trampoline_table (returned T c E) }
      else .ok { st with tables := store st.tables c.trampoline_table (returned T c E) }) >>=
      fun s => .ok { emit s (.free (.closure ptr)) with closures := unbind s.closures ptr } := by
  obtain ⟨T1, E1, hT1, hE1, hfc, _, hret, _⟩ := PoolInv.give_back hok hI hc
  rw [hT] at hT1
  cases hT1
  rw [hE] at hE1
  cases hE1
  unfold ffi_closure_free
  simp only [hc, bind, Except.bind, hret, read_table, load_store_same _ hT, hfc]
  split_ifs <;> rfl

theorem load_returned_ne {st : State} {t : Nat} (X : ffi_trampoline_table) {x : Nat}
    (hx : x ≠ t) : load (store st.tables t X) x = load st.tables x :=
  load_store_ne _ X hx

/-- What a call of `ffi_closure_free` with a defined result does to a state
that satisfies the invariant. -/
theorem ffi_closure_free_inv {tg : Target} (hok : tg.ok) {st st1 : State} (hI : Inv tg st)
    {ptr : Nat} (h : ffi_closure_free tg ptr st = .ok st1) :
    ∃ c T, load st.closures ptr = some c ∧ load st.tables c.trampoline_table = some T ∧
      Inv tg st1 ∧ st1.closures = unbind st.closures ptr ∧
      (∀ x, x ≠ c.trampoline_table →
        (load st1.tables x).map core = (load st.tables x).map core) ∧
      ((T.free_count + 1 = FFI_TRAMPOLINE_COUNT tg ∧
          st.ffi_trampoline_tables ≠ some c.trampoline_table) →
        load st1.tables c.trampoline_table = none ∧
        st1.ffi_trampoline_tables = st.ffi_trampoline_tables ∧
        slots_of st1.closures c.trampoline_table = [] ∧
        st1.log = st.log ++ [.vm_deallocate T.config_page (tg.PAGE_MAX_SIZE * 2),
          .on_deallocate T.config_page (tg.PAGE_MAX_SIZE * 2),
          .free (.pool c.trampoline_table), .free (.table c.trampoline_table),
          .free (.closure ptr)]) ∧
      (¬ (T.free_count + 1 = FFI_TRAMPOLINE_COUNT tg ∧
          st.ffi_trampoline_tables ≠ some c.trampoline_table) →
        (∃ T1, load st1.tables c.trampoline_table = some T1 ∧
          T1.free_count = T.free_count + 1) ∧
        st1.ffi_trampoline_tables = some c.trampoline_table ∧
        st1.log = st.log ++ [.free (.closure ptr)]) := by
  cases hc : load st.closures ptr with
  | none => simp [ffi_closure_free, hc] at h
  | some c =>
    obtain ⟨T, E, hT, hE, hfc, hcnt, _, hI1⟩ := PoolInv.give_back hok hI hc
    rw [ffi_closure_free_unfold hok hI hc hT hE] at h
    obtain ⟨s2, h2, h3⟩ := bind_ok_inv h
    simp only [Except.ok.injEq] at h3
    subst h3
    have hRT : load (store st.tables c.trampoline_table (returned T c E)) c.trampoline_table =
        some (returned T c E) := load_store_same _ hT
    refine ⟨c, T, rfl, hT, ?_⟩
    by_cases hrel : T.free_count + 1 = FFI_TRAMPOLINE_COUNT tg ∧
        st.ffi_trampoline_tables ≠ some c.trampoline_table
    · rw [if_pos hrel] at h2
      obtain ⟨T2, m, hT2, hl, htab, hhd, hcl, hlog⟩ := ffi_trampoline_table_free_inv h2
      simp only at hT2 hl hhd hcl hlog
      rw [hRT] at hT2
      cases hT2
      have hS : slots_of (unbind st.closures ptr) c.trampoline_table = [] := by
        apply List.length_eq_zero.mp
        omega
      have hI2 : PoolInv tg st.ffi_trampoline_tables (unbind m c.trampoline_table)
          (unbind st.closures ptr) := by
        refine PoolInv.release (hI1.links hl ?_) hrel.2 hS
        intro x hx
        obtain ⟨H, hH⟩ := hI1.head x hx
        obtain ⟨H2, hH2, _⟩ := hl.symm.lookup hH
        exact ⟨H2, hH2⟩
      refine ⟨?_, ?_, ?_, ?_, ?_⟩
      · show PoolInv tg s2.ffi_trampoline_tables s2.tables (unbind s2.closures ptr)
        rw [hhd, htab, hcl]
        exact hI2
      · show unbind s2.closures ptr = _
        rw [hcl]
      · intro x hx
        show (load s2.tables x).map core = _
        rw [htab, load_unbind, if_neg hx, hl.2 x, load_store_ne _ _ hx]
      · intro _
        refine ⟨?_, hhd, ?_, ?_⟩
        · show load s2.tables _ = none
          rw [htab, load_unbind, if_pos rfl]
        · show slots_of (unbind s2.closures ptr) _ = []
          rw [hcl]
          exact hS
        · show s2.log ++ _ = _
          rw [hlog]
          simp [returned]
      · intro hn
        exact absurd hrel hn
    · rw [if_neg hrel] at h2
      have key : LinkEq s2.tables (store st.tables c.trampoline_table (returned T c E)) ∧
          s2.ffi_trampoline_tables = some c.trampoline_table ∧ s2.closures = st.closures ∧
          s2.log = st.log := by
        by_cases hhd : st.ffi_trampoline_tables ≠ some c.trampoline_table
        · rw [if_pos hhd] at h2
          exact bump_to_top_inv h2
        · rw [if_neg hhd] at h2
          cases h2
          exact ⟨LinkEq.refl _, not_not.mp hhd, rfl, rfl⟩
      obtain ⟨hl, hhd, hcl, hlog⟩ := key
      obtain ⟨T1, hT1, hcore⟩ := hl.symm.lookup hRT
      refine ⟨?_, ?_, ?_, ?_, ?_⟩
      · show PoolInv tg s2.ffi_trampoline_tables s2.tables (unbind s2.closures ptr)
        rw [hhd, hcl]
        refine hI1.links hl ?_
        intro x hx
        cases hx
        exact ⟨T1, hT1⟩
      · show unbind s2.closures ptr = _
        rw [hcl]
      · intro x hx
        show (load s2.tables x).map core = _
        rw [hl.2 x, load_store_ne _ _ hx]
      · intro hp
        exact absurd hp hrel
      · intro _
        refine ⟨⟨T1, hT1, ?_⟩, hhd, ?_⟩
        · have := congrArg ffi_trampoline_table.free_count hcore
          simp only [core] at this
          rw [this, hfc]
        · show s2.log ++ _ = _
          rw [hlog]

/-! ### Histories -/

theorem History.inv {tg : Target} (hok : tg.ok) {a f : Nat} {st : State}
    (h : History tg a f st) : Inv tg st := by
  induction h with
  | init => exact PoolInv.of_empty tg
  | alloc size env st1 r _ hfr hstep ih => exact (ffi_closure_alloc_inv hok ih hfr hstep).1
  | alloc_null size env st1 _ hfr hstep ih => exact (ffi_closure_alloc_inv hok ih hfr hstep).1
  | free ptr st1 _ hstep ih =>
    obtain ⟨c, T, _, _, hI, _⟩ := ffi_closure_free_inv hok ih hstep
    exact hI

theorem length_unbind {α : Type} {m : List (Nat × α)} (hn : (m.map Prod.fst).Nodup) {a : Nat}
    {x : α} (h : load m a = some x) : (unbind m a).length + 1 = m.length := by
  induction m with
  | nil => simp [load] at h
  | cons kv m ih =>
    obtain ⟨k, v⟩ := kv
    simp only [List.map_cons, List.nodup_cons] at hn
    rw [unbind_cons]
    by_cases hk : k = a
    · subst hk
      have : load m k = none := (load_eq_none_iff m k).mpr hn.1
      simp [unbind_absent this]
    · simp only [load_cons, hk, if_false] at h
      simp only [hk, if_false, List.length_cons, ih hn.2 h]

theorem History.live {tg : Target} (hok : tg.ok) {a f : Nat} {st : State}
    (h : History tg a f st) : st.closures.length + f = a := by
  induction h with
  | init => rfl
  | alloc size env st1 r hist hfr hstep ih =>
    obtain ⟨_, _, hcl⟩ := ffi_closure_alloc_inv hok (hist.inv hok) hfr hstep
    obtain ⟨⟨c, hc⟩, _⟩ := hcl r rfl
    rw [hc, List.length_cons]
    omega
  | alloc_null size env st1 hist hfr hstep ih =>
    obtain ⟨_, hn, _⟩ := ffi_closure_alloc_inv hok (hist.inv hok) hfr hstep
    rw [(hn rfl).2.1]
    exact ih
  | free ptr st1 hist hstep ih =>
    obtain ⟨c, T, hc, _, _, hcl, _⟩ := ffi_closure_free_inv hok (hist.inv hok) hstep
    have := length_unbind (hist.inv hok).ckeys hc
    rw [hcl]
    omega

theorem sum_indicator (keys : List Nat) (a : Nat) :
    (keys.map fun t => if a = t then 1 else 0).sum = keys.count a := by
  induction keys with
  | nil => rfl
  | cons k keys ih =>
    by_cases hk : a = k
    · subst hk
      simp [List.count_cons, ih, Nat.add_comm]
    · have : ¬ k = a := fun e => hk e.symm
      simp [hk, this, List.count_cons, ih]

theorem sum_slots_of (keys : List Nat) (hn : keys.Nodup) (cl : List (Nat × ffi_closure))
    (hcl : ∀ pc ∈ cl, pc.2.trampoline_table ∈ keys) :
    (keys.map fun t => (slots_of cl t).length).sum = cl.length := by
  induction cl with
  | nil => simp [slots_of]
  | cons pc cl ih =>
    obtain ⟨p, c⟩ := pc
    have h1 : ∀ t, (slots_of ((p, c) :: cl) t).length =
        (if c.trampoline_table = t then 1 else 0) + (slots_of cl t).length := by
      intro t
      rw [slots_of_cons]
      by_cases ht : c.trampoline_table = t <;> simp [ht, Nat.add_comm]
    simp only [h1, List.sum_map_add, sum_indicator]
    rw [ih (fun pc hpc => hcl pc (List.mem_cons_of_mem _ hpc))]
    have hmem : c.trampoline_table ∈ keys := hcl (p, c) (List.mem_cons_self _ _)
    rw [List.count_eq_one_of_mem hn hmem, List.length_cons]
    omega

theorem PoolInv.outstanding {tg : Target} {st : State} (hI : Inv tg st) :
    outstanding tg st = st.closures.length := by
  have h1 : st.tables.map (fun kv => FFI_TRAMPOLINE_COUNT tg - kv.2.free_count) =
      (st.tables.map Prod.fst).map (fun t => (slots_of st.closures t).length) := by
    rw [List.map_map]
    apply List.map_congr_left
    rintro ⟨t, T⟩ hm
    have := (hI.table t T (load_of_mem hI.tkeys hm)).slot_count
    simp only [Function.comp]
    omega
  unfold Closures.outstanding
  rw [h1]
  apply sum_slots_of _ hI.tkeys
  rintro ⟨p, c⟩ hpc
  obtain ⟨_, T, hT⟩ := hI.clos p c (load_of_mem hI.ckeys hpc)
  exact List.mem_map.mpr ⟨(c.trampoline_table, T), mem_of_load hT, rfl⟩

/-! ### A registry of one table -/

theorem store_single (t : Nat) (T X : ffi_trampoline_table) : store [(t, T)] t X = [(t, X)] := by
  simp [store]

theorem load_single (t : Nat) (T : ffi_trampoline_table) : load [(t, T)] t = some T := by
  simp [load]

theorem Single.live_count {tg : Target} {t : Nat} {st : State} (h : Single tg t st)
    {T : ffi_trampoline_table} (hT : st.tables = [(t, T)]) :
    T.free_count + st.closures.length = FFI_TRAMPOLINE_COUNT tg := by
  obtain ⟨hI, _, _⟩ := h
  have h1 := PoolInv.outstanding hI
  have h2 := (hI.table t T (by rw [hT]; exact load_single t T)).slot_count
  simp only [outstanding, hT, List.map_cons, List.map_nil, List.sum_cons, List.sum_nil] at h1
  omega

theorem Single.closure_table {tg : Target} {t : Nat} {st : State} (h : Single tg t st)
    {p : Nat} {c : ffi_closure} (hc : load st.closures p = some c) : c.trampoline_table = t := by
  obtain ⟨hI, _, T, hT, _⟩ := h
  obtain ⟨_, X, hX⟩ := hI.clos p c hc
  rw [hT, load_cons] at hX
  by_contra hne
  simp [Ne.symm hne, load] at hX

/-- With one table that has a free slot, `ffi_closure_alloc` takes the slot:
no table is made, nothing is mapped, the count goes down by one. -/
theorem ffi_closure_alloc_single {tg : Target} (hok : tg.ok) {t : Nat} {st : State}
    (h : Single tg t st) {T : ffi_trampoline_table} (hT : st.tables = [(t, T)])
    (hlt : st.closures.length < FFI_TRAMPOLINE_COUNT tg)
    (size : Nat) {env : AllocEnv} {p : Nat} (hm : env.malloc = some p)
    (hp : load st.closures p = none) :
    ∃ st1 T1 c code, ffi_closure_alloc tg size env st = .ok (st1, some (p, code)) ∧
      Single tg t st1 ∧ st1.tables = [(t, T1)] ∧ T1.free_count + 1 = T.free_count ∧
      T1.config_page = T.config_page ∧
      st1.closures = (p, c) :: st.closures ∧ st1.log = st.log := by
  have hcnt := h.live_count hT
  obtain ⟨hI, hh, T0, hT0, hpv, hnx⟩ := h
  rw [hT] at hT0
  cases hT0
  have hH : load st.tables t = some T := by rw [hT]; exact load_single t T
  have hfl : T.free_list ≠ none := by
    intro hn
    have := (hI.table t T hH).free_list_none.mp hn
    omega
  obtain ⟨e, hf⟩ := Option.ne_none_iff_exists'.mp hfl
  obtain ⟨i, E, _, _, _, hfc, hI2, heq⟩ := ffi_closure_alloc_reuse hok hI hh hH hf size hm hp
  rw [hT, store_single] at hI2 heq
  exact ⟨_, _, _, _, heq, ⟨hI2, hh, _, rfl, hpv, hnx⟩, rfl, hfc, rfl, rfl, rfl⟩

/-- With one table, `ffi_closure_free` gives the slot back and keeps the table:
nothing is unmapped, the count goes up by one. -/
theorem ffi_closure_free_single {tg : Target} (hok : tg.ok) {t : Nat} {st : State}
    (h : Single tg t st) {T : ffi_trampoline_table} (hT : st.tables = [(t, T)])
    {p : Nat} {c : ffi_closure} (hc : load st.closures p = some c) :
    ∃ st1 T1, ffi_closure_free tg p st = .ok st1 ∧
      Single tg t st1 ∧ st1.tables = [(t, T1)] ∧ T1.free_count = T.free_count + 1 ∧
      T1.config_page = T.config_page ∧
      st1.closures = unbind st.closures p ∧ st1.log = st.log ++ [.free (.closure p)] := by
  have hct := h.closure_table hc
  obtain ⟨hI, hh, T0, hT0, hpv, hnx⟩ := h
  rw [hT] at hT0
  cases hT0
  obtain ⟨T1, E, hT1, hE, hfc, _, _, hI1⟩ := PoolInv.give_back hok hI hc
  have heq := ffi_closure_free_unfold hok hI hc hT1 hE
  rw [hct] at hT1 heq hI1
  rw [hT, load_single] at hT1
  cases hT1
  have hno : ¬ (T.free_count + 1 = FFI_TRAMPOLINE_COUNT tg ∧
      st.ffi_trampoline_tables ≠ some t) := fun hx => hx.2 hh
  have hno2 : ¬ (st.ffi_trampoline_tables ≠ some t) := fun hx => hx hh
  rw [if_neg hno, if_neg hno2, hT, store_single] at heq
  rw [hT, store_single] at hI1
  exact ⟨_, _, heq, ⟨hI1, hh, _, rfl, hpv, hnx⟩, rfl, hfc, rfl, rfl, rfl⟩

theorem Inv.at_start (tg : Target) : Inv tg State.empty := PoolInv.of_empty tg

theorem AllocEnv.fresh_empty (tg : Target) (env : AllocEnv) : env.fresh tg State.empty :=
  ⟨fun _ _ => rfl, fun _ _ => rfl, fun _ _ t T h => by simp [State.empty, load] at h⟩

/-- The first `ffi_closure_alloc` makes the first table and takes its first
slot. -/
theorem ffi_closure_alloc_first {tg : Target} (hok : tg.ok) (size : Nat) {env : AllocEnv}
    {p cp t : Nat} (hm : env.malloc = some p) (hv : env.vm_allocate = some cp)
    (hc : env.calloc = some t) :
    ∃ st1 T1, ffi_closure_alloc tg size env State.empty =
        .ok (st1, some (p, cp + tg.PAGE_MAX_SIZE)) ∧
      Single tg t st1 ∧ st1.tables = [(t, T1)] ∧ T1.free_count + 1 = FFI_TRAMPOLINE_COUNT tg ∧
      T1.config_page = cp ∧ st1.closures = [(p, ⟨t, ⟨t, 0⟩⟩)] ∧
      st1.log = [.vm_allocate cp (tg.PAGE_MAX_SIZE * 2), .on_allocate cp (tg.PAGE_MAX_SIZE * 2)] := by
  obtain ⟨st1, m1, Tn, heq, hI, hh, hcl, hlog, htab, _, hnx, hpv, hfc, hcp, _, _, hm1⟩ :=
    ffi_closure_alloc_grow hok (Inv.at_start tg) (Or.inl rfl) size hm hv hc
      (AllocEnv.fresh_empty tg env)
  have : m1 = [] := hm1 rfl
  subst this
  exact ⟨st1, Tn, heq, ⟨hI, hh, Tn, htab, hpv, hnx⟩, htab, hfc, hcp, hcl, hlog⟩

theorem alloc_many_single {tg : Target} (hok : tg.ok) (size : Nat) {t : Nat} :
    ∀ (envs : List AllocEnv) (ptrs : List Nat) (st : State) (T : ffi_trampoline_table),
      Single tg t st → st.tables = [(t, T)] →
      envs.map AllocEnv.malloc = ptrs.map some → ptrs.Nodup →
      (∀ p ∈ ptrs, load st.closures p = none) →
      st.closures.length + ptrs.length ≤ FFI_TRAMPOLINE_COUNT tg →
      ∃ st1 T1 rs, alloc_many tg size envs st = .ok (st1, rs) ∧
        rs.map (Option.map Prod.fst) = ptrs.map some ∧
        Single tg t st1 ∧ st1.tables = [(t, T1)] ∧
        T1.free_count + ptrs.length = T.free_count ∧ T1.config_page = T.config_page ∧
        st1.log = st.log ∧
        st1.closures.map Prod.fst = ptrs.reverse ++ st.closures.map Prod.fst := by
  intro envs
  induction envs with
  | nil =>
    intro ptrs st T hS hT hmap _ _ _
    have : ptrs = [] := by
      cases ptrs with
      | nil => rfl
      | cons a l => simp at hmap
    subst this
    exact ⟨st, T, [], rfl, rfl, hS, hT, rfl, rfl, rfl, rfl⟩
  | cons env envs ih =>
    intro ptrs st T hS hT hmap hnd hfresh hlen
    cases ptrs with
    | nil => simp at hmap
    | cons p ptrs =>
      simp only [List.map_cons, List.cons.injEq] at hmap
      obtain ⟨hm, hmap⟩ := hmap
      simp only [List.length_cons] at hlen
      obtain ⟨hpn, hnd⟩ := List.nodup_cons.mp hnd
      obtain ⟨st1, T1, c, code, heq, hS1, hT1, hfc1, hcp1, hcl1, hlog1⟩ :=
        ffi_closure_alloc_single hok hS hT (by omega) size hm (hfresh p (List.mem_cons_self _ _))
      have hfresh1 : ∀ q ∈ ptrs, load st1.closures q = none := by
        intro q hq
        rw [hcl1, load_cons]
        have : p ≠ q := fun e => hpn (e ▸ hq)
        simp only [this, if_false]
        exact hfresh q (List.mem_cons_of_mem _ hq)
      obtain ⟨st2, T2, rs, heq2, hrs, hS2, hT2, hfc2, hcp2, hlog2, hkeys2⟩ :=
        ih ptrs st1 T1 hS1 hT1 hmap hnd hfresh1 (by rw [hcl1, List.length_cons]; omega)
      refine ⟨st2, T2, some (p, code) :: rs, ?_, ?_, hS2, hT2, ?_, hcp2.trans hcp1,
        hlog2.trans hlog1, ?_⟩
      · simp [alloc_many, heq, heq2, bind, Except.bind, pure, Except.pure]
      · simp [hrs]
      · simp only [List.length_cons]
        omega
      · rw [hkeys2, hcl1]
        simp

theorem free_many_single {tg : Target} (hok : tg.ok) {t : Nat} :
    ∀ (order : List Nat) (st : State) (T : ffi_trampoline_table),
      Single tg t st → st.tables = [(t, T)] → order.Nodup →
      (∀ p ∈ order, load st.closures p ≠ none) →
      ∃ st1 T1, free_many tg order st = .ok st1 ∧
        Single tg t st1 ∧ st1.tables = [(t, T1)] ∧
        T1.free_count = T.free_count + order.length ∧ T1.config_page = T.config_page ∧
        st1.log = st.log ++ order.map (fun p => Event.free (Block.closure p)) ∧
        st1.closures.length + order.length = st.closures.length := by
  intro order
  induction order with
  | nil =>
    intro st T hS hT _ _
    exact ⟨st, T, rfl, hS, hT, rfl, rfl, by simp, rfl⟩
  | cons p order ih =>
    intro st T hS hT hnd hlive
    obtain ⟨hpn, hnd⟩ := List.nodup_cons.mp hnd
    obtain ⟨c, hc⟩ := Option.ne_none_iff_exists'.mp (hlive p (List.mem_cons_self _ _))
    obtain ⟨st1, T1, heq, hS1, hT1, hfc1, hcp1, hcl1, hlog1⟩ :=
      ffi_closure_free_single hok hS hT hc
    have hlive1 : ∀ q ∈ order, load st1.closures q ≠ none := by
      intro q hq
      rw [hcl1, load_unbind]
      have : q ≠ p := fun e => hpn (e ▸ hq)
      simp only [this, if_false]
      exact hlive q (List.mem_cons_of_mem _ hq)
    obtain ⟨st2, T2, heq2, hS2, hT2, hfc2, hcp2, hlog2, hlen2⟩ :=
      ih st1 T1 hS1 hT1 hnd hlive1
    have hlen1 := length_unbind hS.1.ckeys hc
    refine ⟨st2, T2, ?_, hS2, hT2, ?_, hcp2.trans hcp1, ?_, ?_⟩
    · simp [free_many, heq, heq2, bind, Except.bind]
    · simp only [List.length_cons]
      omega
    · rw [hlog2, hlog1]
      simp
    · rw [hcl1] at hlen2
      simp only [List.length_cons]
      omega

/-! ### The claims about one table and about growth -/

/-- C4.  Single table: from the empty registry, `k = ptrs.length + 1` calls of
`ffi_closure_alloc` with `1 ≤ k ≤ FFI_TRAMPOLINE_COUNT` (the allocator giving
distinct closure blocks, the first call getting its two pages and its table
block) all return their closure, make exactly one table, map pages once, and
leave `free_count = FFI_TRAMPOLINE_COUNT - k`; freeing the `k` closures in any
order brings `free_count` back to `FFI_TRAMPOLINE_COUNT`, and the table stays
in the registry: nothing is unmapped, the log only grows by the frees of the
closure blocks. -/
theorem single_table_round_trip (tg : Target) (hok : tg.ok) (size : Nat)
    (env0 : AllocEnv) (envs : List AllocEnv) (p0 cp t : Nat) (ptrs : List Nat)
    (hm0 : env0.malloc = some p0) (hv : env0.vm_allocate = some cp)
    (hc : env0.calloc = some t)
    (hms : envs.map AllocEnv.malloc = ptrs.map some) (hnd : (p0 :: ptrs).Nodup)
    (hk : ptrs.length + 1 ≤ FFI_TRAMPOLINE_COUNT tg)
    (order : List Nat) (hperm : order.Perm (p0 :: ptrs)) :
    ∃ st rs T, alloc_many tg size (env0 :: envs) State.empty = .ok (st, rs) ∧
      rs.map (Option.map Prod.fst) = (p0 :: ptrs).map some ∧
      st.ffi_trampoline_tables = some t ∧ st.tables = [(t, T)] ∧
      T.free_count = FFI_TRAMPOLINE_COUNT tg - (ptrs.length + 1) ∧
      st.log = [.vm_allocate cp (tg.PAGE_MAX_SIZE * 2), .on_allocate cp (tg.PAGE_MAX_SIZE * 2)] ∧
      ∃ st2 T2, free_many tg order st = .ok st2 ∧
        st2.ffi_trampoline_tables = some t ∧ st2.tables = [(t, T2)] ∧
        T2.free_count = FFI_TRAMPOLINE_COUNT tg ∧ T2.config_page = cp ∧
        st2.closures = [] ∧
        st2.log = st.log ++ order.map (fun p => Event.free (Block.closure p)) := by
  obtain ⟨hp0, hnd1⟩ := List.nodup_cons.mp hnd
  obtain ⟨st1, T1, heq1, hS1, hT1, hfc1, hcp1, hcl1, hlog1⟩ :=
    ffi_closure_alloc_first hok size hm0 hv hc
  have hfresh : ∀ q ∈ ptrs, load st1.closures q = none := by
    intro q hq
    have : p0 ≠ q := fun e => hp0 (e ▸ hq)
    simp [hcl1, load_cons, this, load]
  obtain ⟨st2, T2, rs, heq2, hrs, hS2, hT2, hfc2, hcp2, hlog2, hkeys2⟩ :=
    alloc_many_single hok size envs ptrs st1 T1 hS1 hT1 hms hnd1 hfresh
      (by simp only [hcl1, List.length_singleton]; omega)
  have hkeys : (st2.closures.map Prod.fst).Perm (p0 :: ptrs) := by
    rw [hkeys2, hcl1]
    simp only [List.map_cons, List.map_nil]
    exact (List.perm_append_comm.trans (List.Perm.cons _ (List.reverse_perm _)))
  have hlive : ∀ q ∈ order, load st2.closures q ≠ none := by
    intro q hq
    rw [Ne, load_eq_none_iff]
    exact fun hn => hn (hkeys.mem_iff.mpr (hperm.mem_iff.mp hq))
  obtain ⟨st3, T3, heq3, hS3, hT3, hfc3, hcp3, hlog3, hlen3⟩ :=
    free_many_single hok order st2 T2 hS2 hT2 (hperm.nodup_iff.mpr hnd) hlive
  have hcount2 := hS2.live_count hT2
  have hcount3 := hS3.live_count hT3
  have hlen2 : st2.closures.length = ptrs.length + 1 := by
    have := hkeys.length_eq
    simpa using this
  have hol : order.length = ptrs.length + 1 := by
    have := hperm.length_eq
    simpa using this
  refine ⟨st2, some (p0, cp + tg.PAGE_MAX_SIZE) :: rs, T2, ?_, ?_, hS2.2.1, hT2, by omega,
    hlog2.trans hlog1, st3, T3, heq3, hS3.2.1, hT3, by omega,
    (hcp3.trans hcp2).trans hcp1, ?_, hlog3⟩
  · simp [alloc_many, heq1, heq2, bind, Except.bind, pure, Except.pure]
  · simp [hrs]
  · apply List.length_eq_zero.mp
    omega

/-- The state after `FFI_TRAMPOLINE_COUNT` allocations and the state after one
more: a second table is pushed at the head. -/
theorem pool_growth_state (tg : Target) (hok : tg.ok) (size : Nat)
    (env0 : AllocEnv) (envs : List AllocEnv) (p0 cp t : Nat) (ptrs : List Nat)
    (hm0 : env0.malloc = some p0) (hv : env0.vm_allocate = some cp)
    (hc : env0.calloc = some t)
    (hms : envs.map AllocEnv.malloc = ptrs.map some) (hnd : (p0 :: ptrs).Nodup)
    (hk : ptrs.length + 1 = FFI_TRAMPOLINE_COUNT tg)
    (env1 : AllocEnv) (p1 cp1 t1 : Nat)
    (hm1 : env1.malloc = some p1) (hv1 : env1.vm_allocate = some cp1)
    (hc1 : env1.calloc = some t1)
    (hp1 : p1 ∉ p0 :: ptrs) (ht1 : t1 ≠ t)
    (hpg : cp1 + tg.PAGE_MAX_SIZE * 2 ≤ cp ∨ cp + tg.PAGE_MAX_SIZE * 2 ≤ cp1) :
    ∃ st rs T, alloc_many tg size (env0 :: envs) State.empty = .ok (st, rs) ∧
      rs.map (Option.map Prod.fst) = (p0 :: ptrs).map some ∧
      Single tg t st ∧ st.tables = [(t, T)] ∧ T.free_count = 0 ∧
      (st.closures.map Prod.fst).Perm (p0 :: ptrs) ∧
      ∃ st1 T1, ffi_closure_alloc tg size env1 st = .ok (st1, some (p1, cp1 + tg.PAGE_MAX_SIZE)) ∧
        Inv tg st1 ∧
        st1.ffi_trampoline_tables = some t1 ∧
        st1.tables = [(t1, T1), (t, { T with prev := some t1 })] ∧
        T1.next = some t ∧ T1.prev = none ∧
        T1.free_count = FFI_TRAMPOLINE_COUNT tg - 1 ∧
        T1.config_page = cp1 ∧ T1.trampoline_page = cp1 + tg.PAGE_MAX_SIZE ∧
        st1.closures = (p1, ⟨t1, ⟨t1, 0⟩⟩) :: st.closures ∧
        st1.log = st.log ++ [.vm_allocate cp1 (tg.PAGE_MAX_SIZE * 2),
          .on_allocate cp1 (tg.PAGE_MAX_SIZE * 2)] := by
  obtain ⟨hp0, hnd1⟩ := List.nodup_cons.mp hnd
  obtain ⟨s1, U1, heq1, hS1, hT1, hfc1, hcp1, hcl1, hlog1⟩ :=
    ffi_closure_alloc_first hok size hm0 hv hc
  have hfresh : ∀ q ∈ ptrs, load s1.closures q = none := by
    intro q hq
    have : p0 ≠ q := fun e => hp0 (e ▸ hq)
    simp [hcl1, load_cons, this, load]
  obtain ⟨st, T, rs, heq2, hrs, hS2, hT2, hfc2, hcp2, hlog2, hkeys2⟩ :=
    alloc_many_single hok size envs ptrs s1 U1 hS1 hT1 hms hnd1 hfresh
      (by simp only [hcl1, List.length_singleton]; omega)
  have hfc0 : T.free_count = 0 := by omega
  have hH : load st.tables t = some T := by rw [hT2]; exact load_single t T
  have hfl : T.free_list = none := (hS2.1.table t T hH).free_list_none.mpr hfc0
  have hfr : env1.fresh tg st := by
    refine ⟨?_, ?_, ?_⟩
    · intro q hq
      rw [hm1] at hq
      cases hq
      rw [load_eq_none_iff, hkeys2, hcl1]
      simp only [List.map_cons, List.map_nil, List.mem_append, List.mem_reverse,
        List.mem_singleton]
      intro hx
      apply hp1
      rcases hx with hx | hx
      · exact List.mem_cons_of_mem _ hx
      · rw [hx]; exact List.mem_cons_self _ _
    · intro x hx
      rw [hc1] at hx
      cases hx
      simp [hT2, load_cons, Ne.symm ht1, load]
    · intro a ha x X hX
      rw [hv1] at ha
      cases ha
      rw [hT2, load_cons] at hX
      by_cases hx : t = x
      · simp only [hx, if_true, Option.some.injEq] at hX
        subst hX
        rw [hcp2, hcp1]
        exact hpg
      · simp [hx, load] at hX
  have hkeys : (st.closures.map Prod.fst).Perm (p0 :: ptrs) := by
    rw [hkeys2, hcl1]
    simp only [List.map_cons, List.map_nil]
    exact (List.perm_append_comm.trans (List.Perm.cons _ (List.reverse_perm _)))
  obtain ⟨st1, m1, Tn, heq, hI1, hh, hcl, hlog, htab, _, hnx, hpv, hfc, hcpn, htp, hm1a, _⟩ :=
    ffi_closure_alloc_grow hok hS2.1 (Or.inr ⟨t, T, hS2.2.1, hH, hfl⟩) size hm1 hv1 hc1 hfr
  have hm1e := hm1a t T hS2.2.1 hH
  rw [hT2, store_single] at hm1e
  subst hm1e
  refine ⟨st, some (p0, cp + tg.PAGE_MAX_SIZE) :: rs, T, ?_, ?_, hS2, hT2, hfc0, hkeys,
    st1, Tn, heq, hI1, hh, htab, by rw [hnx, hS2.2.1], hpv, by omega, hcpn, htp, hcl, hlog⟩
  · simp [alloc_many, heq1, heq2, bind, Except.bind, pure, Except.pure]
  · simp [hrs]

/-! ### The claims about every history -/

/-- C5.  Growth: from the empty registry, after `FFI_TRAMPOLINE_COUNT` calls of
`ffi_closure_alloc` that returned a closure there is exactly one table, with
`free_count = 0`; the next call (given a closure block, two pages and a table
block that are not in use) makes a second table, puts it at the head of the
registry with the old head as its `next` (and itself as the old head's
`prev`), and takes the first slot of the new table: the closure records the
new table, `*code` is the start of its trampoline page, and its `free_count`
is `FFI_TRAMPOLINE_COUNT - 1`. -/
theorem pool_growth (tg : Target) (hok : tg.ok) (size : Nat)
    (env0 : AllocEnv) (envs : List AllocEnv) (p0 cp t : Nat) (ptrs : List Nat)
    (hm0 : env0.malloc = some p0) (hv : env0.vm_allocate = some cp)
    (hc : env0.calloc = some t)
    (hms : envs.map AllocEnv.malloc = ptrs.map some) (hnd : (p0 :: ptrs).Nodup)
    (hk : ptrs.length + 1 = FFI_TRAMPOLINE_COUNT tg)
    (env1 : AllocEnv) (p1 cp1 t1 : Nat)
    (hm1 : env1.malloc = some p1) (hv1 : env1.vm_allocate = some cp1)
    (hc1 : env1.calloc = some t1)
    (hp1 : p1 ∉ p0 :: ptrs) (ht1 : t1 ≠ t)
    (hpg : cp1 + tg.PAGE_MAX_SIZE * 2 ≤ cp ∨ cp + tg.PAGE_MAX_SIZE * 2 ≤ cp1) :
    ∃ st rs T, alloc_many tg size (env0 :: envs) State.empty = .ok (st, rs) ∧
      rs.map (Option.map Prod.fst) = (p0 :: ptrs).map some ∧
      st.ffi_trampoline_tables = some t ∧ st.tables = [(t, T)] ∧ T.free_count = 0 ∧
      ∃ st1 T1, ffi_closure_alloc tg size env1 st = .ok (st1, some (p1, cp1 + tg.PAGE_MAX_SIZE)) ∧
        st1.ffi_trampoline_tables = some t1 ∧
        st1.tables = [(t1, T1), (t, { T with prev := some t1 })] ∧
        T1.next = some t ∧ T1.prev = none ∧
        T1.free_count = FFI_TRAMPOLINE_COUNT tg - 1 ∧
        T1.config_page = cp1 ∧ T1.trampoline_page = cp1 + tg.PAGE_MAX_SIZE ∧
        st1.closures = (p1, ⟨t1, ⟨t1, 0⟩⟩) :: st.closures ∧
        st1.log = st.log ++ [.vm_allocate cp1 (tg.PAGE_MAX_SIZE * 2),
          .on_allocate cp1 (tg.PAGE_MAX_SIZE * 2)] := by
  obtain ⟨st, rs, T, h1, h2, hS, hT, hfc, _, st1, T1, h3, _, h4⟩ :=
    pool_growth_state tg hok size env0 envs p0 cp t ptrs hm0 hv hc hms hnd hk env1 p1 cp1 t1
      hm1 hv1 hc1 hp1 ht1 hpg
  exact ⟨st, rs, T, h1, h2, hS.2.1, hT, hfc, st1, T1, h3, h4⟩

theorem History.registry {tg : Target} (hok : tg.ok) {a f : Nat} {st : State}
    (h : History tg a f st) : st.ffi_trampoline_tables = none → st.tables = [] := by
  induction h with
  | init => intro _; rfl
  | alloc size env st1 r hist hfr hstep _ =>
    obtain ⟨_, _, hcl⟩ := ffi_closure_alloc_inv hok (hist.inv hok) hfr hstep
    intro hn
    exact absurd hn (hcl r rfl).2
  | alloc_null size env st1 hist hfr hstep ih =>
    obtain ⟨_, hn, _⟩ := ffi_closure_alloc_inv hok (hist.inv hok) hfr hstep
    obtain ⟨e1, _, e3⟩ := hn rfl
    rw [e1, e3]
    exact ih
  | @free a f st ptr st1 hist hstep ih =>
    obtain ⟨c, T, _, hT, _, _, _, hrel, hkeep⟩ := ffi_closure_free_inv hok (hist.inv hok) hstep
    intro hn
    by_cases hr : T.free_count + 1 = FFI_TRAMPOLINE_COUNT tg ∧
        st.ffi_trampoline_tables ≠ some c.trampoline_table
    · obtain ⟨_, hh, _⟩ := hrel hr
      rw [hh] at hn
      rw [ih hn] at hT
      simp [load] at hT
    · obtain ⟨_, hh, _⟩ := hkeep hr
      rw [hh] at hn
      cases hn

/-- C2.  Accounting: in every state reached from the empty registry by calls
of `ffi_closure_alloc` and `ffi_closure_free` with a defined result (so with
no double free), of which `a` calls of `ffi_closure_alloc` returned a closure
and `f` are calls of `ffi_closure_free`, the sum over the allocated tables of
`FFI_TRAMPOLINE_COUNT - free_count` is the number of live closures, and this
number is `a - f`. -/
theorem pool_accounting (tg : Target) (hok : tg.ok) (a f : Nat) (st : State)
    (h : History tg a f st) :
    outstanding tg st = st.closures.length ∧ outstanding tg st + f = a ∧
      outstanding tg st = a - f := by
  have h1 := PoolInv.outstanding (h.inv hok)
  have h2 := h.live hok
  omega

/-- C3.  Release rule: let `ffi_closure_free ptr` have a defined result on a
state reached from the empty registry, `c` the closure at `ptr` and `T` its
table before the call.  The table is released (its block is gone, its two
pages are unmapped and `on_deallocate` is called for them) if and only if its
`free_count` after the slot is returned is `FFI_TRAMPOLINE_COUNT` and it is not
the registry head; otherwise nothing is unmapped.  No other table is released,
a released table has no closure left on it, and after the call the registry
head is an allocated table. -/
theorem release_rule (tg : Target) (hok : tg.ok) (a f : Nat) (st st1 : State) (ptr : Nat)
    (h : History tg a f st) (hfree : ffi_closure_free tg ptr st = .ok st1) :
    ∃ c T, load st.closures ptr = some c ∧ load st.tables c.trampoline_table = some T ∧
      (load st1.tables c.trampoline_table = none ↔
        ((T.free_count + 1) % 65536 = FFI_TRAMPOLINE_COUNT tg ∧
          st.ffi_trampoline_tables ≠ some c.trampoline_table)) ∧
      (load st1.tables c.trampoline_table = none →
        st1.log = st.log ++ [.vm_deallocate T.config_page (tg.PAGE_MAX_SIZE * 2),
          .on_deallocate T.config_page (tg.PAGE_MAX_SIZE * 2),
          .free (.pool c.trampoline_table), .free (.table c.trampoline_table),
          .free (.closure ptr)]) ∧
      (load st1.tables c.trampoline_table ≠ none →
        st1.log = st.log ++ [.free (.closure ptr)]) ∧
      (∀ x, x ≠ c.trampoline_table →
        (load st1.tables x).isSome = (load st.tables x).isSome) ∧
      (load st1.tables c.trampoline_table = none →
        ∀ q d, load st1.closures q = some d → d.trampoline_table ≠ c.trampoline_table) ∧
      ∃ hd H, st1.ffi_trampoline_tables = some hd ∧ load st1.tables hd = some H := by
  have hI := h.inv hok
  obtain ⟨c, T, hc, hT, hI1, hcl, hothers, hrel, hkeep⟩ := ffi_closure_free_inv hok hI hfree
  have hmod : (T.free_count + 1) % 65536 = T.free_count + 1 := by
    obtain ⟨T0, E, hT0, _, hfc, _⟩ := PoolInv.give_back hok hI hc
    rw [hT] at hT0
    cases hT0
    exact hfc
  have hhead : ∃ hd H, st1.ffi_trampoline_tables = some hd ∧ load st1.tables hd = some H := by
    cases hd : st1.ffi_trampoline_tables with
    | none =>
      exfalso
      by_cases hr : T.free_count + 1 = FFI_TRAMPOLINE_COUNT tg ∧
          st.ffi_trampoline_tables ≠ some c.trampoline_table
      · obtain ⟨_, hh, _⟩ := hrel hr
        rw [hd] at hh
        have := h.registry hok hh.symm
        rw [this] at hT
        simp [load] at hT
      · obtain ⟨_, hh, _⟩ := hkeep hr
        rw [hd] at hh
        cases hh
    | some x =>
      obtain ⟨H, hH⟩ := hI1.head x hd
      exact ⟨x, H, rfl, hH⟩
  refine ⟨c, T, hc, hT, ?_, ?_, ?_, ?_, ?_, hhead⟩
  · rw [hmod]
    constructor
    · intro hnone
      by_contra hr
      obtain ⟨⟨T1, hT1, _⟩, _⟩ := hkeep hr
      rw [hnone] at hT1
      cases hT1
    · intro hr
      exact (hrel hr).1
  · intro hnone
    by_cases hr : T.free_count + 1 = FFI_TRAMPOLINE_COUNT tg ∧
        st.ffi_trampoline_tables ≠ some c.trampoline_table
    · exact (hrel hr).2.2.2
    · obtain ⟨⟨T1, hT1, _⟩, _⟩ := hkeep hr
      rw [hnone] at hT1
      cases hT1
  · intro hsome
    by_cases hr : T.free_count + 1 = FFI_TRAMPOLINE_COUNT tg ∧
        st.ffi_trampoline_tables ≠ some c.trampoline_table
    · exact absurd (hrel hr).1 hsome
    · exact (hkeep hr).2.2
  · intro x hx
    have := congrArg Option.isSome (hothers x hx)
    simpa using this
  · intro hnone q d hq hd
    obtain ⟨_, X, hX⟩ := hI1.clos q d hq
    rw [hd, hnone] at hX
    cases hX

theorem free_list_walk_chain {st : State} {t : Nat} {T : ffi_trampoline_table}
    (hT : load st.tables t = some T) :
    ∀ (n : Nat) (p : Option EntryPtr) (L : List Nat), Chain t T.free_list_pool p L →
      free_list_walk st n p = (L.take n).map (fun i => (⟨t, i⟩ : EntryPtr)) := by
  intro n
  induction n with
  | zero => intro p L _; simp [free_list_walk]
  | succ n ih =>
    intro p L hc
    cases hc with
    | nil => simp [free_list_walk]
    | @cons i e L1 hi hc1 =>
      simp only [free_list_walk, read_entry, hT, hi, List.take_succ_cons, List.map_cons]
      rw [ih e.next L1 hc1]

theorem slots_of_inj {cl : List (Nat × ffi_closure)} {t : Nat} (hn : (slots_of cl t).Nodup)
    {p q : Nat} {c d : ffi_closure} (hc : (p, c) ∈ cl) (hd : (q, d) ∈ cl)
    (hct : c.trampoline_table = t) (hdt : d.trampoline_table = t)
    (hidx : c.trampoline_table_entry.idx = d.trampoline_table_entry.idx) : (p, c) = (q, d) := by
  unfold slots_of at hn
  apply List.inj_on_of_nodup_map hn
  · exact List.mem_filter.mpr ⟨hc, by simp [hct]⟩
  · exact List.mem_filter.mpr ⟨hd, by simp [hdt]⟩
  · exact hidx

theorem slot_offset_lt {tg : Target} {i : Nat} (hi : i < FFI_TRAMPOLINE_COUNT tg) :
    i * tg.FFI_TRAMPOLINE_SIZE < tg.PAGE_MAX_SIZE := by
  unfold FFI_TRAMPOLINE_COUNT at hi
  have h1 : (i + 1) * tg.FFI_TRAMPOLINE_SIZE ≤ tg.PAGE_MAX_SIZE := by
    have := Nat.div_mul_le_self tg.PAGE_MAX_SIZE tg.FFI_TRAMPOLINE_SIZE
    calc (i + 1) * tg.FFI_TRAMPOLINE_SIZE
        ≤ (tg.PAGE_MAX_SIZE / tg.FFI_TRAMPOLINE_SIZE) * tg.FFI_TRAMPOLINE_SIZE :=
          Nat.mul_le_mul_right _ hi
      _ ≤ tg.PAGE_MAX_SIZE := this
  have h2 : 0 < tg.FFI_TRAMPOLINE_SIZE := by
    rcases Nat.eq_zero_or_pos tg.FFI_TRAMPOLINE_SIZE with h0 | h0
    · rw [h0, Nat.div_zero] at hi
      omega
    · exact h0
  rw [Nat.add_mul, Nat.one_mul] at h1
  omega

/-- The slot of a live closure: it lies in the pool of the table the closure
records, below `FFI_TRAMPOLINE_COUNT`, and its code address is that of the
slot in the trampoline page of that table. -/
theorem PoolInv.slot {tg : Target} {st : State} (hI : Inv tg st) {p : Nat} {c : ffi_closure}
    (hc : load st.closures p = some c) :
    ∃ T i, load st.tables c.trampoline_table = some T ∧
      c.trampoline_table_entry = ⟨c.trampoline_table, i⟩ ∧ i < FFI_TRAMPOLINE_COUNT tg ∧
      i ∈ slots_of st.closures c.trampoline_table ∧
      T.trampoline_page = T.config_page + tg.PAGE_MAX_SIZE ∧
      code_address st c = some (T.trampoline_page + i * tg.FFI_TRAMPOLINE_SIZE) := by
  obtain ⟨hpool, T, hT⟩ := hI.clos p c hc
  have hOK := hI.table _ T hT
  have hmem := mem_slots_of (mem_of_load hc)
  obtain ⟨L, _, _, _, _, hlt⟩ := hOK.chain
  have hi : c.trampoline_table_entry.idx < FFI_TRAMPOLINE_COUNT tg :=
    hlt _ (List.mem_append_right _ hmem)
  have hi2 : c.trampoline_table_entry.idx < T.free_list_pool.length := by
    rw [hOK.pool_len]; exact hi
  have hE := List.getElem?_eq_getElem hi2
  refine ⟨T, c.trampoline_table_entry.idx, hT, ?_, hi, hmem, hOK.page, ?_⟩
  · cases hce : c.trampoline_table_entry with
    | mk pool idx =>
      rw [hce] at hpool
      simp only at hpool
      simp [hpool]
  · simp only [code_address, read_entry, hpool, hT, hE]
    rw [hOK.tramp _ _ hE]

/-- C9.  Slot exclusivity: in every state reached from the empty registry by
calls of `ffi_closure_alloc` and `ffi_closure_free` with a defined result (so
with no double free), (1) the slot of a live closure is entry `i` of the pool
of the table the closure records, for an `i < FFI_TRAMPOLINE_COUNT`, and its
code address is `trampoline_page + i * FFI_TRAMPOLINE_SIZE` of that table;
(2) two distinct live closures hold different slots and have different code
addresses; (3) the slot of a live closure is not met on the free list of any
allocated table, however far the list is followed. -/
theorem slot_exclusivity (tg : Target) (hok : tg.ok) (a f : Nat) (st : State)
    (h : History tg a f st) :
    (∀ p c, load st.closures p = some c →
      ∃ T i, load st.tables c.trampoline_table = some T ∧
        c.trampoline_table_entry = ⟨c.trampoline_table, i⟩ ∧ i < FFI_TRAMPOLINE_COUNT tg ∧
        code_address st c = some (T.trampoline_page + i * tg.FFI_TRAMPOLINE_SIZE)) ∧
    (∀ p q c d, load st.closures p = some c → load st.closures q = some d → p ≠ q →
      c.trampoline_table_entry ≠ d.trampoline_table_entry ∧
      code_address st c ≠ code_address st d) ∧
    (∀ p c t T n, load st.closures p = some c → load st.tables t = some T →
      c.trampoline_table_entry ∉ free_list_walk st n T.free_list) := by
  have hI := h.inv hok
  refine ⟨?_, ?_, ?_⟩
  · intro p c hc
    obtain ⟨T, i, hT, he, hi, _, _, hcode⟩ := PoolInv.slot hI hc
    exact ⟨T, i, hT, he, hi, hcode⟩
  · intro p q c d hc hd hpq
    obtain ⟨T, i, hT, he, hi, _, hpage, hcode⟩ := PoolInv.slot hI hc
    obtain ⟨U, j, hU, he2, hj, _, hpage2, hcode2⟩ := PoolInv.slot hI hd
    have hne : c.trampoline_table_entry ≠ d.trampoline_table_entry := by
      intro heq
      have htt : c.trampoline_table = d.trampoline_table := by
        have := congrArg EntryPtr.pool heq
        rw [he, he2] at this
        exact this
      have hS := hI.table _ T hT
      obtain ⟨L, _, hn, _⟩ := hS.chain
      have hSn := (List.nodup_append.mp hn).2.1
      have := slots_of_inj hSn (mem_of_load hc) (mem_of_load hd) rfl htt.symm
        (congrArg EntryPtr.idx heq)
      exact hpq (congrArg Prod.fst this)
    refine ⟨hne, ?_⟩
    rw [hcode, hcode2]
    intro heq
    simp only [Option.some.injEq] at heq
    have hi2 := slot_offset_lt hi
    have hj2 := slot_offset_lt hj
    by_cases htt : c.trampoline_table = d.trampoline_table
    · rw [htt, hU] at hT
      cases hT
      have hsz : 0 < tg.FFI_TRAMPOLINE_SIZE := by
        rcases Nat.eq_zero_or_pos tg.FFI_TRAMPOLINE_SIZE with h0 | h0
        · have := hok.1
          unfold FFI_TRAMPOLINE_COUNT at this
          rw [h0, Nat.div_zero] at this
          omega
        · exact h0
      have hij : i = j := by
        have : i * tg.FFI_TRAMPOLINE_SIZE = j * tg.FFI_TRAMPOLINE_SIZE := by omega
        exact Nat.eq_of_mul_eq_mul_right hsz this
      apply hne
      rw [he, he2, htt, hij]
    · have := hI.pages _ T _ U hT hU htt
      omega
  · intro p c t T n hc hT hmem
    obtain ⟨T0, i, hT0, he, hi, hmemS, _, _⟩ := PoolInv.slot hI hc
    obtain ⟨L, hch, hn, _⟩ := (hI.table t T hT).chain
    rw [free_list_walk_chain hT n _ L hch, he] at hmem
    obtain ⟨j, hj, hje⟩ := List.mem_map.mp hmem
    simp only [EntryPtr.mk.injEq] at hje
    obtain ⟨htt, hji⟩ := hje
    subst hji
    rw [← htt] at hmemS
    exact (List.nodup_append.mp hn).2.2 (List.mem_of_mem_take hj) hmemS

/-! ### Traces are histories -/

theorem AllocEnv.fresh_of_fresh_b {tg : Target} {env : AllocEnv} {st : State}
    (h : env.fresh_b tg st = true) : env.fresh tg st := by
  unfold AllocEnv.fresh_b at h
  simp only [Bool.and_eq_true] at h
  obtain ⟨⟨h1, h2⟩, h3⟩ := h
  refine ⟨?_, ?_, ?_⟩
  · intro p hp
    rw [hp] at h1
    simpa using h1
  · intro t ht
    rw [ht] at h2
    simpa using h2
  · intro a ha t T hT
    rw [ha] at h3
    simp only [List.all_eq_true, Bool.or_eq_true, decide_eq_true_eq] at h3
    exact h3 (t, T) (mem_of_load hT)

theorem run_history {tg : Target} :
    ∀ (calls : List Call) (st : State) (a f : Nat) (st1 : State) (a1 f1 : Nat),
      History tg a f st → run tg calls st a f = some (st1, a1, f1) → History tg a1 f1 st1 := by
  intro calls
  induction calls with
  | nil =>
    intro st a f st1 a1 f1 h hr
    simp only [run, Option.some.injEq, Prod.mk.injEq] at hr
    obtain ⟨rfl, rfl, rfl⟩ := hr
    exact h
  | cons call calls ih =>
    intro st a f st1 a1 f1 h hr
    cases call with
    | alloc size env =>
      simp only [run] at hr
      split at hr
      · rename_i hfr
        split at hr
        · rename_i s2 r heq
          exact ih _ _ _ _ _ _ (History.alloc size env s2 r h (AllocEnv.fresh_of_fresh_b hfr) heq) hr
        · rename_i s2 heq
          exact ih _ _ _ _ _ _ (History.alloc_null size env s2 h (AllocEnv.fresh_of_fresh_b hfr) heq) hr
        · cases hr
      · cases hr
    | free ptr =>
      simp only [run] at hr
      split at hr
      · rename_i s2 heq
        exact ih _ _ _ _ _ _ (History.free ptr s2 h heq) hr
      · cases hr

theorem tg4_ok : tg4.ok := ⟨by decide, by decide⟩

theorem tg2_ok : tg2.ok := ⟨by decide, by decide⟩

theorem history_three_allocs_one_free :
    History tg2 3 1 (final_state tg2 three_allocs_one_free) :=
  run_history three_allocs_one_free State.empty 0 0 _ 3 1 History.init (by rfl)

theorem history_three_allocs : History tg2 3 0 (final_state tg2 three_allocs) :=
  run_history three_allocs State.empty 0 0 _ 3 0 History.init (by rfl)

/-! ### Teardown -/

theorem ffi_deinit_single (tg : Target) {st : State} {t : Nat} {T : ffi_trampoline_table}
    (hh : st.ffi_trampoline_tables = some t) (hT : st.tables = [(t, T)])
    (hpv : T.prev = none) (hnx : T.next = none) :
    ffi_deinit tg st = .ok
      { ffi_trampoline_tables := none,
        tables := [],
        closures := st.closures,
        log := st.log ++ [.vm_deallocate T.config_page (tg.PAGE_MAX_SIZE * 2),
          .on_deallocate T.config_page (tg.PAGE_MAX_SIZE * 2),
          .free (.pool t), .free (.table t)] } := by
  simp [ffi_deinit, ffi_deinit_loop, hh, hT, read_table, load, bind, Except.bind,
    ffi_trampoline_table_free, hpv, hnx, set_next, set_prev, emit, pure, Except.pure, unbind]

theorem length_unbind_lt {α : Type} {m : List (Nat × α)} {a : Nat} {x : α}
    (h : load m a = some x) : (unbind m a).length < m.length := by
  induction m with
  | nil => simp [load] at h
  | cons kv m ih =>
    obtain ⟨k, v⟩ := kv
    rw [unbind_cons]
    by_cases hk : k = a
    · simp only [hk, if_true, List.length_cons]
      have : (unbind m a).length ≤ m.length := List.length_filter_le _ _
      omega
    · simp only [load_cons, hk, if_false] at h
      simp only [hk, if_false, List.length_cons]
      have := ih h
      omega

theorem set_next_not_fuel (p v : Option Nat) (st : State) :
    set_next p v st ≠ .error .fuel := by
  unfold set_next
  cases p with
  | none => simp
  | some p => cases h : load st.tables p <;> simp [h]

theorem set_prev_not_fuel (p v : Option Nat) (st : State) :
    set_prev p v st ≠ .error .fuel := by
  unfold set_prev
  cases p with
  | none => simp
  | some p => cases h : load st.tables p <;> simp [h]

theorem read_table_not_fuel (st : State) (t : Nat) : read_table st t ≠ .error .fuel := by
  unfold read_table
  cases h : load st.tables t <;> simp [h]

theorem bind_not_fuel {α β : Type} {x : Except Err α} {f : α → Except Err β}
    (hx : x ≠ .error .fuel) (hf : ∀ a, x = .ok a → f a ≠ .error .fuel) :
    x >>= f ≠ .error .fuel := by
  cases x with
  | error e =>
    intro h
    apply hx
    simpa [bind, Except.bind] using h
  | ok a => exact hf a rfl

theorem ffi_trampoline_table_free_not_fuel (tg : Target) (t : Nat) (st : State) :
    ffi_trampoline_table_free tg t st ≠ .error .fuel := by
  unfold ffi_trampoline_table_free
  refine bind_not_fuel (read_table_not_fuel _ _) fun T _ => ?_
  refine bind_not_fuel (set_next_not_fuel _ _ _) fun s1 _ => ?_
  refine bind_not_fuel (read_table_not_fuel _ _) fun T1 _ => ?_
  refine bind_not_fuel (set_prev_not_fuel _ _ _) fun s2 _ => ?_
  refine bind_not_fuel (read_table_not_fuel _ _) fun T2 _ => ?_
  simp [pure, Except.pure]

/-- One iteration of the loop of `ffi_deinit` for every allocated table block
is enough: the loop ends or faults before it has used them up. -/
theorem ffi_deinit_loop_not_fuel (tg : Target) :
    ∀ (n : Nat) (st : State), st.tables.length ≤ n → ffi_deinit_loop tg n st ≠ .error .fuel := by
  intro n
  induction n with
  | zero =>
    intro st hlen
    have hnil : st.tables = [] := List.length_eq_zero.mp (Nat.le_zero.mp hlen)
    unfold ffi_deinit_loop
    cases hh : st.ffi_trampoline_tables with
    | none => simp
    | some t => simp [read_table, hnil, load, bind, Except.bind]
  | succ n ih =>
    intro st hlen
    unfold ffi_deinit_loop
    cases hh : st.ffi_trampoline_tables with
    | none => simp
    | some t =>
      simp only
      refine bind_not_fuel (read_table_not_fuel _ _) fun T hT => ?_
      refine bind_not_fuel (ffi_trampoline_table_free_not_fuel _ _ _) fun s2 hs2 => ?_
      obtain ⟨T2, m, hT2, hl, htab, _⟩ := ffi_trampoline_table_free_inv hs2
      simp only at hT2 hl
      apply ih
      obtain ⟨X, hX, _⟩ := hl.symm.lookup hT2
      have h1 := length_unbind_lt hX
      have h2 : m.length = st.tables.length := by
        have := congrArg List.length hl.1
        simpa using this
      rw [htab]
      omega

theorem ffi_deinit_not_fuel (tg : Target) (st : State) : ffi_deinit tg st ≠ .error .fuel :=
  ffi_deinit_loop_not_fuel tg _ st (Nat.le_refl _)

theorem alloc_free_pairs_single {tg : Target} (hok : tg.ok) (size : Nat) {t : Nat} :
    ∀ (envs : List AllocEnv) (ptrs : List Nat) (st : State) (T : ffi_trampoline_table),
      Single tg t st → st.tables = [(t, T)] → st.closures = [] →
      envs.map AllocEnv.malloc = ptrs.map some →
      ∃ st1 T1, alloc_free_pairs tg size envs st = .ok st1 ∧
        Single tg t st1 ∧ st1.tables = [(t, T1)] ∧ st1.closures = [] ∧
        T1.config_page = T.config_page ∧
        st1.log = st.log ++ ptrs.map (fun p => Event.free (Block.closure p)) := by
  intro envs
  induction envs with
  | nil =>
    intro ptrs st T hS hT hcl hmap
    have : ptrs = [] := by
      cases ptrs with
      | nil => rfl
      | cons a l => simp at hmap
    subst this
    exact ⟨st, T, rfl, hS, hT, hcl, rfl, by simp⟩
  | cons env envs ih =>
    intro ptrs st T hS hT hcl hmap
    cases ptrs with
    | nil => simp at hmap
    | cons p ptrs =>
      simp only [List.map_cons, List.cons.injEq] at hmap
      obtain ⟨hm, hmap⟩ := hmap
      obtain ⟨s1, T1, c, code, heq1, hS1, hT1, _, hcp1, hcl1, hlog1⟩ :=
        ffi_closure_alloc_single hok hS hT (by rw [hcl]; exact hok.1) size hm
          (by rw [hcl]; rfl)
      have hc1 : load s1.closures p = some c := by simp [hcl1, load_cons]
      obtain ⟨s2, T2, heq2, hS2, hT2, _, hcp2, hcl2, hlog2⟩ :=
        ffi_closure_free_single hok hS1 hT1 hc1
      have hcl2e : s2.closures = [] := by
        rw [hcl2, hcl1, hcl, unbind_cons]
        simp [unbind]
      obtain ⟨s3, T3, heq3, hS3, hT3, hcl3, hcp3, hlog3⟩ :=
        ih ptrs s2 T2 hS2 hT2 hcl2e hmap
      refine ⟨s3, T3, ?_, hS3, hT3, hcl3, (hcp3.trans hcp2).trans hcp1, ?_⟩
      · simp [alloc_free_pairs, heq1, heq2, heq3, bind, Except.bind]
      · rw [hlog3, hlog2, hlog1]
        simp

/-- C6, as the code has it.  After `N ≥ 1` consecutive pairs of
`ffi_closure_alloc` and `ffi_closure_free` from the empty registry (the first
call getting its pages and its table block) no closure is outstanding and the
registry holds exactly one table, the head, fully free: `ffi_closure_free`
never releases the head.  `ffi_deinit` then unmaps the pages of exactly that
table, once, fires `on_deallocate` for them once and leaves the registry
empty.  Only with no call at all (`N = 0`) does `ffi_deinit` unmap nothing. -/
theorem teardown_after_pairs (tg : Target) (hok : tg.ok) (size : Nat)
    (env0 : AllocEnv) (envs : List AllocEnv) (p0 cp t : Nat) (ptrs : List Nat)
    (hm0 : env0.malloc = some p0) (hv : env0.vm_allocate = some cp)
    (hc : env0.calloc = some t)
    (hms : envs.map AllocEnv.malloc = ptrs.map some) :
    (∃ st T, alloc_free_pairs tg size (env0 :: envs) State.empty = .ok st ∧
      st.closures = [] ∧ st.ffi_trampoline_tables = some t ∧ st.tables = [(t, T)] ∧
      T.free_count = FFI_TRAMPOLINE_COUNT tg ∧ T.config_page = cp ∧
      st.log = [.vm_allocate cp (tg.PAGE_MAX_SIZE * 2), .on_allocate cp (tg.PAGE_MAX_SIZE * 2)] ++
        (p0 :: ptrs).map (fun p => Event.free (Block.closure p)) ∧
      ffi_deinit tg st = .ok
        { ffi_trampoline_tables := none,
          tables := [],
          closures := [],
          log := st.log ++ [.vm_deallocate cp (tg.PAGE_MAX_SIZE * 2),
            .on_deallocate cp (tg.PAGE_MAX_SIZE * 2), .free (.pool t), .free (.table t)] }) ∧
    ffi_deinit tg State.empty = .ok State.empty := by
  refine ⟨?_, rfl⟩
  obtain ⟨s1, T1, heq1, hS1, hT1, _, hcp1, hcl1, hlog1⟩ :=
    ffi_closure_alloc_first hok size hm0 hv hc
  have hc1 : load s1.closures p0 = some ⟨t, ⟨t, 0⟩⟩ := by simp [hcl1, load_cons]
  obtain ⟨s2, T2, heq2, hS2, hT2, _, hcp2, hcl2, hlog2⟩ :=
    ffi_closure_free_single hok hS1 hT1 hc1
  have hcl2e : s2.closures = [] := by
    rw [hcl2, hcl1, unbind_cons]
    simp [unbind]
  obtain ⟨s3, T3, heq3, hS3, hT3, hcl3, hcp3, hlog3⟩ :=
    alloc_free_pairs_single hok size envs ptrs s2 T2 hS2 hT2 hcl2e hms
  have hcnt := hS3.live_count hT3
  obtain ⟨_, hh3, T3b, hT3b, hpv, hnx⟩ := hS3
  rw [hT3] at hT3b
  cases hT3b
  have hcp : T3.config_page = cp := (hcp3.trans hcp2).trans hcp1
  refine ⟨s3, T3, ?_, hcl3, hh3, hT3, ?_, hcp, ?_, ?_⟩
  · simp [alloc_free_pairs, heq1, heq2, heq3, bind, Except.bind]
  · rw [hcl3] at hcnt
    simpa using hcnt
  · rw [hlog3, hlog2, hlog1]
    simp
  · rw [ffi_deinit_single tg hh3 hT3 hpv hnx, hcl3, hcp]

/-! ### Where the code departs from the claims -/

theorem nth_table_succ (st : State) (n t : Nat) :
    nth_table st (n + 1) (some t) =
      (load st.tables t).bind fun T => nth_table st n T.next := by
  cases h : load st.tables t <;> simp [nth_table, h]

theorem nth_table_two_cycle {st : State} {x y : Nat}
    (hx : (load st.tables x).map (fun T => T.next) = some (some y))
    (hy : (load st.tables y).map (fun T => T.next) = some (some x)) :
    ∀ n, nth_table st n (some x) = some (if n % 2 = 0 then x else y) ∧
      nth_table st n (some y) = some (if n % 2 = 0 then y else x) := by
  intro n
  induction n with
  | zero => exact ⟨rfl, rfl⟩
  | succ n ih =>
    obtain ⟨X, hX, hXn⟩ := Option.map_eq_some'.mp hx
    obtain ⟨Y, hY, hYn⟩ := Option.map_eq_some'.mp hy
    rw [nth_table_succ, nth_table_succ, hX, hY]
    simp only [Option.some_bind, hXn, hYn, ih.1, ih.2]
    rcases Nat.mod_two_eq_zero_or_one n with h | h
    · have : (n + 1) % 2 = 1 := by omega
      simp [h, this]
    · have : (n + 1) % 2 = 0 := by omega
      simp [h, this]

/-- The defect behind the failures of the registry claims, for every target
with at least two trampolines to a page: after `FFI_TRAMPOLINE_COUNT + 1`
allocations the registry is the new table `t1`, then the first table `t`; the
free of a closure of `t` (here the first one) bumps `t` to the head without
taking it out of its place after `t1`, so `t` and `t1` point to each other,
the walk from the head never ends, and `ffi_deinit` then uses released
memory. -/
theorem bump_to_top_cycle_any_count (tg : Target) (hok : tg.ok)
    (h2 : 2 ≤ FFI_TRAMPOLINE_COUNT tg) (size : Nat)
    (env0 : AllocEnv) (envs : List AllocEnv) (p0 cp t : Nat) (ptrs : List Nat)
    (hm0 : env0.malloc = some p0) (hv : env0.vm_allocate = some cp)
    (hc : env0.calloc = some t)
    (hms : envs.map AllocEnv.malloc = ptrs.map some) (hnd : (p0 :: ptrs).Nodup)
    (hk : ptrs.length + 1 = FFI_TRAMPOLINE_COUNT tg)
    (env1 : AllocEnv) (p1 cp1 t1 : Nat)
    (hm1 : env1.malloc = some p1) (hv1 : env1.vm_allocate = some cp1)
    (hc1 : env1.calloc = some t1)
    (hp1 : p1 ∉ p0 :: ptrs) (ht1 : t1 ≠ t)
    (hpg : cp1 + tg.PAGE_MAX_SIZE * 2 ≤ cp ∨ cp + tg.PAGE_MAX_SIZE * 2 ≤ cp1) :
    ∃ st rs st1 r st2, alloc_many tg size (env0 :: envs) State.empty = .ok (st, rs) ∧
      ffi_closure_alloc tg size env1 st = .ok (st1, some r) ∧
      ffi_closure_free tg p0 st1 = .ok st2 ∧
      st2.ffi_trampoline_tables = some t ∧
      (∀ n, nth_table st2 n (some t) = some (if n % 2 = 0 then t else t1)) ∧
      ffi_deinit tg st2 = .error .fault := by
  obtain ⟨st, rs, T, h1, _, hS, hT, hfc0, hkeys, st1, T1, h3, hI1, hh1, htab1, hnx1, hpv1, _,
    _, _, hcl1, _⟩ :=
    pool_growth_state tg hok size env0 envs p0 cp t ptrs hm0 hv hc hms hnd hk env1 p1 cp1 t1
      hm1 hv1 hc1 hp1 ht1 hpg
  have hp01 : p1 ≠ p0 := fun e => hp1 (e ▸ List.mem_cons_self _ _)
  have hlive : load st.closures p0 ≠ none := by
    rw [Ne, load_eq_none_iff]
    exact fun hn => hn (hkeys.mem_iff.mpr (List.mem_cons_self _ _))
  obtain ⟨c0, hc0⟩ := Option.ne_none_iff_exists'.mp hlive
  have hct : c0.trampoline_table = t := hS.closure_table hc0
  have hc0' : load st1.closures p0 = some c0 := by
    rw [hcl1, load_cons]
    simp [hp01, hc0]
  obtain ⟨_, _, Tb, hTb, hTpv, hTnx⟩ := hS
  rw [hT] at hTb
  cases hTb
  obtain ⟨T0, E, hT0, hE, _, _, _, _⟩ := PoolInv.give_back hok hI1 hc0'
  have heq := ffi_closure_free_unfold hok hI1 hc0' hT0 hE
  rw [hct] at hT0 heq
  rw [htab1] at hT0
  simp only [load_cons, ht1, if_false, if_true, Option.some.injEq] at hT0
  subst hT0
  have hno : ¬ (T.free_count + 1 = FFI_TRAMPOLINE_COUNT tg ∧
      st1.ffi_trampoline_tables ≠ some t) := by
    intro hx
    omega
  have hne : st1.ffi_trampoline_tables ≠ some t := by
    rw [hh1]
    simp [ht1]
  simp only [hfc0] at hno
  rw [if_neg (by simpa [hfc0] using hno), if_pos hne] at heq
  generalize returned { T with prev := some t1 } c0 E = R at heq
  have hbump : bump_to_top t { st1 with tables := store st1.tables t R } = .ok
      { ffi_trampoline_tables := some t,
        tables := [(t1, { T1 with prev := some t }), (t, { R with prev := none, next := some t1 })],
        closures := st1.closures,
        log := st1.log } := by
    simp [bump_to_top, read_table, write_table, htab1, hh1, store, load, ht1, Ne.symm ht1,
      set_prev, bind, Except.bind, pure, Except.pure]
  rw [hbump] at heq
  simp only [bind, Except.bind] at heq
  refine ⟨st, rs, st1, _, _, h1, h3, heq, rfl, ?_, ?_⟩
  · intro n
    refine (nth_table_two_cycle ?_ ?_ n).1
    · simp [emit, load, ht1]
    · simp [emit, load, hnx1]
  · simp [ffi_deinit, ffi_deinit_loop, emit, read_table, load, ht1, Ne.symm ht1, hnx1, hpv1,
      bind, Except.bind, ffi_trampoline_table_free, set_next, set_prev, write_table, store,
      unbind, pure, Except.pure]

/-- A call of `ffi_closure_free` on a live closure, in a state reached with no
double free, that has no defined result: after two bumps table 30 keeps
`next = 20` when table 20 is released, and the release of table 30 (its last
closure, closure 5, is freed) writes `table->next->prev` into the released
table 20. -/
theorem ffi_closure_free_can_fault :
    History tg2 5 3 (final_state tg2 five_allocs_three_frees) ∧
    (load (final_state tg2 five_allocs_three_frees).closures 5).map
      (fun c => c.trampoline_table) = some 30 ∧
    (load (final_state tg2 five_allocs_three_frees).tables 30).map (fun T => T.next) =
      some (some 20) ∧
    load (final_state tg2 five_allocs_three_frees).tables 20 = none ∧
    ffi_closure_free tg2 5 (final_state tg2 five_allocs_three_frees) = .error .fault :=
  ⟨run_history five_allocs_three_frees State.empty 0 0 _ 5 3 History.init (by rfl),
    by rfl, by rfl, by rfl, by rfl⟩

/-- C1 (the code does not do this).  Two trampolines to a page; three closures
are allocated, so the registry is table 20 (head, made for the third closure),
then table 10, then `NULL`.  Closure 1 lies on table 10, which is not the head,
and freeing it leaves `free_count = 1 < 2` there.  `ffi_closure_free` makes
table 10 the head with `next = 20` and leaves `next = 10` in table 20: it does
not take table 10 out of its old place.  The walk from the head along `next`
is 10, 20, 10, 20, ... and never reaches `NULL`. -/
theorem bump_to_top_makes_cycle :
    ffi_closure_free tg2 1 (final_state tg2 three_allocs) =
      .ok (final_state tg2 three_allocs_one_free) ∧
    (final_state tg2 three_allocs).ffi_trampoline_tables = some 20 ∧
    nth_table (final_state tg2 three_allocs) 1 (some 20) = some 10 ∧
    nth_table (final_state tg2 three_allocs) 2 (some 20) = none ∧
    (load (final_state tg2 three_allocs).closures 1).map (fun c => c.trampoline_table) =
      some 10 ∧
    (load (final_state tg2 three_allocs_one_free).tables 10).map (fun T => T.free_count) =
      some 1 ∧
    (final_state tg2 three_allocs_one_free).ffi_trampoline_tables = some 10 ∧
    ∀ n, nth_table (final_state tg2 three_allocs_one_free) n (some 10) =
      some (if n % 2 = 0 then 10 else 20) :=
  ⟨by rfl, by rfl, by rfl, by rfl, by rfl, by rfl, by rfl,
    fun n => (nth_table_two_cycle (x := 10) (y := 20) (by rfl) (by rfl) n).1⟩

/-- C7 (the code does not do this).  In the state of `bump_to_top_makes_cycle`,
reached by three allocations and one free, `ffi_deinit` releases table 10, then
table 20, and then writes `table->next->prev` through the `next` of table 20,
which still points to the released table 10: a use of released memory, however
many iterations the loop is given. -/
theorem deinit_touches_released_table :
    History tg2 3 1 (final_state tg2 three_allocs_one_free) ∧
    ffi_deinit tg2 (final_state tg2 three_allocs_one_free) = .error .fault ∧
    ∀ k, ffi_deinit_loop tg2 (k + 2) (final_state tg2 three_allocs_one_free) = .error .fault :=
  ⟨history_three_allocs_one_free, by rfl, fun _ => by rfl⟩

/-- C8 (the code does not do this).  From the empty registry, when `vm_write`
(the copy of the template) fails, and likewise when `vm_protect` fails,
`ffi_closure_alloc` returns the closure and a code address in the trampoline
page, keeps the two pages mapped, fires `on_allocate` for them and puts the
table in the registry; the answer of `vm_write` and of `vm_protect` is never
looked at, whatever the state. -/
theorem failed_page_setup_is_not_rolled_back :
    (∃ st, ffi_closure_alloc tg4 64 vm_write_fails State.empty = .ok (st, some (1, 81920)) ∧
      st.ffi_trampoline_tables = some 10 ∧ (load st.tables 10).isSome = true ∧
      (load st.closures 1).isSome = true ∧
      st.log = [.vm_allocate 65536 32768, .on_allocate 65536 32768]) ∧
    (∃ st, ffi_closure_alloc tg4 64 vm_protect_fails State.empty = .ok (st, some (1, 81920)) ∧
      st.ffi_trampoline_tables = some 10 ∧ (load st.tables 10).isSome = true ∧
      (load st.closures 1).isSome = true ∧
      st.log = [.vm_allocate 65536 32768, .on_allocate 65536 32768]) ∧
    ∀ (tg : Target) (size : Nat) (env : AllocEnv) (st : State) (w x : Bool),
      ffi_closure_alloc tg size { env with vm_write := w, vm_protect := x } st =
        ffi_closure_alloc tg size env st :=
  ⟨⟨_, by rfl, by rfl, by rfl, by rfl, by rfl⟩, ⟨_, by rfl, by rfl, by rfl, by rfl, by rfl⟩,
    fun _ _ _ _ _ _ => rfl⟩

/-- C6 (the claim fails on the code).  After one pair of `ffi_closure_alloc`
and `ffi_closure_free` from the empty registry no closure is outstanding, the
registry still holds table 10, and `ffi_deinit` unmaps its two pages and fires
`on_deallocate` for them. -/
theorem teardown_after_one_pair_unmaps :
    ∃ st st1, alloc_free_pairs tg4 64 one_pair State.empty = .ok st ∧
      st.closures = [] ∧ st.ffi_trampoline_tables = some 10 ∧
      ffi_deinit tg4 st = .ok st1 ∧
      st1.log = st.log ++ [.vm_deallocate 65536 32768, .on_deallocate 65536 32768,
        .free (.pool 10), .free (.table 10)] :=
  ⟨_, _, by rfl, by rfl, by rfl, by rfl, by rfl⟩

/-! ### The claims at concrete traces -/

theorem pool_accounting_witness :
    outstanding tg2 (final_state tg2 three_allocs_one_free) =
      (final_state tg2 three_allocs_one_free).closures.length ∧
    outstanding tg2 (final_state tg2 three_allocs_one_free) + 1 = 3 ∧
    outstanding tg2 (final_state tg2 three_allocs_one_free) = 3 - 1 :=
  pool_accounting tg2 tg2_ok 3 1 (final_state tg2 three_allocs_one_free)
    (run_history three_allocs_one_free State.empty 0 0 _ 3 1 History.init (by rfl))

theorem release_rule_witness :
    ∃ c T, load (final_state tg2 three_allocs_one_free).closures 3 = some c ∧
      load (final_state tg2 three_allocs_one_free).tables c.trampoline_table = some T ∧
      (load (final_state tg2 three_allocs_two_frees).tables c.trampoline_table = none ↔
        ((T.free_count + 1) % 65536 = FFI_TRAMPOLINE_COUNT tg2 ∧
          (final_state tg2 three_allocs_one_free).ffi_trampoline_tables ≠
            some c.trampoline_table)) ∧
      (load (final_state tg2 three_allocs_two_frees).tables c.trampoline_table = none →
        (final_state tg2 three_allocs_two_frees).log =
          (final_state tg2 three_allocs_one_free).log ++
          [.vm_deallocate T.config_page (tg2.PAGE_MAX_SIZE * 2),
            .on_deallocate T.config_page (tg2.PAGE_MAX_SIZE * 2),
            .free (.pool c.trampoline_table), .free (.table c.trampoline_table),
            .free (.closure 3)]) ∧
      (load (final_state tg2 three_allocs_two_frees).tables c.trampoline_table ≠ none →
        (final_state tg2 three_allocs_two_frees).log =
          (final_state tg2 three_allocs_one_free).log ++ [.free (.closure 3)]) ∧
      (∀ x, x ≠ c.trampoline_table →
        (load (final_state tg2 three_allocs_two_frees).tables x).isSome =
          (load (final_state tg2 three_allocs_one_free).tables x).isSome) ∧
      (load (final_state tg2 three_allocs_two_frees).tables c.trampoline_table = none →
        ∀ q d, load (final_state tg2 three_allocs_two_frees).closures q = some d →
          d.trampoline_table ≠ c.trampoline_table) ∧
      ∃ hd H, (final_state tg2 three_allocs_two_frees).ffi_trampoline_tables = some hd ∧
        load (final_state tg2 three_allocs_two_frees).tables hd = some H :=
  release_rule tg2 tg2_ok 3 1 (final_state tg2 three_allocs_one_free)
    (final_state tg2 three_allocs_two_frees) 3
    (run_history three_allocs_one_free State.empty 0 0 _ 3 1 History.init (by rfl)) (by rfl)

theorem single_table_round_trip_witness :
    ∃ st rs T, alloc_many tg4 64 [answers 1 65536 10, answers_closure 2, answers_closure 3]
        State.empty = .ok (st, rs) ∧
      rs.map (Option.map Prod.fst) = [1, 2, 3].map some ∧
      st.ffi_trampoline_tables = some 10 ∧ st.tables = [(10, T)] ∧
      T.free_count = FFI_TRAMPOLINE_COUNT tg4 - ([2, 3].length + 1) ∧
      st.log = [.vm_allocate 65536 (tg4.PAGE_MAX_SIZE * 2),
        .on_allocate 65536 (tg4.PAGE_MAX_SIZE * 2)] ∧
      ∃ st2 T2, free_many tg4 [2, 1, 3] st = .ok st2 ∧
        st2.ffi_trampoline_tables = some 10 ∧ st2.tables = [(10, T2)] ∧
        T2.free_count = FFI_TRAMPOLINE_COUNT tg4 ∧ T2.config_page = 65536 ∧
        st2.closures = [] ∧
        st2.log = st.log ++ [2, 1, 3].map (fun p => Event.free (Block.closure p)) :=
  single_table_round_trip tg4 tg4_ok 64 (answers 1 65536 10)
    [answers_closure 2, answers_closure 3] 1 65536 10 [2, 3] rfl rfl rfl rfl (by decide)
    (by decide) [2, 1, 3] (List.Perm.swap 1 2 [3])

theorem pool_growth_witness :
    ∃ st rs T, alloc_many tg2 64 [answers 1 65536 10, answers_closure 2] State.empty =
        .ok (st, rs) ∧
      rs.map (Option.map Prod.fst) = [1, 2].map some ∧
      st.ffi_trampoline_tables = some 10 ∧ st.tables = [(10, T)] ∧ T.free_count = 0 ∧
      ∃ st1 T1, ffi_closure_alloc tg2 64 (answers 3 131072 20) st =
          .ok (st1, some (3, 131072 + tg2.PAGE_MAX_SIZE)) ∧
        st1.ffi_trampoline_tables = some 20 ∧
        st1.tables = [(20, T1), (10, { T with prev := some 20 })] ∧
        T1.next = some 10 ∧ T1.prev = none ∧
        T1.free_count = FFI_TRAMPOLINE_COUNT tg2 - 1 ∧
        T1.config_page = 131072 ∧ T1.trampoline_page = 131072 + tg2.PAGE_MAX_SIZE ∧
        st1.closures = (3, ⟨20, ⟨20, 0⟩⟩) :: st.closures ∧
        st1.log = st.log ++ [.vm_allocate 131072 (tg2.PAGE_MAX_SIZE * 2),
          .on_allocate 131072 (tg2.PAGE_MAX_SIZE * 2)] :=
  pool_growth tg2 tg2_ok 64 (answers 1 65536 10) [answers_closure 2] 1 65536 10 [2]
    rfl rfl rfl rfl (by decide) (by decide) (answers 3 131072 20) 3 131072 20 rfl rfl rfl
    (by decide) (by decide) (by decide)

theorem teardown_after_pairs_witness :
    (∃ st T, alloc_free_pairs tg4 64 [answers 1 65536 10, answers_closure 1] State.empty =
        .ok st ∧
      st.closures = [] ∧ st.ffi_trampoline_tables = some 10 ∧ st.tables = [(10, T)] ∧
      T.free_count = FFI_TRAMPOLINE_COUNT tg4 ∧ T.config_page = 65536 ∧
      st.log = [.vm_allocate 65536 (tg4.PAGE_MAX_SIZE * 2),
          .on_allocate 65536 (tg4.PAGE_MAX_SIZE * 2)] ++
        [1, 1].map (fun p => Event.free (Block.closure p)) ∧
      ffi_deinit tg4 st = .ok
        { ffi_trampoline_tables := none,
          tables := [],
          closures := [],
          log := st.log ++ [.vm_deallocate 65536 (tg4.PAGE_MAX_SIZE * 2),
            .on_deallocate 65536 (tg4.PAGE_MAX_SIZE * 2), .free (.pool 10),
            .free (.table 10)] }) ∧
    ffi_deinit tg4 State.empty = .ok State.empty :=
  teardown_after_pairs tg4 tg4_ok 64 (answers 1 65536 10) [answers_closure 1] 1 65536 10 [1]
    rfl rfl rfl rfl

theorem slot_exclusivity_witness :
    (∀ p c, load (final_state tg2 three_allocs_one_free).closures p = some c →
      ∃ T i, load (final_state tg2 three_allocs_one_free).tables c.trampoline_table = some T ∧
        c.trampoline_table_entry = ⟨c.trampoline_table, i⟩ ∧ i < FFI_TRAMPOLINE_COUNT tg2 ∧
        code_address (final_state tg2 three_allocs_one_free) c =
          some (T.trampoline_page + i * tg2.FFI_TRAMPOLINE_SIZE)) ∧
    (∀ p q c d, load (final_state tg2 three_allocs_one_free).closures p = some c →
      load (final_state tg2 three_allocs_one_free).closures q = some d → p ≠ q →
      c.trampoline_table_entry ≠ d.trampoline_table_entry ∧
      code_address (final_state tg2 three_allocs_one_free) c ≠
        code_address (final_state tg2 three_allocs_one_free) d) ∧
    (∀ p c t T n, load (final_state tg2 three_allocs_one_free).closures p = some c →
      load (final_state tg2 three_allocs_one_free).tables t = some T →
      c.trampoline_table_entry ∉
        free_list_walk (final_state tg2 three_allocs_one_free) n T.free_list) :=
  slot_exclusivity tg2 tg2_ok 3 1 (final_state tg2 three_allocs_one_free)
    (run_history three_allocs_one_free State.empty 0 0 _ 3 1 History.init (by rfl))

/-! ### Allocation and translation -/

/-- C10.  Allocation and translation agree.  Dual-map strategy: when
`ffi_closure_alloc (size, &code)` returns a non-null data pointer `p`, a code
pointer was stored in `*code` and it is `ffi_data_to_code_pointer (p)` in the
malloc state the allocation left.  Trivial strategy: `*code` is the pointer
returned, and `ffi_data_to_code_pointer` of it is the same pointer. -/
theorem alloc_agrees_with_translation :
    (∀ (G S : Type) (h : DualMap.DlMalloc G S) (gm gm1 : G) (size p : Nat) (oc : Option Nat),
      DualMap.ffi_closure_alloc h gm size true = .ok (gm1, p, oc) → p ≠ 0 →
      oc = some (DualMap.ffi_data_to_code_pointer h gm1 p)) ∧
    (∀ (FFI_CLOSURE_PTR : Nat → Nat) (malloc p : Nat) (oc : Option Nat),
      Trivial.ffi_closure_alloc FFI_CLOSURE_PTR malloc true = (p, oc) →
      oc = some p ∧ Trivial.ffi_data_to_code_pointer p = p) := by
  constructor
  · intro G S h gm gm1 size p oc halloc hp
    unfold DualMap.ffi_closure_alloc at halloc
    simp only [Bool.not_true, Bool.false_eq_true, if_false] at halloc
    split at halloc
    · rename_i hne
      split at halloc
      · rename_i seg hseg
        simp only [Except.ok.injEq, Prod.mk.injEq] at halloc
        obtain ⟨rfl, rfl, rfl⟩ := halloc
        simp [DualMap.ffi_data_to_code_pointer, hseg]
      · cases halloc
    · rename_i hz
      simp only [Except.ok.injEq, Prod.mk.injEq] at halloc
      obtain ⟨_, rfl, _⟩ := halloc
      exact absurd hp hz
  · intro F m p oc halloc
    simp only [Trivial.ffi_closure_alloc, Bool.not_true, Bool.false_eq_true, if_false,
      Prod.mk.injEq] at halloc
    obtain ⟨rfl, rfl⟩ := halloc
    exact ⟨rfl, rfl⟩

theorem alloc_agrees_with_translation_witness :
    DualMap.ffi_closure_alloc DualMap.one_segment 4096 64 true =
      .ok (4160, 4096, some 1052672) ∧
    some 1052672 = some (DualMap.ffi_data_to_code_pointer DualMap.one_segment 4160 4096) ∧
    Trivial.ffi_closure_alloc (fun p => p) 4096 true = (4096, some 4096) ∧
    some 4096 = some 4096 ∧ Trivial.ffi_data_to_code_pointer 4096 = 4096 :=
  ⟨by rfl,
    alloc_agrees_with_translation.1 Nat Nat DualMap.one_segment 4096 4160 64 4096
      (some 1052672) (by rfl) (by decide),
    by rfl,
    alloc_agrees_with_translation.2 (fun p => p) 4096 4096 (some 4096) (by rfl)⟩

/-! ### Foreign pointers -/

/-- C11.  Foreign pointers translate to themselves.  Dual-map strategy: when
`segment_holding (gm, data)` is null, `ffi_data_to_code_pointer (data)` is
`data`.  Trivial strategy: `ffi_data_to_code_pointer` is the identity. -/
theorem foreign_pointer_unchanged :
    (∀ (G S : Type) (h : DualMap.DlMalloc G S) (gm : G) (data : Nat),
      h.segment_holding gm data = none → DualMap.ffi_data_to_code_pointer h gm data = data) ∧
    (∀ data : Nat, Trivial.ffi_data_to_code_pointer data = data) := by
  constructor
  · intro G S h gm data hseg
    simp [DualMap.ffi_data_to_code_pointer, hseg]
  · intro data
    rfl

theorem foreign_pointer_unchanged_witness :
    DualMap.one_segment.segment_holding 4096 100 = none ∧
    DualMap.ffi_data_to_code_pointer DualMap.one_segment 4096 100 = 100 ∧
    Trivial.ffi_data_to_code_pointer 100 = 100 :=
  ⟨by rfl, foreign_pointer_unchanged.1 Nat Nat DualMap.one_segment 4096 100 (by rfl),
    foreign_pointer_unchanged.2 100⟩

/-! ### The search for the backing file -/

namespace DualMap

theorem tried_of_append (l1 l2 : List FileEvent) :
    tried_of (l1 ++ l2) = tried_of l1 ++ tried_of l2 := by
  simp [tried_of, List.filterMap_append]

theorem opts_next_spec (opts : List Opt) (st : ExecState) :
    ∃ new, (open_temp_exec_file_opts_next opts st).1.log = st.log ++ new ∧
      tried_of new = [] ∧ (∀ e ∈ new, e.is_search = true) ∧
      (∀ e ∈ new, e = FileEvent.reset st.open_temp_exec_file_opts_idx) ∧
      (open_temp_exec_file_opts_next opts st).1.execfd = st.execfd ∧
      (open_temp_exec_file_opts_next opts st).1.execsize = st.execsize ∧
      (open_temp_exec_file_opts_next opts st).1.open_temp_exec_file_opts_idx =
        (if st.open_temp_exec_file_opts_idx + 1 = opts.length then 0
          else st.open_temp_exec_file_opts_idx + 1) ∧
      (open_temp_exec_file_opts_next opts st).2 =
        decide (st.open_temp_exec_file_opts_idx + 1 = opts.length) := by
  unfold open_temp_exec_file_opts_next
  cases ho : opts[st.open_temp_exec_file_opts_idx]? with
  | none =>
    refine ⟨[], ?_⟩
    by_cases hw : st.open_temp_exec_file_opts_idx + 1 = opts.length <;>
      simp [hw, tried_of]
  | some o =>
    by_cases hr : o.repeats
    · refine ⟨[.reset st.open_temp_exec_file_opts_idx], ?_⟩
      by_cases hw : st.open_temp_exec_file_opts_idx + 1 = opts.length <;>
        simp [hw, hr, tried_of, tick, FileEvent.is_search]
    · refine ⟨[], ?_⟩
      by_cases hw : st.open_temp_exec_file_opts_idx + 1 = opts.length <;>
        simp [hw, hr, tried_of]

/-- What one call of `open_temp_exec_file` does, from any index inside the
table: it ends, having tried the entries `idx, idx + 1, ..., k` in this order,
each once; all but the last returned `-1`; the result is what entry `k`
returned, and `-1` only when `k` is the last entry of the table. -/
theorem open_temp_exec_file_loop_spec (opts : List Opt) (sys : Sys) :
    ∀ (fuel : Nat) (st : ExecState), st.open_temp_exec_file_opts_idx < opts.length →
      opts.length - st.open_temp_exec_file_opts_idx ≤ fuel →
      ∃ st1 fd k new, open_temp_exec_file_loop opts sys fuel st = .ok (st1, fd) ∧
        st1.log = st.log ++ new ∧
        st.open_temp_exec_file_opts_idx ≤ k ∧ k < opts.length ∧
        tried_of new =
          (List.range' st.open_temp_exec_file_opts_idx
            (k - st.open_temp_exec_file_opts_idx)).map (fun i => (i, none)) ++ [(k, fd)] ∧
        (∀ e ∈ new, e.is_search = true) ∧
        (∃ x rest, new = FileEvent.tried st.open_temp_exec_file_opts_idx x :: rest) ∧
        (fd = none → k + 1 = opts.length ∧ st1.open_temp_exec_file_opts_idx = 0) ∧
        st1.open_temp_exec_file_opts_idx ≤ k + 1 ∧
        st1.open_temp_exec_file_opts_idx < opts.length ∧
        st1.execfd = st.execfd ∧ st1.execsize = st.execsize := by
  intro fuel
  induction fuel with
  | zero =>
    intro st hlt hfuel
    omega
  | succ fuel ih =>
    intro st hlt hfuel
    have ho : opts[st.open_temp_exec_file_opts_idx]? =
        some opts[st.open_temp_exec_file_opts_idx] := List.getElem?_eq_getElem hlt
    generalize opts[st.open_temp_exec_file_opts_idx] = o at ho
    unfold open_temp_exec_file_loop
    simp only [ho]
    generalize hfd : sys.call_opt st.clock st.open_temp_exec_file_opts_idx = fd
    obtain ⟨rs, hlog, htr, hsearch, _, hfd1, hsz1, hidx1, hw1⟩ :=
      opts_next_spec opts (tick st (.tried st.open_temp_exec_file_opts_idx fd))
    by_cases hcond : (!o.repeats || fd.isNone) = true
    · simp only [hcond, if_true]
      by_cases hw : st.open_temp_exec_file_opts_idx + 1 = opts.length
      · have hw2 : (open_temp_exec_file_opts_next opts
            (tick st (.tried st.open_temp_exec_file_opts_idx fd))).2 = true := by
          rw [hw1]; simpa [tick] using hw
        simp only [hw2, if_true]
        refine ⟨_, fd, st.open_temp_exec_file_opts_idx,
          .tried st.open_temp_exec_file_opts_idx fd :: rs, rfl, ?_, le_refl _, hlt, ?_, ?_,
          ⟨_, _, rfl⟩, ?_, ?_, ?_, ?_, ?_⟩
        · rw [hlog]; simp [tick]
        · simp [tried_of] at htr ⊢
          exact htr
        · intro e he
          rcases List.mem_cons.mp he with rfl | he
          · rfl
          · exact hsearch e he
        · intro _
          refine ⟨hw, ?_⟩
          rw [hidx1]; simp [tick, hw]
        · rw [hidx1]; simp [tick, hw]
        · rw [hidx1]; simp [tick, hw]; omega
        · rw [hfd1]; rfl
        · rw [hsz1]; rfl
      · have hw2 : (open_temp_exec_file_opts_next opts
            (tick st (.tried st.open_temp_exec_file_opts_idx fd))).2 = false := by
          rw [hw1]; simpa [tick] using hw
        have hidx2 : (open_temp_exec_file_opts_next opts
            (tick st (.tried st.open_temp_exec_file_opts_idx fd))).1.open_temp_exec_file_opts_idx =
            st.open_temp_exec_file_opts_idx + 1 := by
          rw [hidx1]; simp [tick, hw]
        simp only [hw2, Bool.false_eq_true, if_false]
        cases fd with
        | none =>
          simp only [Option.isNone_none, if_true]
          obtain ⟨st1, fd1, k, new, heq, hlog2, hk1, hk2, htr2, hs2, _, hnone, hi1, hi2, he1, he2⟩ :=
            ih (open_temp_exec_file_opts_next opts
              (tick st (.tried st.open_temp_exec_file_opts_idx none))).1
              (by rw [hidx2]; omega) (by rw [hidx2]; omega)
          rw [hidx2] at hk1 htr2
          refine ⟨st1, fd1, k, .tried st.open_temp_exec_file_opts_idx none :: (rs ++ new), heq,
            ?_, by omega, hk2, ?_, ?_, ⟨_, _, rfl⟩, hnone, hi1, hi2, ?_, ?_⟩
          · rw [hlog2, hlog]; simp [tick]
          · have hsplit : k - st.open_temp_exec_file_opts_idx =
                (k - (st.open_temp_exec_file_opts_idx + 1)) + 1 := by omega
            rw [hsplit, List.range'_succ]
            simp only [tried_of, List.filterMap_cons, List.filterMap_append, List.map_cons,
              List.cons_append]
            simp only [tried_of] at htr htr2
            rw [htr, htr2]
            simp
          · intro e he
            rcases List.mem_cons.mp he with rfl | he
            · rfl
            · rcases List.mem_append.mp he with he | he
              · exact hsearch e he
              · exact hs2 e he
          · rw [he1, hfd1]; rfl
          · rw [he2, hsz1]; rfl
        | some x =>
          simp only [Option.isNone_some, Bool.false_eq_true, if_false]
          refine ⟨_, some x, st.open_temp_exec_file_opts_idx,
            .tried st.open_temp_exec_file_opts_idx (some x) :: rs, rfl, ?_, le_refl _, hlt, ?_, ?_,
            ⟨_, _, rfl⟩, ?_, ?_, ?_, ?_, ?_⟩
          · rw [hlog]; simp [tick]
          · simp [tried_of] at htr ⊢
            exact htr
          · intro e he
            rcases List.mem_cons.mp he with rfl | he
            · rfl
            · exact hsearch e he
          · intro h
            cases h
          · rw [hidx2]
          · rw [hidx2]; omega
          · rw [hfd1]; rfl
          · rw [hsz1]; rfl
    · simp only [hcond, Bool.false_eq_true, if_false]
      refine ⟨_, fd, st.open_temp_exec_file_opts_idx,
        [.tried st.open_temp_exec_file_opts_idx fd], rfl, ?_, le_refl _, hlt, ?_, ?_,
        ⟨_, _, rfl⟩, ?_, ?_, ?_, rfl, rfl⟩
      · simp [tick]
      · simp [tried_of]
      · intro e he
        simp only [List.mem_singleton] at he
        subst he
        rfl
      · intro h
        subst h
        simp at hcond
      · simp [tick]
      · simpa [tick] using hlt

theorem length_open_temp_exec_file_opts (m n : Bool) :
    0 < (open_temp_exec_file_opts m n).length := by
  cases m <;> cases n <;> decide

/-- C13 (the claim fails on the code).  In the table the entry for `HOME` comes
after the fixed paths `/tmp`, `/var/tmp` and `/dev/shm`, not before them: where
`TMPDIR` is not usable and both `/tmp` and `HOME` are, the search started at
index 0 tries `TMPDIR`, then `/tmp`, and returns the file of `/tmp`; `HOME` is
not tried. -/
theorem home_comes_after_fixed_paths :
    (open_temp_exec_file_opts false true).map (fun o => o.arg) =
      ["TMPDIR", "/tmp", "/var/tmp", "/dev/shm", "HOME", "/etc/mtab", "/proc/mounts"] ∧
    tmp_and_home.call_opt 0 4 = some 4 ∧
    ∃ st1, open_temp_exec_file (open_temp_exec_file_opts false true) tmp_and_home
        ExecState.start = .ok (st1, some 3) ∧
      tried_of st1.log = [(0, none), (1, some 3)] :=
  ⟨by rfl, by rfl, _, by rfl, by rfl⟩

/-- C13, as the code has it.  The table lists, in this order: the memfd entry
(under `HAVE_MEMFD_CREATE`), the environment variable `TMPDIR`, the fixed
paths `/tmp`, `/var/tmp` and `/dev/shm`, the environment variable `HOME`, and
last the mount tables `/etc/mtab` and `/proc/mounts` (under `HAVE_MNTENT`).
With the index reset to 0, `open_temp_exec_file` tries the entries in the
order of the table, `0, 1, ..., k`, each once: every entry before `k` returned
`-1`, its result is what entry `k` returned, and that is `-1` only when `k` is
the last entry. -/
theorem candidate_order (have_memfd_create have_mntent : Bool) (sys : Sys) (st : ExecState) :
    (open_temp_exec_file_opts have_memfd_create have_mntent).map (fun o => o.arg) =
      (if have_memfd_create then ["libffi"] else []) ++
      ["TMPDIR", "/tmp", "/var/tmp", "/dev/shm", "HOME"] ++
      (if have_mntent then ["/etc/mtab", "/proc/mounts"] else []) ∧
    ∃ st1 fd k,
      open_temp_exec_file (open_temp_exec_file_opts have_memfd_create have_mntent) sys
        { st with open_temp_exec_file_opts_idx := 0 } = .ok (st1, fd) ∧
      k < (open_temp_exec_file_opts have_memfd_create have_mntent).length ∧
      tried_of st1.log =
        tried_of st.log ++ (List.range k).map (fun i => (i, none)) ++ [(k, fd)] ∧
      (fd = none → k + 1 = (open_temp_exec_file_opts have_memfd_create have_mntent).length) := by
  constructor
  · cases have_memfd_create <;> cases have_mntent <;> rfl
  · obtain ⟨st1, fd, k, new, heq, hlog, _, hk, htr, _, _, hnone, _⟩ :=
      open_temp_exec_file_loop_spec (open_temp_exec_file_opts have_memfd_create have_mntent) sys
        (open_temp_exec_file_opts have_memfd_create have_mntent).length
        { st with open_temp_exec_file_opts_idx := 0 }
        (length_open_temp_exec_file_opts _ _) (by simp)
    refine ⟨st1, fd, k, heq, hk, ?_, fun h => (hnone h).1⟩
    rw [hlog, tried_of_append, htr]
    simp [List.range_eq_range']

theorem candidate_order_witness :
    (open_temp_exec_file_opts true true).map (fun o => o.arg) =
      ["libffi", "TMPDIR", "/tmp", "/var/tmp", "/dev/shm", "HOME", "/etc/mtab",
        "/proc/mounts"] ∧
    ∃ st1 fd k,
      open_temp_exec_file (open_temp_exec_file_opts true true) tmp_and_home
        { ExecState.start with open_temp_exec_file_opts_idx := 0 } = .ok (st1, fd) ∧
      k < (open_temp_exec_file_opts true true).length ∧
      tried_of st1.log =
        tried_of ExecState.start.log ++ (List.range k).map (fun i => (i, none)) ++ [(k, fd)] ∧
      (fd = none → k + 1 = (open_temp_exec_file_opts true true).length) :=
  ⟨(candidate_order true true tmp_and_home ExecState.start).1,
    (candidate_order true true tmp_and_home ExecState.start).2⟩

/-! ### Mapping from the backing file -/

theorem next_if_repeat_spec (opts : List Opt) (offset : Nat) (st : ExecState) :
    ∃ mid, (next_if_repeat opts offset st).log = st.log ++ mid ∧
      (∀ e ∈ mid, e = FileEvent.reset st.open_temp_exec_file_opts_idx) ∧
      (offset ≠ 0 → mid = []) ∧
      (next_if_repeat opts offset st).execfd = st.execfd ∧
      (next_if_repeat opts offset st).execsize = st.execsize ∧
      (st.open_temp_exec_file_opts_idx < opts.length →
        (next_if_repeat opts offset st).open_temp_exec_file_opts_idx < opts.length) := by
  unfold next_if_repeat
  by_cases h0 : offset = 0
  · simp only [h0, if_true]
    cases ho : opts[st.open_temp_exec_file_opts_idx]? with
    | none => exact ⟨[], by simp⟩
    | some o =>
      by_cases hr : o.repeats = true
      · obtain ⟨new, hlog, _, _, hres, hfd, hsz, hidx, _⟩ := opts_next_spec opts st
        refine ⟨new, ?_, hres, by simp, ?_, ?_, ?_⟩
        · simpa [hr] using hlog
        · simpa [hr] using hfd
        · simpa [hr] using hsz
        · intro hlt
          simp only [hr, if_true]
          rw [hidx]
          split <;> omega
      · exact ⟨[], by simp [hr]⟩
  · exact ⟨[], by simp [h0]⟩

/-- What `map_views` does, case by case.  `mid` holds the reset of a
multi-call entry, made only for the first segment. -/
theorem map_views_spec (opts : List Opt) (sys : Sys) (bits length f : Nat) (st : ExecState) :
    ∃ new mid, (map_views opts sys bits length f st).1.log = st.log ++ new ∧
      (map_views opts sys bits length f st).1.execfd = st.execfd ∧
      (st.open_temp_exec_file_opts_idx < opts.length →
        (map_views opts sys bits length f st).1.open_temp_exec_file_opts_idx < opts.length) ∧
      (∀ e ∈ mid, e = FileEvent.reset st.open_temp_exec_file_opts_idx) ∧
      (st.execsize ≠ 0 → mid = []) ∧
      ((map_views opts sys bits length f st).2 = some none ∧
          (map_views opts sys bits length f st).1.execsize = st.execsize ∧
          new = [.allocate_space f st.execsize length false] ∨
        (map_views opts sys bits length f st).2 = none ∧ st.execsize = 0 ∧
          (map_views opts sys bits length f st).1.execsize = st.execsize ∧
          (map_views opts sys bits length f st).1.open_temp_exec_file_opts_idx =
            st.open_temp_exec_file_opts_idx ∧
          new = [.allocate_space f 0 length true, .mmap .exec (some f) 0 length none,
            .close f] ∨
        (map_views opts sys bits length f st).2 = some none ∧ st.execsize ≠ 0 ∧
          (map_views opts sys bits length f st).1.execsize = st.execsize ∧
          new = [.allocate_space f st.execsize length true,
            .mmap .exec (some f) st.execsize length none, .ftruncate f st.execsize] ∨
        (∃ ptr ok, (map_views opts sys bits length f st).2 = some none ∧
          (map_views opts sys bits length f st).1.execsize = st.execsize ∧
          new = [.allocate_space f st.execsize length true,
              .mmap .exec (some f) st.execsize length (some ptr)] ++ mid ++
            [.mmap .write (some f) st.execsize length none, .munmap ptr length ok,
              .ftruncate f st.execsize]) ∨
        (∃ ptr a, (map_views opts sys bits length f st).2 = some (some a) ∧
          (map_views opts sys bits length f st).1.execsize =
            (st.execsize + length) % 2 ^ bits ∧
          new = [.allocate_space f st.execsize length true,
              .mmap .exec (some f) st.execsize length (some ptr)] ++ mid ++
            [.mmap .write (some f) st.execsize length (some a),
              .mmap_exec_offset a length ((ptr : Int) - (a : Int)),
              .on_allocate ptr length, .on_allocate a length])) := by
  cases hal : sys.allocate_space st.clock with
  | false =>
    refine ⟨_, [], ?_, ?_, ?_, by simp, by simp, Or.inl ⟨?_, ?_, rfl⟩⟩ <;>
      simp [map_views, hal, tick]
  | true =>
    cases hp : sys.mmap (st.clock + 1) with
    | none =>
      by_cases h0 : st.execsize = 0
      · refine ⟨_, [], ?_, ?_, ?_, by simp, by simp, Or.inr (Or.inl ⟨?_, h0, ?_, ?_, rfl⟩)⟩ <;>
          simp [map_views, hal, tick, hp, h0]
      · refine ⟨_, [], ?_, ?_, ?_, by simp, by simp,
          Or.inr (Or.inr (Or.inl ⟨?_, h0, ?_, rfl⟩))⟩ <;>
          simp [map_views, hal, tick, hp, h0]
    | some ptr =>
      have hp2 : sys.mmap (tick st (.allocate_space f st.execsize length true)).clock =
          some ptr := hp
      obtain ⟨mid, hlog, hres, hmid0, hfd, hsz, hidx⟩ := next_if_repeat_spec opts st.execsize
        (tick (tick st (.allocate_space f st.execsize length true))
          (.mmap .exec (some f) st.execsize length (some ptr)))
      unfold map_views
      simp only [hal, hp2, Bool.not_true, Bool.false_eq_true, if_false]
      generalize next_if_repeat opts st.execsize
        (tick (tick st (.allocate_space f st.execsize length true))
          (.mmap .exec (some f) st.execsize length (some ptr))) = stN at hlog hfd hsz hidx
      cases hw : sys.mmap stN.clock with
      | none =>
        refine ⟨_, mid, ?_, ?_, ?_, hres, hmid0,
          Or.inr (Or.inr (Or.inr (Or.inl ⟨ptr, sys.munmap (stN.clock + 1), ?_, ?_, rfl⟩)))⟩
        · simp [tick, hlog]
        · simpa [tick] using hfd
        · simpa [tick] using hidx
        · simp
        · simpa [tick] using hsz
      | some a =>
        refine ⟨_, mid, ?_, ?_, ?_, hres, hmid0,
          Or.inr (Or.inr (Or.inr (Or.inr ⟨ptr, a, ?_, ?_, rfl⟩)))⟩
        · simp [tick, hlog]
        · simpa [tick] using hfd
        · simpa [tick] using hidx
        · simp
        · simp only [tick] at hsz ⊢
          simp [hsz]

/-- One pass of `dlmmap_locked_from` that returns: the file is opened (from
`retry_open`) or is the one at hand, and then `map_views` either returns or
asks for another pass. -/
theorem dlmmap_locked_from_succ (opts : List Opt) (sys : Sys) (bits length fuel : Nat)
    (reopen : Bool) (st st1 : ExecState) (r : Option Nat)
    (h : dlmmap_locked_from opts sys bits length (fuel + 1) reopen st = .ok (st1, r)) :
    ∃ stA, ((reopen = false ∧ stA = st) ∨
        (reopen = true ∧ ∃ stO fd, open_temp_exec_file opts sys st = .ok (stO, fd) ∧
          stA = { stO with execfd := fd })) ∧
      ((reopen = true ∧ stA.execfd = none ∧ st1 = stA ∧ r = none) ∨
        ∃ f, stA.execfd = some f ∧
          (map_views opts sys bits length f stA = (st1, some r) ∨
            ∃ stB, map_views opts sys bits length f stA = (stB, none) ∧
              dlmmap_locked_from opts sys bits length fuel true stB = .ok (st1, r))) := by
  unfold dlmmap_locked_from at h
  cases reopen with
  | false =>
    refine ⟨st, Or.inl ⟨rfl, rfl⟩, Or.inr ?_⟩
    simp only [Bool.false_eq_true, if_false, bind, Except.bind, pure, Except.pure,
      Bool.not_true] at h
    cases hfd : st.execfd with
    | none => simp [hfd] at h
    | some f =>
      refine ⟨f, rfl, ?_⟩
      simp only [hfd] at h
      rcases hm : map_views opts sys bits length f st with ⟨stB, out⟩
      rw [hm] at h
      cases out with
      | none => exact Or.inr ⟨stB, rfl, h⟩
      | some r2 =>
        simp only [Except.ok.injEq, Prod.mk.injEq] at h
        obtain ⟨rfl, rfl⟩ := h
        exact Or.inl rfl
  | true =>
    simp only [if_true, bind, Except.bind, pure, Except.pure] at h
    cases ho : open_temp_exec_file opts sys st with
    | error e => simp [ho] at h
    | ok p =>
      obtain ⟨stO, fd⟩ := p
      refine ⟨{ stO with execfd := fd }, Or.inr ⟨rfl, stO, fd, rfl, rfl⟩, ?_⟩
      simp only [ho] at h
      cases fd with
      | none =>
        simp only [Option.isSome_none, Bool.not_false, if_true, Except.ok.injEq,
          Prod.mk.injEq] at h
        obtain ⟨rfl, rfl⟩ := h
        exact Or.inl ⟨rfl, rfl, rfl, rfl⟩
      | some f =>
        refine Or.inr ⟨f, rfl, ?_⟩
        simp only [Option.isSome_some, Bool.not_true, Bool.false_eq_true, if_false] at h
        rcases hm : map_views opts sys bits length f { stO with execfd := some f } with ⟨stB, out⟩
        rw [hm] at h
        cases out with
        | none => exact Or.inr ⟨stB, rfl, h⟩
        | some r2 =>
          simp only [Except.ok.injEq, Prod.mk.injEq] at h
          obtain ⟨rfl, rfl⟩ := h
          exact Or.inl rfl

theorem mapped_from_file_append (l1 l2 : List FileEvent) :
    mapped_from_file (l1 ++ l2) = mapped_from_file l1 + mapped_from_file l2 := by
  simp [mapped_from_file]

theorem mapped_from_file_search (l : List FileEvent) (h : ∀ e ∈ l, e.is_search = true) :
    mapped_from_file l = 0 := by
  induction l with
  | nil => rfl
  | cons e l ih =>
    have h1 := h e (List.mem_cons_self _ _)
    have h2 := ih (fun x hx => h x (List.mem_cons_of_mem _ hx))
    simp only [mapped_from_file, List.map_cons, List.sum_cons] at h2 ⊢
    rw [h2]
    cases e <;> simp_all [FileEvent.is_search, FileEvent.mapped_len]

theorem view_search (e : FileEvent) (h : e.is_search = true) : e.view = none := by
  cases e <;> simp_all [FileEvent.is_search, FileEvent.view]

theorem is_search_reset (l : List FileEvent) (i : Nat) (h : ∀ e ∈ l, e = FileEvent.reset i) :
    ∀ e ∈ l, e.is_search = true := by
  intro e he
  rw [h e he]
  rfl

/-- A call of `open_temp_exec_file` that returns started inside the table. -/
theorem open_temp_exec_file_idx (opts : List Opt) (sys : Sys) (st stO : ExecState)
    (fd : Option Nat) (h : open_temp_exec_file opts sys st = .ok (stO, fd)) :
    st.open_temp_exec_file_opts_idx < opts.length := by
  unfold open_temp_exec_file at h
  cases hn : opts.length with
  | zero => rw [hn] at h; simp [open_temp_exec_file_loop] at h
  | succ n =>
    rw [hn] at h
    unfold open_temp_exec_file_loop at h
    cases ho : opts[st.open_temp_exec_file_opts_idx]? with
    | none => simp [ho] at h
    | some o =>
      have := (List.getElem?_eq_some_iff.mp ho).1
      omega

/-- What a call of `open_temp_exec_file` that returns has done. -/
theorem open_temp_exec_file_spec (opts : List Opt) (sys : Sys) (st stO : ExecState)
    (fd : Option Nat) (h : open_temp_exec_file opts sys st = .ok (stO, fd)) :
    ∃ k new, stO.log = st.log ++ new ∧
      st.open_temp_exec_file_opts_idx ≤ k ∧ k < opts.length ∧
      tried_of new =
        (List.range' st.open_temp_exec_file_opts_idx
          (k - st.open_temp_exec_file_opts_idx)).map (fun i => (i, none)) ++ [(k, fd)] ∧
      (∀ e ∈ new, e.is_search = true) ∧
      (∃ x rest, new = FileEvent.tried st.open_temp_exec_file_opts_idx x :: rest) ∧
      (fd = none → k + 1 = opts.length ∧ stO.open_temp_exec_file_opts_idx = 0) ∧
      stO.open_temp_exec_file_opts_idx ≤ k + 1 ∧
      stO.open_temp_exec_file_opts_idx < opts.length ∧
      stO.execfd = st.execfd ∧ stO.execsize = st.execsize := by
  have hlt := open_temp_exec_file_idx opts sys st stO fd h
  obtain ⟨st1, fd1, k, new, heq, rest⟩ :=
    open_temp_exec_file_loop_spec opts sys opts.length st hlt (by omega)
  unfold open_temp_exec_file at h
  rw [heq] at h
  simp only [Except.ok.injEq, Prod.mk.injEq] at h
  obtain ⟨rfl, rfl⟩ := h
  exact ⟨k, new, rest⟩

theorem map_views_retry (opts : List Opt) (sys : Sys) (bits length f : Nat)
    (st stB : ExecState) (h : map_views opts sys bits length f st = (stB, none)) :
    st.execsize = 0 ∧ stB.execsize = 0 ∧ stB.execfd = st.execfd ∧
      stB.open_temp_exec_file_opts_idx = st.open_temp_exec_file_opts_idx ∧
      stB.log = st.log ++ [.allocate_space f 0 length true,
        .mmap .exec (some f) 0 length none, .close f] := by
  obtain ⟨new, mid, hlog, hfd, _, _, _, hc⟩ := map_views_spec opts sys bits length f st
  rw [h] at hlog hfd hc
  rcases hc with hc | hc | hc | hc | hc
  · simp at hc
  · obtain ⟨_, h0, hsz, hidx, hnew⟩ := hc
    exact ⟨h0, by simpa [h0] using hsz, hfd, hidx, by rw [← hnew]; exact hlog⟩
  · simp at hc
  · obtain ⟨_, _, hc, _⟩ := hc
    simp at hc
  · obtain ⟨_, _, hc, _⟩ := hc
    simp at hc

theorem map_views_return (opts : List Opt) (sys : Sys) (bits length f : Nat)
    (st st1 : ExecState) (r : Option Nat)
    (h : map_views opts sys bits length f st = (st1, some r)) :
    ∃ new, st1.log = st.log ++ new ∧ st1.execfd = st.execfd ∧
      (st.open_temp_exec_file_opts_idx < opts.length →
        st1.open_temp_exec_file_opts_idx < opts.length) ∧
      (∀ e ∈ new, e.view ≠ some View.both) ∧
      (r = none → st1.execsize = st.execsize ∧ mapped_from_file new = 0 ∧
        ((∃ pre, new = pre ++ [.allocate_space f st.execsize length false]) ∨
          (∃ pre, new = pre ++ [.mmap .exec (some f) st.execsize length none,
            .ftruncate f st.execsize] ∧ st.execsize ≠ 0) ∨
          (∃ pre ptr ok, new = pre ++ [.mmap .write (some f) st.execsize length none,
            .munmap ptr length ok, .ftruncate f st.execsize]))) ∧
      (∀ a, r = some a → ∃ ptr mid, st1.execsize = (st.execsize + length) % 2 ^ bits ∧
        mapped_from_file new = length ∧
        (∀ e ∈ mid, e = FileEvent.reset st.open_temp_exec_file_opts_idx) ∧
        (st.execsize ≠ 0 → mid = []) ∧
        new = [.allocate_space f st.execsize length true,
            .mmap .exec (some f) st.execsize length (some ptr)] ++ mid ++
          [.mmap .write (some f) st.execsize length (some a),
            .mmap_exec_offset a length ((ptr : Int) - (a : Int)),
            .on_allocate ptr length, .on_allocate a length]) := by
  obtain ⟨new, mid, hlog, hfd, hidx, hmid, hmid0, hc⟩ := map_views_spec opts sys bits length f st
  rw [h] at hlog hfd hidx hc
  have hms := mapped_from_file_search mid (is_search_reset mid _ hmid)
  have hmv : ∀ e ∈ mid, e.view ≠ some View.both := fun e he => by
    rw [view_search e (is_search_reset mid _ hmid e he)]; simp
  refine ⟨new, hlog, hfd, hidx, ?_, ?_, ?_⟩
  · rcases hc with hc | hc | hc | hc | hc
    · obtain ⟨_, _, rfl⟩ := hc
      simp [FileEvent.view]
    · simp at hc
    · obtain ⟨_, _, _, rfl⟩ := hc
      simp [FileEvent.view]
    · obtain ⟨ptr, ok, _, _, rfl⟩ := hc
      intro e he
      simp only [List.mem_append, List.mem_cons, List.mem_singleton, List.not_mem_nil,
        or_false] at he
      rcases he with ((rfl | rfl) | he) | rfl | rfl | rfl
      all_goals first
        | exact hmv e he
        | simp [FileEvent.view]
    · obtain ⟨ptr, a, _, _, rfl⟩ := hc
      intro e he
      simp only [List.mem_append, List.mem_cons, List.mem_singleton, List.not_mem_nil,
        or_false] at he
      rcases he with ((rfl | rfl) | he) | rfl | rfl | rfl | rfl
      all_goals first
        | exact hmv e he
        | simp [FileEvent.view]
  · intro hr
    subst hr
    rcases hc with hc | hc | hc | hc | hc
    · obtain ⟨_, hsz, rfl⟩ := hc
      exact ⟨hsz, by simp [mapped_from_file, FileEvent.mapped_len], Or.inl ⟨[], rfl⟩⟩
    · simp at hc
    · obtain ⟨_, h0, hsz, rfl⟩ := hc
      exact ⟨hsz, by simp [mapped_from_file, FileEvent.mapped_len],
        Or.inr (Or.inl ⟨[_], rfl, h0⟩)⟩
    · obtain ⟨ptr, ok, _, hsz, rfl⟩ := hc
      refine ⟨hsz, ?_, Or.inr (Or.inr ⟨_, ptr, ok, rfl⟩)⟩
      rw [mapped_from_file_append, mapped_from_file_append, hms]
      simp [mapped_from_file, FileEvent.mapped_len]
    · obtain ⟨_, _, hc, _⟩ := hc
      simp at hc
  · intro a hr
    subst hr
    rcases hc with hc | hc | hc | hc | hc
    · simp at hc
    · simp at hc
    · simp at hc
    · obtain ⟨_, _, hc, _⟩ := hc
      simp at hc
    · obtain ⟨ptr, a2, hr, hsz, rfl⟩ := hc
      simp only [Option.some.injEq] at hr
      subst hr
      refine ⟨ptr, mid, hsz, ?_, hmid, hmid0, rfl⟩
      rw [mapped_from_file_append, mapped_from_file_append, hms]
      simp [mapped_from_file, FileEvent.mapped_len]

/-- What a call of `dlmmap_locked_from` that returns has done: nothing it logs
is a combined mapping; a failure leaves `execsize` as it was; a success has
mapped both views of `[execsize, execsize + length)` of the open file, the
executable one first, has recorded their distance and has added `length` to
`execsize`; and with a file open and `execsize` not zero the call is one pass
of `map_views` on that file. -/
theorem dlmmap_locked_from_spec (opts : List Opt) (sys : Sys) (bits length : Nat) :
    ∀ (fuel : Nat) (reopen : Bool) (st st1 : ExecState) (r : Option Nat),
      dlmmap_locked_from opts sys bits length fuel reopen st = .ok (st1, r) →
      ∃ new, st1.log = st.log ++ new ∧ (∀ e ∈ new, e.view ≠ some View.both) ∧
        (r = none → st1.execsize = st.execsize ∧ mapped_from_file new = 0) ∧
        (∀ a, r = some a → ∃ fd ptr pre mid, st1.execfd = some fd ∧
          st1.execsize = (st.execsize + length) % 2 ^ bits ∧
          mapped_from_file new = length ∧ (∀ e ∈ mid, e.is_search = true) ∧
          new = pre ++ [.allocate_space fd st.execsize length true,
              .mmap .exec (some fd) st.execsize length (some ptr)] ++ mid ++
            [.mmap .write (some fd) st.execsize length (some a),
              .mmap_exec_offset a length ((ptr : Int) - (a : Int)),
              .on_allocate ptr length, .on_allocate a length]) ∧
        (reopen = false → st.execsize ≠ 0 →
          ∃ f, st.execfd = some f ∧ map_views opts sys bits length f st = (st1, some r)) := by
  intro fuel
  induction fuel with
  | zero =>
    intro reopen st st1 r h
    simp [dlmmap_locked_from] at h
  | succ fuel ih =>
    intro reopen st st1 r h
    obtain ⟨stA, hopen, hrest⟩ := dlmmap_locked_from_succ opts sys bits length fuel reopen st st1 r h
    have hA : ∃ newO, stA.log = st.log ++ newO ∧ (∀ e ∈ newO, e.is_search = true) ∧
        stA.execsize = st.execsize ∧ (reopen = false → stA = st) := by
      rcases hopen with ⟨hre, rfl⟩ | ⟨hre, stO, fd, ho, rfl⟩
      · exact ⟨[], by simp, by simp, rfl, fun _ => rfl⟩
      · obtain ⟨k, newO, hlog, _, _, _, hs, _, _, _, _, _, hsz⟩ :=
          open_temp_exec_file_spec opts sys st stO fd ho
        exact ⟨newO, hlog, hs, hsz, fun hf => by simp [hre] at hf⟩
    obtain ⟨newO, hlogO, hsO, hszO, hsame⟩ := hA
    have hvO : ∀ e ∈ newO, e.view ≠ some View.both := fun e he => by
      rw [view_search e (hsO e he)]; simp
    have hmO := mapped_from_file_search newO hsO
    rcases hrest with ⟨hre, hnone, rfl, rfl⟩ | ⟨f, hf, hret | ⟨stB, hretry, hrec⟩⟩
    · refine ⟨newO, hlogO, hvO, fun _ => ⟨hszO, hmO⟩, (fun a ha => by cases ha), ?_⟩
      intro hf
      simp [hre] at hf
    · obtain ⟨newV, hlogV, hfdV, _, hvV, hfail, hsucc⟩ :=
        map_views_return opts sys bits length f stA st1 r hret
      refine ⟨newO ++ newV, ?_, ?_, ?_, ?_, ?_⟩
      · rw [hlogV, hlogO, List.append_assoc]
      · intro e he
        rcases List.mem_append.mp he with he | he
        · exact hvO e he
        · exact hvV e he
      · intro hr
        obtain ⟨hsz, hm, _⟩ := hfail hr
        exact ⟨by rw [hsz, hszO], by rw [mapped_from_file_append, hmO, hm]⟩
      · intro a ha
        obtain ⟨ptr, mid, hsz, hm, hmid, _, hnew⟩ := hsucc a ha
        refine ⟨f, ptr, newO, mid, by rw [hfdV, hf], by rw [hsz, hszO],
          by rw [mapped_from_file_append, hmO, hm, Nat.zero_add],
          is_search_reset mid _ hmid, ?_⟩
        rw [hnew, hszO]
        simp
      · intro hre _
        have := hsame hre
        subst this
        exact ⟨f, hf, hret⟩
    · obtain ⟨h0, hB0, hfdB, _, hlogB⟩ := map_views_retry opts sys bits length f stA stB hretry
      obtain ⟨newR, hlogR, hvR, hfail, hsucc, _⟩ := ih true stB st1 r hrec
      have hst0 : st.execsize = 0 := by rw [← hszO]; exact h0
      refine ⟨newO ++ ([.allocate_space f 0 length true, .mmap .exec (some f) 0 length none,
        .close f] ++ newR), ?_, ?_, ?_, ?_, ?_⟩
      · rw [hlogR, hlogB, hlogO]
        simp
      · intro e he
        rcases List.mem_append.mp he with he | he
        · exact hvO e he
        · rcases List.mem_append.mp he with he | he
          · simp only [List.mem_cons, List.mem_singleton, List.not_mem_nil, or_false] at he
            rcases he with rfl | rfl | rfl <;> simp [FileEvent.view]
          · exact hvR e he
      · intro hr
        obtain ⟨hsz, hm⟩ := hfail hr
        refine ⟨by rw [hsz, hB0, hst0], ?_⟩
        rw [mapped_from_file_append, mapped_from_file_append, hmO, hm]
        simp [mapped_from_file, FileEvent.mapped_len]
      · intro a ha
        obtain ⟨fd, ptr, pre, mid, hfd1, hsz, hm, hmid, hnew⟩ := hsucc a ha
        refine ⟨fd, ptr, newO ++ ([.allocate_space f 0 length true,
          .mmap .exec (some f) 0 length none, .close f] ++ pre), mid, hfd1,
          by rw [hsz, hB0, hst0], ?_, hmid, ?_⟩
        · rw [mapped_from_file_append, mapped_from_file_append, hmO, hm]
          simp [mapped_from_file, FileEvent.mapped_len]
        · rw [hnew, hB0, hst0]
          simp
      · intro _ hne
        exact absurd hst0 hne

theorem dlmmap_locked_spec (opts : List Opt) (sys : Sys) (bits fuel length : Nat)
    (st st1 : ExecState) (r : Option Nat)
    (h : dlmmap_locked opts sys bits fuel length st = .ok (st1, r)) :
    ∃ new, st1.log = st.log ++ new ∧ (∀ e ∈ new, e.view ≠ some View.both) ∧
      (r = none → st1.execsize = st.execsize ∧ mapped_from_file new = 0) ∧
      (∀ a, r = some a → ∃ fd ptr pre mid, st1.execfd = some fd ∧
        st1.execsize = (st.execsize + length) % 2 ^ bits ∧
        mapped_from_file new = length ∧ (∀ e ∈ mid, e.is_search = true) ∧
        new = pre ++ [.allocate_space fd st.execsize length true,
            .mmap .exec (some fd) st.execsize length (some ptr)] ++ mid ++
          [.mmap .write (some fd) st.execsize length (some a),
            .mmap_exec_offset a length ((ptr : Int) - (a : Int)),
            .on_allocate ptr length, .on_allocate a length]) ∧
      (∀ f, st.execfd = some f → st.execsize ≠ 0 →
        map_views opts sys bits length f st = (st1, some r)) := by
  unfold dlmmap_locked at h
  cases hfd : st.execfd with
  | none =>
    simp only [hfd] at h
    obtain ⟨new, hlog, hv, hfail, hsucc, _⟩ :=
      dlmmap_locked_from_spec opts sys bits length fuel true _ st1 r h
    exact ⟨new, hlog, hv, hfail, hsucc, fun f hf => by cases hf⟩
  | some f =>
    simp only [hfd] at h
    obtain ⟨new, hlog, hv, hfail, hsucc, hst⟩ :=
      dlmmap_locked_from_spec opts sys bits length fuel false _ st1 r h
    refine ⟨new, hlog, hv, hfail, hsucc, ?_⟩
    intro f2 hf2 h0
    obtain ⟨f3, hf3, hm⟩ := hst rfl h0
    rw [hfd] at hf3
    cases hf3
    cases hf2
    exact hm

theorem dlmmap_spec (opts : List Opt) (sys : Sys) (bits fuel length : Nat)
    (st st1 : ExecState) (r : Option Nat)
    (h : dlmmap opts sys bits fuel length st = .ok (st1, r)) :
    ∃ new, st1.log = st.log ++ new ∧
      (mapped_from_file new = 0 ∧ st1.execsize = st.execsize ∨
        mapped_from_file new = length ∧ st1.execsize = (st.execsize + length) % 2 ^ bits) ∧
      (∀ f, st.execfd = some f → st.execsize ≠ 0 →
        map_views opts sys bits length f st = (st1, some r)) := by
  unfold dlmmap at h
  cases hfd : st.execfd with
  | none =>
    simp only [hfd] at h
    cases hp : sys.mmap st.clock with
    | some ptr =>
      simp only [hp, Except.ok.injEq, Prod.mk.injEq] at h
      obtain ⟨rfl, rfl⟩ := h
      exact ⟨[.mmap .both none 0 length (some ptr), .on_allocate ptr length], by simp [tick],
        Or.inl ⟨by simp [mapped_from_file, FileEvent.mapped_len], by simp [tick]⟩,
        fun f hf => by cases hf⟩
    | none =>
      simp only [hp] at h
      by_cases he : sys.errno st.clock ≠ .EPERM ∧ sys.errno st.clock ≠ .EACCES
      · rw [if_pos he] at h
        simp only [Except.ok.injEq, Prod.mk.injEq] at h
        obtain ⟨rfl, rfl⟩ := h
        exact ⟨[.mmap .both none 0 length none], by simp [tick],
          Or.inl ⟨by simp [mapped_from_file, FileEvent.mapped_len], by simp [tick]⟩,
          fun f hf => by cases hf⟩
      · rw [if_neg he] at h
        obtain ⟨new, hlog, _, hfail, hsucc, _⟩ :=
          dlmmap_locked_spec opts sys bits fuel length _ st1 r h
        refine ⟨.mmap .both none 0 length none :: new, by rw [hlog]; simp [tick], ?_,
          fun f hf => by cases hf⟩
        have hcons : ∀ l, mapped_from_file (.mmap .both none 0 length none :: l) =
            mapped_from_file l := fun l => by simp [mapped_from_file, FileEvent.mapped_len]
        rw [hcons]
        cases r with
        | none =>
          obtain ⟨hsz, hm⟩ := hfail rfl
          exact Or.inl ⟨hm, by rw [hsz]; rfl⟩
        | some a =>
          obtain ⟨_, _, _, _, _, hsz, hm, _⟩ := hsucc a rfl
          exact Or.inr ⟨hm, by rw [hsz]; rfl⟩
  | some f =>
    simp only [hfd] at h
    obtain ⟨new, hlog, _, hfail, hsucc, hst⟩ :=
      dlmmap_locked_spec opts sys bits fuel length st st1 r h
    refine ⟨new, hlog, ?_, fun f2 hf2 h0 => hst f2 (by rw [← hf2, hfd]) h0⟩
    cases r with
    | none =>
      obtain ⟨hsz, hm⟩ := hfail rfl
      exact Or.inl ⟨hm, hsz⟩
    | some a =>
      obtain ⟨_, _, _, _, _, hsz, hm, _⟩ := hsucc a rfl
      exact Or.inr ⟨hm, hsz⟩

theorem dlmunmap_spec {G S : Type} (h : DlMalloc G S) (gm : G) (sys : Sys)
    (start length : Nat) (st : ExecState) :
    ∃ new, (dlmunmap h gm sys start length st).1.log = st.log ++ new ∧
      mapped_from_file new = 0 ∧ (∀ e ∈ new, e.view = none) ∧
      (dlmunmap h gm sys start length st).1.execsize = st.execsize ∧
      (dlmunmap h gm sys start length st).1.execfd = st.execfd := by
  unfold dlmunmap
  generalize (match h.segment_holding gm start with
    | some seg => h.add_segment_exec_offset start seg
    | none => start) = code
  by_cases hc : code ≠ start
  · simp only [hc, ne_eq, not_false_eq_true, if_true]
    cases h1 : sys.munmap st.clock with
    | false =>
      exact ⟨[.munmap code length false], by simp [tick],
        by simp [mapped_from_file, FileEvent.mapped_len],
        by simp [FileEvent.view], by simp [tick], by simp [tick]⟩
    | true =>
      cases h2 : sys.munmap (st.clock + 1) with
      | false =>
        exact ⟨[.munmap code length true, .on_deallocate code length,
          .munmap start length false], by simp [tick, h2],
          by simp [mapped_from_file, FileEvent.mapped_len],
          by simp [FileEvent.view], by simp [tick, h2], by simp [tick, h2]⟩
      | true =>
        exact ⟨[.munmap code length true, .on_deallocate code length,
          .munmap start length true, .on_deallocate start length], by simp [tick, h2],
          by simp [mapped_from_file, FileEvent.mapped_len],
          by simp [FileEvent.view], by simp [tick, h2], by simp [tick, h2]⟩
  · simp only [hc, if_false]
    cases h1 : sys.munmap st.clock with
    | false =>
      exact ⟨[.munmap start length false], by simp [tick],
        by simp [mapped_from_file, FileEvent.mapped_len],
        by simp [FileEvent.view], by simp [tick], by simp [tick]⟩
    | true =>
      exact ⟨[.munmap start length true, .on_deallocate start length], by simp [tick],
        by simp [mapped_from_file, FileEvent.mapped_len],
        by simp [FileEvent.view], by simp [tick], by simp [tick]⟩

theorem run_calls_log {G S : Type} (h : DlMalloc G S) (opts : List Opt) (sys : Sys)
    (bits fuel : Nat) :
    ∀ (calls : List (MapCall G)) (st st1 : ExecState),
      run_calls h opts sys bits fuel calls st = .ok st1 → ∃ new, st1.log = st.log ++ new := by
  intro calls
  induction calls with
  | nil =>
    intro st st1 hrun
    simp only [run_calls, Except.ok.injEq] at hrun
    subst hrun
    exact ⟨[], by simp⟩
  | cons c rest ih =>
    intro st st1 hrun
    cases c with
    | dlmmap length =>
      simp only [run_calls] at hrun
      cases hd : dlmmap opts sys bits fuel length st with
      | error e => simp [hd] at hrun
      | ok p =>
        obtain ⟨st2, r⟩ := p
        simp only [hd] at hrun
        obtain ⟨new, hlog, _⟩ := dlmmap_spec opts sys bits fuel length st st2 r hd
        obtain ⟨new2, hlog2⟩ := ih st2 st1 hrun
        exact ⟨new ++ new2, by rw [hlog2, hlog, List.append_assoc]⟩
    | dlmunmap gm start length =>
      simp only [run_calls] at hrun
      obtain ⟨new, hlog, _⟩ := dlmunmap_spec h gm sys start length st
      obtain ⟨new2, hlog2⟩ := ih _ st1 hrun
      exact ⟨new ++ new2, by rw [hlog2, hlog, List.append_assoc]⟩

theorem run_calls_execsize {G S : Type} (h : DlMalloc G S) (opts : List Opt) (sys : Sys)
    (bits fuel : Nat) :
    ∀ (calls : List (MapCall G)) (st st1 : ExecState),
      run_calls h opts sys bits fuel calls st = .ok st1 →
      st.execsize = mapped_from_file st.log → mapped_from_file st1.log < 2 ^ bits →
      st1.execsize = mapped_from_file st1.log ∧ st.execsize ≤ st1.execsize := by
  intro calls
  induction calls with
  | nil =>
    intro st st1 hrun hinv _
    simp only [run_calls, Except.ok.injEq] at hrun
    subst hrun
    exact ⟨hinv, le_refl _⟩
  | cons c rest ih =>
    intro st st1 hrun hinv hbound
    cases c with
    | dlmmap length =>
      simp only [run_calls] at hrun
      cases hd : dlmmap opts sys bits fuel length st with
      | error e => simp [hd] at hrun
      | ok p =>
        obtain ⟨st2, r⟩ := p
        simp only [hd] at hrun
        obtain ⟨new, hlog, hc, _⟩ := dlmmap_spec opts sys bits fuel length st st2 r hd
        obtain ⟨new2, hlog2⟩ := run_calls_log h opts sys bits fuel rest st2 st1 hrun
        have hb2 : mapped_from_file st2.log < 2 ^ bits := by
          rw [hlog2, mapped_from_file_append] at hbound
          omega
        have hinv2 : st2.execsize = mapped_from_file st2.log ∧ st.execsize ≤ st2.execsize := by
          rw [hlog, mapped_from_file_append] at hb2 ⊢
          rcases hc with ⟨hm, hsz⟩ | ⟨hm, hsz⟩
          · rw [hm, hsz, hinv]
            exact ⟨rfl, le_refl _⟩
          · rw [hm] at hb2 ⊢
            rw [hsz, hinv, Nat.mod_eq_of_lt hb2]
            exact ⟨rfl, Nat.le_add_right _ _⟩
        obtain ⟨h1, h2⟩ := ih st2 st1 hrun hinv2.1 hbound
        exact ⟨h1, le_trans hinv2.2 h2⟩
    | dlmunmap gm start length =>
      simp only [run_calls] at hrun
      obtain ⟨new, hlog, hm, _, hsz, _⟩ := dlmunmap_spec h gm sys start length st
      have hinv2 : (dlmunmap h gm sys start length st).1.execsize =
          mapped_from_file (dlmunmap h gm sys start length st).1.log := by
        rw [hsz, hlog, mapped_from_file_append, hm, hinv]
        rfl
      obtain ⟨h1, h2⟩ := ih _ st1 hrun hinv2 hbound
      exact ⟨h1, by rw [hsz] at h2; exact h2⟩

theorem exists_of_ne_none {α : Type} (o : Option α) (h : o ≠ none) : ∃ a, o = some a := by
  cases o with
  | none => exact absurd rfl h
  | some a => exact ⟨a, rfl⟩

theorem opts_next_clock (opts : List Opt) (st : ExecState) :
    st.clock ≤ (open_temp_exec_file_opts_next opts st).1.clock := by
  unfold open_temp_exec_file_opts_next
  cases ho : opts[st.open_temp_exec_file_opts_idx]? with
  | none =>
    by_cases hw : st.open_temp_exec_file_opts_idx + 1 = opts.length <;> simp [hw]
  | some o =>
    by_cases hr : o.repeats = true <;>
      by_cases hw : st.open_temp_exec_file_opts_idx + 1 = opts.length <;>
        simp [hw, hr, tick]

theorem next_if_repeat_clock (opts : List Opt) (offset : Nat) (st : ExecState) :
    st.clock ≤ (next_if_repeat opts offset st).clock := by
  unfold next_if_repeat
  by_cases h0 : offset = 0
  · simp only [h0, if_true]
    cases ho : opts[st.open_temp_exec_file_opts_idx]? with
    | none => simp
    | some o =>
      by_cases hr : o.repeats = true
      · simpa [hr] using opts_next_clock opts st
      · simp [hr]
  · simp [h0]

/-- A candidate that opens whenever it is tried is found, or one before it. -/
theorem open_temp_exec_file_loop_finds (opts : List Opt) (sys : Sys) (k : Nat)
    (hk : k < opts.length) (hopen : ∀ c, sys.call_opt c k ≠ none) :
    ∀ (fuel : Nat) (st : ExecState), st.open_temp_exec_file_opts_idx ≤ k →
      opts.length - st.open_temp_exec_file_opts_idx ≤ fuel →
      ∃ st1 f, open_temp_exec_file_loop opts sys fuel st = .ok (st1, some f) ∧
        st.clock < st1.clock := by
  intro fuel
  induction fuel with
  | zero =>
    intro st hle hfuel
    omega
  | succ fuel ih =>
    intro st hle hfuel
    have hlt : st.open_temp_exec_file_opts_idx < opts.length := by omega
    have ho : opts[st.open_temp_exec_file_opts_idx]? =
        some opts[st.open_temp_exec_file_opts_idx] := List.getElem?_eq_getElem hlt
    generalize opts[st.open_temp_exec_file_opts_idx] = o at ho
    unfold open_temp_exec_file_loop
    simp only [ho]
    have hcl := opts_next_clock opts
      (tick st (.tried st.open_temp_exec_file_opts_idx
        (sys.call_opt st.clock st.open_temp_exec_file_opts_idx)))
    obtain ⟨_, _, _, _, _, _, _, hidx1, hw1⟩ := opts_next_spec opts
      (tick st (.tried st.open_temp_exec_file_opts_idx
        (sys.call_opt st.clock st.open_temp_exec_file_opts_idx)))
    cases hfd : sys.call_opt st.clock st.open_temp_exec_file_opts_idx with
    | some f =>
      rw [hfd] at hcl
      by_cases hr : o.repeats = true
      · simp only [hr, Bool.not_true, Option.isNone_some, Bool.or_self, Bool.false_eq_true,
          if_false]
        exact ⟨_, f, rfl, by simp [tick]⟩
      · simp only [hr, Bool.not_false, Bool.true_or, if_true, Option.isNone_some,
          Bool.false_eq_true, if_false]
        refine ⟨_, f, by split <;> rfl, ?_⟩
        exact Nat.lt_of_lt_of_le (Nat.lt_succ_self st.clock) hcl
    | none =>
      rw [hfd] at hcl hidx1 hw1
      have hne : st.open_temp_exec_file_opts_idx ≠ k := by
        intro heq
        rw [heq] at hfd
        exact hopen _ hfd
      have hw : ¬ st.open_temp_exec_file_opts_idx + 1 = opts.length := by omega
      have hw2 : (open_temp_exec_file_opts_next opts
          (tick st (.tried st.open_temp_exec_file_opts_idx none))).2 = false := by
        rw [hw1]; simpa [tick] using hw
      have hidx2 : (open_temp_exec_file_opts_next opts
          (tick st (.tried st.open_temp_exec_file_opts_idx none))).1.open_temp_exec_file_opts_idx =
          st.open_temp_exec_file_opts_idx + 1 := by
        rw [hidx1]; simp [tick, hw]
      simp only [Option.isNone_none, Bool.or_true, if_true, hw2, Bool.false_eq_true, if_false]
      obtain ⟨st1, f, heq, hclock⟩ := ih (open_temp_exec_file_opts_next opts
        (tick st (.tried st.open_temp_exec_file_opts_idx none))).1
        (by rw [hidx2]; omega) (by rw [hidx2]; omega)
      exact ⟨st1, f, heq, Nat.lt_of_lt_of_le (Nat.lt_succ_self st.clock)
        (le_trans hcl (le_of_lt hclock))⟩

/-- With space in the file and both mappings granted, `map_views` returns the
writable address. -/
theorem map_views_succeeds (opts : List Opt) (sys : Sys) (bits length f : Nat) (st : ExecState)
    (hal : sys.allocate_space st.clock = true) (hmap : ∀ c, st.clock < c → sys.mmap c ≠ none) :
    ∃ st1 a, map_views opts sys bits length f st = (st1, some (some a)) := by
  obtain ⟨ptr, hp⟩ := exists_of_ne_none _ (hmap (st.clock + 1) (by omega))
  have hp2 : sys.mmap (tick st (.allocate_space f st.execsize length true)).clock =
      some ptr := hp
  have hcl := next_if_repeat_clock opts st.execsize
    (tick (tick st (.allocate_space f st.execsize length true))
      (.mmap .exec (some f) st.execsize length (some ptr)))
  unfold map_views
  simp only [hal, hp2, Bool.not_true, Bool.false_eq_true, if_false]
  generalize next_if_repeat opts st.execsize
    (tick (tick st (.allocate_space f st.execsize length true))
      (.mmap .exec (some f) st.execsize length (some ptr))) = stN at hcl
  obtain ⟨a, ha⟩ := exists_of_ne_none _ (hmap stN.clock
    (Nat.lt_of_lt_of_le (Nat.lt_succ_of_lt (Nat.lt_succ_self st.clock)) hcl))
  simp only [ha]
  exact ⟨_, a, rfl⟩

/-- Every mapping `map_views` asks for is a mapping of the file it was given. -/
theorem map_views_on_file (opts : List Opt) (sys : Sys) (bits length f : Nat)
    (st st1 : ExecState) (out : Option (Option Nat))
    (h : map_views opts sys bits length f st = (st1, out)) :
    ∃ new, st1.log = st.log ++ new ∧
      ∀ v fd o l x, FileEvent.mmap v fd o l x ∈ new → v ≠ View.both ∧ fd = some f := by
  obtain ⟨new, mid, hlog, _, _, hmid, _, hc⟩ := map_views_spec opts sys bits length f st
  rw [h] at hlog hc
  refine ⟨new, hlog, ?_⟩
  have hm : ∀ v fd o l x, FileEvent.mmap v fd o l x ∈ mid → v ≠ View.both ∧ fd = some f := by
    intro v fd o l x he
    have := hmid _ he
    cases this
  intro v fd o l x he
  rcases hc with hc | hc | hc | hc | hc
  · obtain ⟨_, _, rfl⟩ := hc
    simp at he
  · obtain ⟨_, _, _, _, rfl⟩ := hc
    simp at he
    simp [he]
  · obtain ⟨_, _, _, rfl⟩ := hc
    simp at he
    simp [he]
  · obtain ⟨ptr, ok, _, _, rfl⟩ := hc
    simp only [List.mem_append, List.mem_cons, List.mem_singleton, List.not_mem_nil,
      or_false] at he
    rcases he with ((he | he) | he) | he | he | he
    all_goals first
      | exact hm v fd o l x he
      | (simp at he; done)
      | (simp at he; simp [he])
  · obtain ⟨ptr, a, _, _, rfl⟩ := hc
    simp only [List.mem_append, List.mem_cons, List.mem_singleton, List.not_mem_nil,
      or_false] at he
    rcases he with ((he | he) | he) | he | he | he | he
    all_goals first
      | exact hm v fd o l x he
      | (simp at he; done)
      | (simp at he; simp [he])

/-- Once a file is open and `execsize` is not zero, every later call maps from
that file and the file stays open. -/
theorem run_calls_sticky {G S : Type} (h : DlMalloc G S) (opts : List Opt) (sys : Sys)
    (bits fuel fd : Nat) :
    ∀ (calls : List (MapCall G)) (st st2 : ExecState),
      run_calls h opts sys bits fuel calls st = .ok st2 →
      st.execfd = some fd → st.execsize = mapped_from_file st.log → st.execsize ≠ 0 →
      mapped_from_file st2.log < 2 ^ bits →
      st2.execfd = some fd ∧ ∃ new, st2.log = st.log ++ new ∧
        ∀ v fd1 o l x, FileEvent.mmap v fd1 o l x ∈ new → v ≠ View.both ∧ fd1 = some fd := by
  intro calls
  induction calls with
  | nil =>
    intro st st2 hrun hfd _ _ _
    simp only [run_calls, Except.ok.injEq] at hrun
    subst hrun
    exact ⟨hfd, [], by simp, by simp⟩
  | cons c rest ih =>
    intro st st2 hrun hfd hinv hne hbound
    cases c with
    | dlmmap length =>
      simp only [run_calls] at hrun
      cases hd : dlmmap opts sys bits fuel length st with
      | error e => simp [hd] at hrun
      | ok p =>
        obtain ⟨st1, r⟩ := p
        simp only [hd] at hrun
        obtain ⟨new, hlog, hc, hst⟩ := dlmmap_spec opts sys bits fuel length st st1 r hd
        have hmv := hst fd hfd hne
        obtain ⟨_, _, _, hfd1, _⟩ := map_views_spec opts sys bits length fd st
        rw [hmv] at hfd1
        obtain ⟨newV, hlogV, hon⟩ := map_views_on_file opts sys bits length fd st st1 _ hmv
        obtain ⟨new2, hlog2⟩ := run_calls_log h opts sys bits fuel rest st1 st2 hrun
        have hb1 : mapped_from_file st1.log < 2 ^ bits := by
          rw [hlog2, mapped_from_file_append] at hbound
          omega
        have hinv1 : st1.execsize = mapped_from_file st1.log ∧ st1.execsize ≠ 0 := by
          rw [hlog, mapped_from_file_append] at hb1 ⊢
          rcases hc with ⟨hm, hsz⟩ | ⟨hm, hsz⟩
          · rw [hm, hsz, hinv]
            exact ⟨rfl, by rw [← hinv]; exact hne⟩
          · rw [hm] at hb1 ⊢
            rw [hsz, hinv, Nat.mod_eq_of_lt hb1]
            refine ⟨rfl, ?_⟩
            rw [← hinv]
            omega
        obtain ⟨hfd2, newR, hlogR, honR⟩ :=
          ih st1 st2 hrun (by rw [← hfd]; exact hfd1) hinv1.1 hinv1.2 hbound
        refine ⟨hfd2, newV ++ newR, by rw [hlogR, hlogV, List.append_assoc], ?_⟩
        intro v fd1 o l x he
        rcases List.mem_append.mp he with he | he
        · exact hon v fd1 o l x he
        · exact honR v fd1 o l x he
    | dlmunmap gm start length =>
      simp only [run_calls] at hrun
      obtain ⟨new, hlog, hm, hview, hsz, hfd1⟩ := dlmunmap_spec h gm sys start length st
      obtain ⟨hfd2, newR, hlogR, honR⟩ := ih _ st2 hrun (by rw [hfd1]; exact hfd)
        (by rw [hsz, hlog, mapped_from_file_append, hm, hinv]; rfl) (by rw [hsz]; exact hne)
        hbound
      refine ⟨hfd2, new ++ newR, by rw [hlogR, hlog, List.append_assoc], ?_⟩
      intro v fd1 o l x he
      rcases List.mem_append.mp he with he | he
      · have := hview _ he
        simp [FileEvent.view] at this
      · exact honR v fd1 o l x he

theorem dlmmap_locked_none (opts : List Opt) (sys : Sys) (bits fuel length : Nat)
    (st : ExecState) (hfd : st.execfd = none) :
    dlmmap_locked opts sys bits fuel length st =
      dlmmap_locked_from opts sys bits length fuel true
        { st with open_temp_exec_file_opts_idx := 0 } := by
  unfold dlmmap_locked
  split
  · rfl
  · rename_i heq
    rw [hfd] at heq
    cases heq

theorem dlmmap_locked_from_first (opts : List Opt) (sys : Sys) (bits length fuel f : Nat)
    (st stO st1 : ExecState) (r : Option Nat)
    (ho : open_temp_exec_file opts sys st = .ok (stO, some f))
    (hm : map_views opts sys bits length f { stO with execfd := some f } = (st1, some r)) :
    dlmmap_locked_from opts sys bits length (fuel + 1) true st = .ok (st1, r) := by
  unfold dlmmap_locked_from
  simp only [if_true, bind, Except.bind, pure, Except.pure, ho,
    Option.isSome_some, Bool.not_true, Bool.false_eq_true, if_false, hm]

theorem mem_tried_of (l : List FileEvent) (i : Nat) (x : Option Nat) :
    (i, x) ∈ tried_of l ↔ FileEvent.tried i x ∈ l := by
  unfold tried_of
  rw [List.mem_filterMap]
  constructor
  · rintro ⟨e, he, heq⟩
    cases e <;> simp at heq
    obtain ⟨rfl, rfl⟩ := heq
    exact he
  · intro he
    exact ⟨_, he, rfl⟩

theorem refused_then_closed_of_none (length : Nat) (l : List FileEvent)
    (h : ∀ fd, FileEvent.mmap .exec (some fd) 0 length none ∉ l) :
    refused_then_closed length l := by
  intro pre fd post heq
  exact absurd (by rw [heq]; simp) (h fd)

theorem refused_then_closed_append (length : Nat) (l1 l2 : List FileEvent)
    (h1 : ∀ fd, FileEvent.mmap .exec (some fd) 0 length none ∉ l1)
    (h2 : refused_then_closed length l2) : refused_then_closed length (l1 ++ l2) := by
  intro pre fd post heq
  rcases List.append_eq_append_iff.mp heq with ⟨a, rfl, hb⟩ | ⟨c, rfl, hb⟩
  · exact h2 a fd post hb
  · cases c with
    | nil =>
      simp only [List.nil_append] at hb
      exact h2 [] fd post hb.symm
    | cons e c =>
      simp only [List.cons_append, List.cons.injEq] at hb
      exact absurd (by rw [← hb.1]; simp) (h1 fd)

theorem refused_then_closed_round (length f j : Nat) (x : Option Nat) (rest : List FileEvent)
    (h : refused_then_closed length (FileEvent.tried j x :: rest)) :
    refused_then_closed length
      ([.allocate_space f 0 length true, .mmap .exec (some f) 0 length none, .close f] ++
        FileEvent.tried j x :: rest) := by
  intro pre fd post heq
  cases pre with
  | nil => simp at heq
  | cons e1 pre =>
    simp only [List.cons_append, List.nil_append, List.cons.injEq] at heq
    obtain ⟨_, heq⟩ := heq
    cases pre with
    | nil =>
      simp only [List.nil_append, List.cons.injEq, FileEvent.mmap.injEq, Option.some.injEq,
        true_and, and_true] at heq
      obtain ⟨rfl, rfl⟩ := heq
      exact ⟨j, x, rest, rfl⟩
    | cons e2 pre =>
      simp only [List.cons_append, List.cons.injEq] at heq
      obtain ⟨_, heq⟩ := heq
      cases pre with
      | nil => simp at heq
      | cons e3 pre =>
        simp only [List.cons_append, List.cons.injEq] at heq
        exact h pre fd post heq.2

theorem no_refused_of_search (length : Nat) (l : List FileEvent)
    (h : ∀ e ∈ l, e.is_search = true) :
    ∀ fd, FileEvent.mmap .exec (some fd) 0 length none ∉ l := by
  intro fd hmem
  have := h _ hmem
  simp [FileEvent.is_search] at this

/-- What `map_views` returns for the first segment. -/
theorem map_views_return_first (opts : List Opt) (sys : Sys) (bits length f : Nat)
    (st st1 : ExecState) (r : Option Nat) (h0 : st.execsize = 0)
    (h : map_views opts sys bits length f st = (st1, some r)) :
    ∃ new, st1.log = st.log ++ new ∧ st1.execfd = st.execfd ∧
      (∀ fd, FileEvent.mmap .exec (some fd) 0 length none ∉ new) ∧
      (r = none →
        new = [.allocate_space f 0 length false] ∨
        ∃ pre ptr ok, new = pre ++ [.mmap .write (some f) 0 length none,
          .munmap ptr length ok, .ftruncate f 0]) := by
  obtain ⟨new, mid, hlog, hfd, _, hmid, _, hc⟩ := map_views_spec opts sys bits length f st
  rw [h] at hlog hfd hc
  rw [h0] at hc
  have hm : ∀ fd, FileEvent.mmap .exec (some fd) 0 length none ∉ mid := by
    intro fd he
    have := hmid _ he
    cases this
  refine ⟨new, hlog, hfd, ?_, ?_⟩
  · intro fd he
    rcases hc with hc | hc | hc | hc | hc
    · obtain ⟨_, _, rfl⟩ := hc
      simp at he
    · simp at hc
    · exact hc.2.1 rfl
    · obtain ⟨ptr, ok, _, _, rfl⟩ := hc
      simp only [List.mem_append, List.mem_cons, List.mem_singleton, List.not_mem_nil,
        or_false] at he
      rcases he with ((he | he) | he) | he | he | he
      all_goals first
        | exact hm fd he
        | (simp at he)
    · obtain ⟨ptr, a, _, _, rfl⟩ := hc
      simp only [List.mem_append, List.mem_cons, List.mem_singleton, List.not_mem_nil,
        or_false] at he
      rcases he with ((he | he) | he) | he | he | he | he
      all_goals first
        | exact hm fd he
        | (simp at he)
  · intro hr
    subst hr
    rcases hc with hc | hc | hc | hc | hc
    · exact Or.inl hc.2.2
    · simp at hc
    · exact absurd rfl hc.2.1
    · obtain ⟨ptr, ok, _, _, rfl⟩ := hc
      exact Or.inr ⟨_, ptr, ok, rfl⟩
    · obtain ⟨_, _, hc, _⟩ := hc
      simp at hc

/-- The search of `dlmmap_locked` for the first segment, from `retry_open`. -/
theorem first_segment_search (opts : List Opt) (sys : Sys) (bits length : Nat) :
    ∀ (fuel : Nat) (st st1 : ExecState) (r : Option Nat), st.execsize = 0 →
      dlmmap_locked_from opts sys bits length fuel true st = .ok (st1, r) →
      ∃ new, st1.log = st.log ++ new ∧
        (∃ x rest, new = FileEvent.tried st.open_temp_exec_file_opts_idx x :: rest) ∧
        refused_then_closed length new ∧
        (r = none →
          (∃ pre fd, new = pre ++ [.allocate_space fd 0 length false]) ∨
          (∃ pre fd ptr ok, new = pre ++ [.mmap .write (some fd) 0 length none,
            .munmap ptr length ok, .ftruncate fd 0]) ∨
          ((∀ i, st.open_temp_exec_file_opts_idx ≤ i → i < opts.length →
              ∃ x, FileEvent.tried i x ∈ new) ∧
            (∀ i fd, FileEvent.tried i (some fd) ∈ new →
              FileEvent.mmap .exec (some fd) 0 length none ∈ new ∧ FileEvent.close fd ∈ new) ∧
            st1.execfd = none)) := by
  intro fuel
  induction fuel with
  | zero =>
    intro st st1 r _ h
    simp [dlmmap_locked_from] at h
  | succ fuel ih =>
    intro st st1 r h0 h
    obtain ⟨stA, hopen, hrest⟩ := dlmmap_locked_from_succ opts sys bits length fuel true st st1 r h
    rcases hopen with ⟨hre, _⟩ | ⟨_, stO, fd, ho, rfl⟩
    · cases hre
    obtain ⟨k, newO, hlogO, hk1, hk2, htr, hsO, ⟨x0, rest0, hstart⟩, hnone, hidx1, hidx2, _, hszO⟩ :=
      open_temp_exec_file_spec opts sys st stO fd ho
    have hnoO := no_refused_of_search length newO hsO
    have hcover : ∀ i, st.open_temp_exec_file_opts_idx ≤ i → i ≤ k →
        ∃ x, FileEvent.tried i x ∈ newO := by
      intro i hi1 hi2
      by_cases hik : i = k
      · refine ⟨fd, (mem_tried_of newO i fd).mp ?_⟩
        rw [htr, hik]
        simp
      · refine ⟨none, (mem_tried_of newO i none).mp ?_⟩
        rw [htr]
        simp only [List.mem_append, List.mem_map, List.mem_range', List.mem_singleton]
        exact Or.inl ⟨i, ⟨i - st.open_temp_exec_file_opts_idx, by omega, by omega⟩, rfl⟩
    have hopened : ∀ i f, FileEvent.tried i (some f) ∈ newO → fd = some f := by
      intro i f hmem
      have := (mem_tried_of newO i (some f)).mpr hmem
      rw [htr] at this
      simp only [List.mem_append, List.mem_map, List.mem_singleton, Prod.mk.injEq] at this
      rcases this with ⟨_, _, _, hx⟩ | ⟨_, hx⟩
      · cases hx
      · exact hx.symm
    rcases hrest with ⟨_, hfdA, rfl, rfl⟩ | ⟨f, hf, hret | ⟨stB, hretry, hrec⟩⟩
    · have hfdn : fd = none := hfdA
      refine ⟨newO, hlogO, ⟨x0, rest0, hstart⟩, refused_then_closed_of_none length newO hnoO,
        fun _ => Or.inr (Or.inr ⟨?_, ?_, hfdA⟩)⟩
      · intro i hi1 hi2
        exact hcover i hi1 (by have := (hnone hfdn).1; omega)
      · intro i f hmem
        have := hopened i f hmem
        rw [hfdn] at this
        cases this
    · obtain ⟨newV, hlogV, _, hnoV, hfail⟩ :=
        map_views_return_first opts sys bits length f _ st1 r (by rw [← h0, ← hszO]) hret
      refine ⟨newO ++ newV, by rw [hlogV]; simp [hlogO], ⟨x0, rest0 ++ newV, by rw [hstart]; rfl⟩,
        refused_then_closed_of_none length _ ?_, ?_⟩
      · intro fd1 hmem
        rcases List.mem_append.mp hmem with hmem | hmem
        · exact hnoO fd1 hmem
        · exact hnoV fd1 hmem
      · intro hr
        rcases hfail hr with hnew | ⟨pre, ptr, ok, hnew⟩
        · exact Or.inl ⟨newO, f, by rw [hnew]⟩
        · exact Or.inr (Or.inl ⟨newO ++ pre, f, ptr, ok, by rw [hnew, List.append_assoc]⟩)
    · obtain ⟨_, hB0, _, hidxB, hlogB⟩ := map_views_retry opts sys bits length f _ stB hretry
      obtain ⟨newR, hlogR, ⟨xR, restR, hstartR⟩, hpR, hfailR⟩ := ih stB st1 r hB0 hrec
      have hfd : fd = some f := hf
      have hidxB2 : stB.open_temp_exec_file_opts_idx ≤ k + 1 := by
        rw [hidxB]; exact hidx1
      refine ⟨newO ++ ([.allocate_space f 0 length true, .mmap .exec (some f) 0 length none,
        .close f] ++ newR), ?_, ⟨x0, rest0 ++ ([.allocate_space f 0 length true,
          .mmap .exec (some f) 0 length none, .close f] ++ newR), by rw [hstart]; rfl⟩, ?_, ?_⟩
      · rw [hlogR, hlogB]
        simp [hlogO]
      · apply refused_then_closed_append length _ _ hnoO
        rw [hstartR] at hpR ⊢
        exact refused_then_closed_round length f _ xR restR hpR
      · intro hr
        rcases hfailR hr with ⟨pre, fd1, hnew⟩ | ⟨pre, fd1, ptr, ok, hnew⟩ | ⟨hcov, hop, hfd1⟩
        · refine Or.inl ⟨newO ++ ([.allocate_space f 0 length true,
            .mmap .exec (some f) 0 length none, .close f] ++ pre), fd1, ?_⟩
          rw [hnew]
          simp
        · refine Or.inr (Or.inl ⟨newO ++ ([.allocate_space f 0 length true,
            .mmap .exec (some f) 0 length none, .close f] ++ pre), fd1, ptr, ok, ?_⟩)
          rw [hnew]
          simp
        · refine Or.inr (Or.inr ⟨?_, ?_, hfd1⟩)
          · intro i hi1 hi2
            by_cases hik : i ≤ k
            · obtain ⟨x, hx⟩ := hcover i hi1 hik
              exact ⟨x, List.mem_append_left _ hx⟩
            · obtain ⟨x, hx⟩ := hcov i (by omega) hi2
              exact ⟨x, List.mem_append_right _ (List.mem_append_right _ hx)⟩
          · intro i f1 hmem
            rcases List.mem_append.mp hmem with hmem | hmem
            · have := hopened i f1 hmem
              rw [hfd] at this
              cases this
              constructor
              · exact List.mem_append_right _ (List.mem_append_left _ (by simp))
              · exact List.mem_append_right _ (List.mem_append_left _ (by simp))
            · rcases List.mem_append.mp hmem with hmem | hmem
              · simp at hmem
              · obtain ⟨h1, h2⟩ := hop i f1 hmem
                exact ⟨List.mem_append_right _ (List.mem_append_right _ h1),
                  List.mem_append_right _ (List.mem_append_right _ h2)⟩

theorem map_views_refused (opts : List Opt) (sys : Sys) (bits length f : Nat) (st : ExecState)
    (h0 : st.execsize = 0) (hal : sys.allocate_space st.clock = true)
    (hmap : sys.mmap (st.clock + 1) = none) :
    map_views opts sys bits length f st =
      (tick (tick (tick st (.allocate_space f 0 length true))
        (.mmap .exec (some f) 0 length none)) (.close f), none) := by
  simp [map_views, hal, tick, hmap, h0]

theorem dlmmap_locked_from_retry (opts : List Opt) (sys : Sys) (bits length fuel f : Nat)
    (st stO stB : ExecState)
    (ho : open_temp_exec_file opts sys st = .ok (stO, some f))
    (hm : map_views opts sys bits length f { stO with execfd := some f } = (stB, none)) :
    dlmmap_locked_from opts sys bits length (fuel + 1) true st =
      dlmmap_locked_from opts sys bits length fuel true stB := by
  conv => lhs; unfold dlmmap_locked_from
  simp only [if_true, bind, Except.bind, pure, Except.pure, ho,
    Option.isSome_some, Bool.not_true, Bool.false_eq_true, if_false, hm]

/-- Where the last candidate opens whenever it is tried and no mapping for
execution is granted, the search does not end: whatever the number of passes
through `retry_open` allowed, it is used up. -/
theorem retry_open_without_end (opts : List Opt) (sys : Sys) (bits length k : Nat)
    (hk : k + 1 = opts.length) (hopen : ∀ c, sys.call_opt c k ≠ none)
    (hal : ∀ c, sys.allocate_space c = true) (hmap : ∀ c, sys.mmap c = none) :
    ∀ (fuel : Nat) (st : ExecState), st.execsize = 0 → st.open_temp_exec_file_opts_idx ≤ k →
      dlmmap_locked_from opts sys bits length fuel true st = .error .fuel := by
  intro fuel
  induction fuel with
  | zero =>
    intro st _ _
    rfl
  | succ fuel ih =>
    intro st h0 hle
    obtain ⟨stO, f, ho, _⟩ := open_temp_exec_file_loop_finds opts sys k (by omega) hopen
      opts.length st hle (by omega)
    have ho2 : open_temp_exec_file opts sys st = .ok (stO, some f) := ho
    obtain ⟨k1, _, _, hk1, hk2, _, _, _, _, hidx1, hidx2, _, hszO⟩ :=
      open_temp_exec_file_spec opts sys st stO (some f) ho2
    have hm := map_views_refused opts sys bits length f { stO with execfd := some f }
      (by rw [← h0, ← hszO]) (hal _) (hmap _)
    rw [dlmmap_locked_from_retry opts sys bits length fuel f st stO _ ho2 hm]
    exact ih _ (by simp only [tick]; rw [hszO, h0]) (by simp only [tick]; omega)

end DualMap

/-! ### The claims about the backing file -/

namespace DualMap

/-- C18, as the code has it.  A call of `dlmmap_locked` that returns an
address `a` has mapped both views of the open file at the offset that
`execsize` had before the call, the executable one at `ptr` and the writable
one at `a`, has recorded `ptr - a` for the segment, and has added exactly
`length` to `execsize` whenever `execsize + length` is less than `2 ^ w` (the
sum is a `size_t` and wraps otherwise); a call that returns `MFAIL` leaves
`execsize` as it was; `dlmunmap` never changes `execsize`.  So over every
sequence of calls of `dlmmap` and `dlmunmap` that starts where `execsize` is
the sum of the lengths mapped from the file so far and in which that sum stays
below `2 ^ w`, `execsize` does not decrease and is again that sum at the
end. -/
theorem backing_file_append_only {G S : Type} (h : DlMalloc G S) (opts : List Opt) (sys : Sys)
    (bits fuel : Nat) :
    (∀ (length : Nat) (st st1 : ExecState) (a : Nat),
      dlmmap_locked opts sys bits fuel length st = .ok (st1, some a) →
      st.execsize + length < 2 ^ bits →
      st1.execsize = st.execsize + length ∧
      ∃ fd ptr pre mid, st1.execfd = some fd ∧ (∀ e ∈ mid, e.is_search = true) ∧
        st1.log = st.log ++ (pre ++ [.allocate_space fd st.execsize length true,
            .mmap .exec (some fd) st.execsize length (some ptr)] ++ mid ++
          [.mmap .write (some fd) st.execsize length (some a),
            .mmap_exec_offset a length ((ptr : Int) - (a : Int)),
            .on_allocate ptr length, .on_allocate a length])) ∧
    (∀ (length : Nat) (st st1 : ExecState),
      dlmmap_locked opts sys bits fuel length st = .ok (st1, none) →
      st1.execsize = st.execsize) ∧
    (∀ (gm : G) (start length : Nat) (st : ExecState),
      (dlmunmap h gm sys start length st).1.execsize = st.execsize) ∧
    (∀ (calls : List (MapCall G)) (st st1 : ExecState),
      run_calls h opts sys bits fuel calls st = .ok st1 →
      st.execsize = mapped_from_file st.log → mapped_from_file st1.log < 2 ^ bits →
      st.execsize ≤ st1.execsize ∧ st1.execsize = mapped_from_file st1.log) := by
  refine ⟨?_, ?_, ?_, ?_⟩
  · intro length st st1 a hrun hb
    obtain ⟨new, hlog, _, _, hsucc, _⟩ := dlmmap_locked_spec opts sys bits fuel length st st1 _ hrun
    obtain ⟨fd, ptr, pre, mid, hfd, hsz, _, hmid, hnew⟩ := hsucc a rfl
    exact ⟨by rw [hsz, Nat.mod_eq_of_lt hb], fd, ptr, pre, mid, hfd, hmid, by rw [hlog, hnew]⟩
  · intro length st st1 hrun
    obtain ⟨new, _, _, hfail, _⟩ := dlmmap_locked_spec opts sys bits fuel length st st1 _ hrun
    exact (hfail rfl).1
  · intro gm start length st
    obtain ⟨_, _, _, _, hsz, _⟩ := dlmunmap_spec h gm sys start length st
    exact hsz
  · intro calls st st1 hrun hinv hb
    obtain ⟨h1, h2⟩ := run_calls_execsize h opts sys bits fuel calls st st1 hrun hinv hb
    exact ⟨h2, h1⟩

theorem backing_file_append_only_witness :
    (∃ st1 a, dlmmap_locked (open_temp_exec_file_opts false true) denies_combined 64 4 4096
        (tick ExecState.start (.mmap .both none 0 4096 none)) = .ok (st1, some a) ∧
      st1.execsize = 4096) ∧
    (∃ st1, run_calls file_segment (open_temp_exec_file_opts false true) denies_combined 64 4
        [.dlmmap 4096, .dlmunmap 0 6291456 4096, .dlmmap 8192] ExecState.start = .ok st1 ∧
      mapped_from_file st1.log = 12288 ∧ st1.execsize = 12288) :=
  ⟨⟨_, _, by rfl,
      ((backing_file_append_only file_segment (open_temp_exec_file_opts false true)
        denies_combined 64 4).1 4096
        (tick ExecState.start (.mmap .both none 0 4096 none)) _ _ (by rfl) (by decide)).1⟩,
    ⟨_, by rfl, by rfl,
      ((backing_file_append_only file_segment (open_temp_exec_file_opts false true)
        denies_combined 64 4).2.2.2 [.dlmmap 4096, .dlmunmap 0 6291456 4096, .dlmmap 8192]
        ExecState.start _ (by rfl) (by rfl) (by decide)).2.trans
        (by rfl)⟩⟩

/-- C12, as the code has it.  Let the first call of `dlmmap` (no file open,
nothing mapped from a file yet) have its combined mapping refused with `EPERM`
or `EACCES`.  Then the call goes on to `dlmmap_locked`.  If some candidate
opens whenever it is tried, space can be allocated in the file and the later
mappings are granted, the call returns an address.  Whenever the call returns
an address `a`, a file `fd` is open (`execfd` is set) and `a` is the writable
mapping of that file; and in every sequence of later calls of `dlmmap` and
`dlmunmap` in which the lengths mapped from the file sum to less than `2 ^ w`
(so that `execsize`, a `size_t`, has not wrapped), `execfd` stays that file,
no combined mapping is attempted and every mapping made is one of that file.
Call by call: every call of `dlmmap` made with a file open and `execsize` not
0 attempts no combined mapping, maps from that file only and leaves it
open. -/
theorem fallback_is_sticky {G S : Type} (h : DlMalloc G S) (opts : List Opt) (sys : Sys)
    (bits fuel length : Nat) (st : ExecState)
    (hfd : st.execfd = none) (hsz : st.execsize = 0) (hlog0 : mapped_from_file st.log = 0)
    (hrefused : sys.mmap st.clock = none)
    (herr : sys.errno st.clock = .EPERM ∨ sys.errno st.clock = .EACCES)
    (hlen : 0 < length) :
    dlmmap opts sys bits fuel length st =
      dlmmap_locked opts sys bits fuel length (tick st (.mmap .both none 0 length none)) ∧
    (∀ k, k < opts.length → (∀ c, sys.call_opt c k ≠ none) →
      (∀ c, sys.allocate_space c = true) → (∀ c, st.clock < c → sys.mmap c ≠ none) →
      0 < fuel → ∃ st1 a, dlmmap opts sys bits fuel length st = .ok (st1, some a)) ∧
    (∀ st1 a, dlmmap opts sys bits fuel length st = .ok (st1, some a) →
      ∃ fd, st1.execfd = some fd ∧
        FileEvent.mmap .write (some fd) 0 length (some a) ∈ st1.log ∧
        ∀ (calls : List (MapCall G)) (st2 : ExecState),
          run_calls h opts sys bits fuel calls st1 = .ok st2 →
          mapped_from_file st2.log < 2 ^ bits →
          st2.execfd = some fd ∧ ∃ new, st2.log = st1.log ++ new ∧
            ∀ v fd1 o l x, FileEvent.mmap v fd1 o l x ∈ new →
              v ≠ View.both ∧ fd1 = some fd) ∧
    (∀ (len : Nat) (st0 st1 : ExecState) (fd : Nat) (r : Option Nat),
      st0.execfd = some fd → st0.execsize ≠ 0 →
      dlmmap opts sys bits fuel len st0 = .ok (st1, r) →
      st1.execfd = some fd ∧ ∃ new, st1.log = st0.log ++ new ∧
        ∀ v fd1 o l x, FileEvent.mmap v fd1 o l x ∈ new →
          v ≠ View.both ∧ fd1 = some fd) := by
  have hgo : dlmmap opts sys bits fuel length st =
      dlmmap_locked opts sys bits fuel length (tick st (.mmap .both none 0 length none)) := by
    unfold dlmmap
    simp only [hfd, hrefused]
    have hnot : ¬ (sys.errno st.clock ≠ .EPERM ∧ sys.errno st.clock ≠ .EACCES) := by
      rcases herr with he | he <;> simp [he]
    rw [if_neg hnot]
  refine ⟨hgo, ?_, ?_, ?_⟩
  · intro k hk hopen hal hmap hfuel
    rw [hgo]
    obtain ⟨fuel1, rfl⟩ : ∃ n, fuel = n + 1 := ⟨fuel - 1, by omega⟩
    obtain ⟨stO, f, ho, hcl⟩ := open_temp_exec_file_loop_finds opts sys k hk hopen opts.length
      { tick st (.mmap .both none 0 length none) with open_temp_exec_file_opts_idx := 0 }
      (Nat.zero_le _) (by simp)
    obtain ⟨st1, a, hm⟩ := map_views_succeeds opts sys bits length f { stO with execfd := some f }
      (hal _) (fun c hc => hmap c (by
        have h1 : st.clock + 1 < stO.clock := hcl
        have h2 : stO.clock < c := hc
        omega))
    refine ⟨st1, a, ?_⟩
    rw [dlmmap_locked_none opts sys bits (fuel1 + 1) length
      (tick st (.mmap .both none 0 length none)) hfd]
    exact dlmmap_locked_from_first opts sys bits length fuel1 f _ stO st1 (some a) ho hm
  · intro st1 a hrun
    rw [hgo] at hrun
    obtain ⟨new, hlog, _, _, hsucc, _⟩ := dlmmap_locked_spec opts sys bits fuel length _ st1 _ hrun
    obtain ⟨fd, ptr, pre, mid, hfd1, hsz1, hm, _, hnew⟩ := hsucc a rfl
    have hsz0 : (tick st (.mmap .both none 0 length none)).execsize = 0 := hsz
    rw [hsz0] at hsz1 hnew
    have hlogM : mapped_from_file st1.log = length := by
      rw [hlog, mapped_from_file_append, hm]
      have : mapped_from_file (tick st (.mmap .both none 0 length none)).log = 0 := by
        simp only [tick, mapped_from_file_append, hlog0]
        simp [mapped_from_file, FileEvent.mapped_len]
      rw [this, Nat.zero_add]
    refine ⟨fd, hfd1, ?_, ?_⟩
    · rw [hlog, hnew]
      simp
    · intro calls st2 hrun2 hbound
      obtain ⟨new2, hlog2⟩ := run_calls_log h opts sys bits fuel calls st1 st2 hrun2
      have hb1 : length < 2 ^ bits := by
        rw [hlog2, mapped_from_file_append, hlogM] at hbound
        omega
      have hsz2 : st1.execsize = length := by
        rw [hsz1, Nat.zero_add, Nat.mod_eq_of_lt hb1]
      exact run_calls_sticky h opts sys bits fuel fd calls st1 st2 hrun2 hfd1
        (by rw [hsz2, hlogM]) (by rw [hsz2]; omega) hbound
  · intro len st0 st1 fd r hfd0 hne hrun
    obtain ⟨_, _, _, hst⟩ := dlmmap_spec opts sys bits fuel len st0 st1 r hrun
    have hmv := hst fd hfd0 hne
    obtain ⟨_, _, _, hfd1, _⟩ := map_views_spec opts sys bits len fd st0
    rw [hmv] at hfd1
    exact ⟨by rw [← hfd0]; exact hfd1, map_views_on_file opts sys bits len fd st0 st1 _ hmv⟩

theorem fallback_is_sticky_witness :
    ∃ st1 a st2,
      dlmmap (open_temp_exec_file_opts false true) denies_combined 64 4 4096
        ExecState.start = .ok (st1, some a) ∧
      run_calls file_segment (open_temp_exec_file_opts false true) denies_combined 64 4
        [.dlmmap 8192, .dlmunmap 0 6291456 4096, .dlmmap 4096] st1 = .ok st2 ∧
      ∃ fd, st1.execfd = some fd ∧
        FileEvent.mmap .write (some fd) 0 4096 (some a) ∈ st1.log ∧
        st2.execfd = some fd ∧ ∃ new, st2.log = st1.log ++ new ∧
          ∀ v fd1 o l x, FileEvent.mmap v fd1 o l x ∈ new → v ≠ View.both ∧ fd1 = some fd :=
  ⟨_, _, _, by rfl, by rfl,
    ((fallback_is_sticky file_segment (open_temp_exec_file_opts false true) denies_combined
      64 4 4096 ExecState.start (by rfl) (by rfl) (by rfl) (by rfl) (Or.inr (by rfl))
      (by decide)).2.2.1 _ _ (by rfl)).imp fun _ hfd =>
        ⟨hfd.1, hfd.2.1,
          hfd.2.2 [.dlmmap 8192, .dlmunmap 0 6291456 4096, .dlmmap 4096] _ (by rfl)
            (by decide)⟩⟩

/-- C14 (the claim fails on the code).  First: `dlmmap_locked` returns `MFAIL`
although only the first of the seven candidates was tried, and that one gave a
file: the file has no room, and `allocate_space` failing ends the call at
once.  Second: the search as a whole need not end.  Without the mount tables
`HOME` is the last entry; where only `HOME` gives a file and its mapping for
execution is refused, the index is back at 0 when the file is closed, and
`retry_open` starts the same pass again, whatever the number of passes. -/
theorem failure_before_exhaustion :
    (open_temp_exec_file_opts false true).length = 7 ∧
    (∃ st1, dlmmap_locked (open_temp_exec_file_opts false true) no_space 64 4 4096
        ExecState.start = .ok (st1, none) ∧
      st1.log = [.tried 0 (some 3), .allocate_space 3 0 4096 false]) ∧
    (open_temp_exec_file_opts false false).map (fun o => o.arg) =
      ["TMPDIR", "/tmp", "/var/tmp", "/dev/shm", "HOME"] ∧
    ∀ fuel, dlmmap_locked (open_temp_exec_file_opts false false) only_home_noexec 64 fuel 4096
      ExecState.start = .error .fuel := by
  refine ⟨by rfl, ⟨_, by rfl, by rfl⟩, by rfl, ?_⟩
  intro fuel
  rw [dlmmap_locked_none _ _ _ _ _ _ (by rfl)]
  exact retry_open_without_end (open_temp_exec_file_opts false false) only_home_noexec 64 4096 4
    (by rfl) (fun c => by simp [only_home_noexec]) (fun c => rfl) (fun c => rfl) fuel _
    (by rfl) (by decide)

/-- C14, as the code has it.  Every call of `open_temp_exec_file` from an index
inside the table ends: it makes at most one pass from that index towards the
end of the table, trying each entry once, stops at the first that gives a
file, and returns `-1` only after the last entry, with the index back at 0.
For the first segment (`execfd = -1`, `execsize = 0`), in every call of
`dlmmap_locked` that returns: whenever the executable mapping of an opened
file is refused, the file is closed and a candidate is tried next; and
`MFAIL` is returned only when `allocate_space` failed on an opened file, or
when the writable mapping failed (the executable one is then unmapped and the
file truncated), or when every candidate of the table has been tried, each
file opened has had its executable mapping refused and has been closed, and
`execfd` is `-1` again. -/
theorem search_of_first_segment (opts : List Opt) (sys : Sys) (bits fuel length : Nat)
    (st st1 : ExecState) (r : Option Nat)
    (hfd : st.execfd = none) (hsz : st.execsize = 0)
    (hrun : dlmmap_locked opts sys bits fuel length st = .ok (st1, r)) :
    (∀ st0 : ExecState, st0.open_temp_exec_file_opts_idx < opts.length →
      ∃ stO fd k, open_temp_exec_file opts sys st0 = .ok (stO, fd) ∧
        st0.open_temp_exec_file_opts_idx ≤ k ∧ k < opts.length ∧
        tried_of stO.log = tried_of st0.log ++
          (List.range' st0.open_temp_exec_file_opts_idx
            (k - st0.open_temp_exec_file_opts_idx)).map (fun i => (i, none)) ++ [(k, fd)] ∧
        (fd = none → k + 1 = opts.length ∧ stO.open_temp_exec_file_opts_idx = 0)) ∧
    ∃ new, st1.log = st.log ++ new ∧ refused_then_closed length new ∧
      (r = none →
        (∃ pre fd, new = pre ++ [.allocate_space fd 0 length false]) ∨
        (∃ pre fd ptr ok, new = pre ++ [.mmap .write (some fd) 0 length none,
          .munmap ptr length ok, .ftruncate fd 0]) ∨
        ((∀ i, i < opts.length → ∃ x, FileEvent.tried i x ∈ new) ∧
          (∀ i fd, FileEvent.tried i (some fd) ∈ new →
            FileEvent.mmap .exec (some fd) 0 length none ∈ new ∧ FileEvent.close fd ∈ new) ∧
          st1.execfd = none)) := by
  constructor
  · intro st0 hlt
    obtain ⟨stO, fd, k, new, heq, hlog, hk1, hk2, htr, _, _, hnone, _⟩ :=
      open_temp_exec_file_loop_spec opts sys opts.length st0 hlt (by omega)
    exact ⟨stO, fd, k, heq, hk1, hk2, by rw [hlog, tried_of_append, htr, List.append_assoc],
      hnone⟩
  · rw [dlmmap_locked_none opts sys bits fuel length st hfd] at hrun
    obtain ⟨new, hlog, _, hp, hfail⟩ :=
      first_segment_search opts sys bits length fuel
        { st with open_temp_exec_file_opts_idx := 0 } st1 r hsz hrun
    refine ⟨new, hlog, hp, fun hr => ?_⟩
    rcases hfail hr with h1 | h2 | ⟨hcov, hop, hfd1⟩
    · exact Or.inl h1
    · exact Or.inr (Or.inl h2)
    · exact Or.inr (Or.inr ⟨fun i hi => hcov i (Nat.zero_le _) hi, hop, hfd1⟩)

theorem search_of_first_segment_witness :
    ∃ st1 a, dlmmap_locked (open_temp_exec_file_opts false true) first_refused 64 4 4096
        ExecState.start = .ok (st1, some a) ∧
      tried_of st1.log = [(0, some 3), (1, some 4)] ∧
      ∃ new, st1.log = ExecState.start.log ++ new ∧ refused_then_closed 4096 new :=
  ⟨_, _, by rfl, by rfl,
    (search_of_first_segment (open_temp_exec_file_opts false true) first_refused 64 4 4096
      ExecState.start _ _ (by rfl) (by rfl) (by rfl)).2.imp fun _ hn => ⟨hn.1, hn.2.1⟩⟩

/-- C18 (the claim fails on the code).  With a `size_t` of 32 bits: after three
segments of `2 ^ 30` bytes, each mapped from the file and released again,
`execsize` is `3 * 2 ^ 30`, the sum of the lengths mapped.  The next call of
`dlmmap_locked` with `2 ^ 30` bytes succeeds and leaves `execsize` at 0: the
sum `execsize + length` has wrapped, `execsize` has decreased, and it is no
longer the sum `2 ^ 32` of the lengths mapped from the file. -/
theorem execsize_wraps :
    ∃ st3 st4 a,
      run_calls wide_segment (open_temp_exec_file_opts false true) wraps_at_four 32 4
        (map_and_unmap ++ map_and_unmap ++ map_and_unmap) ExecState.start = .ok st3 ∧
      st3.execsize = 3221225472 ∧ mapped_from_file st3.log = 3221225472 ∧
      dlmmap_locked (open_temp_exec_file_opts false true) wraps_at_four 32 4 1073741824 st3 =
        .ok (st4, some a) ∧
      st4.execsize = 0 ∧ mapped_from_file st4.log = 4294967296 :=
  ⟨_, _, _, by rfl, by rfl, by rfl, by rfl, by rfl, by rfl⟩

/-- With no file open, a call of `dlmmap` attempts the combined mapping, and
returns its address when it is granted. -/
theorem dlmmap_combined (opts : List Opt) (sys : Sys) (bits fuel length : Nat)
    (st : ExecState) (p : Nat) (hfd : st.execfd = none) (hmap : sys.mmap st.clock = some p) :
    ∃ st1, dlmmap opts sys bits fuel length st = .ok (st1, some p) ∧
      st1.log = st.log ++ [.mmap .both none 0 length (some p), .on_allocate p length] ∧
      st1.execfd = none := by
  unfold dlmmap
  simp only [hfd, hmap]
  exact ⟨_, rfl, by simp [tick], by simpa [tick] using hfd⟩

/-- C12 (the claim fails on the code).  With a `size_t` of 32 bits: the first
call of `dlmmap` has its combined mapping refused with `EACCES`, opens the
file 3 and returns an address mapped from it.  Four segments of `2 ^ 30` bytes
later `execsize` has wrapped to 0; the next call takes the file for a new one,
and when its executable mapping is refused it closes the file, finds no other
candidate and leaves `execfd` at `-1`.  The call of `dlmmap` after that does
attempt the combined mapping, and returns what that gives. -/
theorem fallback_undone_after_wrap :
    wraps_at_four.mmap 0 = none ∧ wraps_at_four.errno 0 = .EACCES ∧
    ∃ st1 a st5,
      dlmmap (open_temp_exec_file_opts false true) wraps_at_four 32 4 1073741824
        ExecState.start = .ok (st1, some a) ∧
      st1.execfd = some 3 ∧
      run_calls wide_segment (open_temp_exec_file_opts false true) wraps_at_four 32 4
        ([.dlmunmap 0 2147483648 1073741824] ++ map_and_unmap ++ map_and_unmap ++
          map_and_unmap ++ [.dlmmap 1073741824]) st1 = .ok st5 ∧
      st5.execsize = 0 ∧ st5.execfd = none ∧
      ∃ st6, dlmmap (open_temp_exec_file_opts false true) wraps_at_four 32 4 1073741824 st5 =
          .ok (st6, some 2147483648) ∧
        st6.log = st5.log ++ [.mmap .both none 0 1073741824 (some 2147483648),
          .on_allocate 2147483648 1073741824] ∧
        st6.execfd = none :=
  ⟨by rfl, by rfl, _, _, _, by rfl, by rfl, by rfl, by rfl, by rfl,
    dlmmap_combined _ _ _ _ _ _ _ (by rfl) (by rfl)⟩

end DualMap

/-! ### The remap-based allocator -/

namespace NetBSD

theorem range_pos (P : Plat) : 0 < P.range := Nat.pow_pos (by decide)

theorem range_eq (P : Plat) : P.range = 256 ^ P.word := by
  unfold Plat.range
  rw [pow_mul]
  norm_num

theorem overhead_ge (P : Plat) : P.word + P.word ≤ overhead P := by
  unfold overhead
  split <;> omega

theorem rounded_size_lt (P : Plat) (size page_size : Nat) :
    rounded_size P size page_size < P.range := by
  unfold rounded_size
  exact lt_of_le_of_lt Nat.and_le_left (Nat.mod_lt _ (range_pos P))

theorem read_word_congr (m1 m2 : Nat → Nat) :
    ∀ (n a : Nat), (∀ x, a ≤ x → x < a + n → m1 x = m2 x) →
      read_word m1 a n = read_word m2 a n := by
  intro n
  induction n with
  | zero =>
    intro a _
    rfl
  | succ n ih =>
    intro a h
    simp only [read_word]
    rw [h a (le_refl _) (by omega), ih (a + 1) (fun x h1 h2 => h x (by omega) (by omega))]

theorem read_write_word (mem : Nat → Nat) :
    ∀ (n a v : Nat), read_word (write_word mem a n v) a n = v % 256 ^ n := by
  intro n
  induction n with
  | zero =>
    intro a v
    simp [read_word, Nat.mod_one]
  | succ n ih =>
    intro a v
    simp only [read_word]
    have h1 : write_word mem a (n + 1) v a = v % 256 := by
      simp [write_word]
    have h2 : read_word (write_word mem a (n + 1) v) (a + 1) n =
        read_word (write_word mem (a + 1) n (v / 256)) (a + 1) n := by
      apply read_word_congr
      intro x hx1 hx2
      have e1 : x - a = (x - (a + 1)) + 1 := by omega
      have c1 : a ≤ x ∧ x < a + (n + 1) := ⟨by omega, by omega⟩
      have c2 : a + 1 ≤ x ∧ x < a + 1 + n := ⟨hx1, hx2⟩
      simp only [write_word, c1, c2, and_self, if_true]
      rw [e1, pow_succ, Nat.mul_comm, Nat.div_div_eq_div_mul]
    rw [h1, h2, ih, Nat.mod_mod, pow_succ, Nat.mul_comm (256 ^ n) 256, Nat.mod_mul]

theorem read_write_word_other (mem : Nat → Nat) (a n b m v : Nat)
    (h : a + n ≤ b ∨ b + m ≤ a) :
    read_word (write_word mem b m v) a n = read_word mem a n := by
  apply read_word_congr
  intro x hx1 hx2
  have : ¬ (b ≤ x ∧ x < b + m) := by omega
  simp [write_word, this]

/-- Masking with `2 ^ W - 2 ^ k` clears the `k` lowest bits. -/
theorem land_mask (W k t : Nat) (hk : k ≤ W) (ht : t < 2 ^ W) :
    t &&& (2 ^ W - 2 ^ k) = t / 2 ^ k * 2 ^ k := by
  apply Nat.eq_of_testBit_eq
  intro i
  have hx : 2 ^ k - 1 < 2 ^ W :=
    lt_of_lt_of_le (Nat.sub_lt (Nat.pow_pos (by decide)) (by decide))
      (Nat.pow_le_pow_right (by decide) hk)
  have hmask : 2 ^ W - 2 ^ k = 2 ^ W - (2 ^ k - 1 + 1) := by
    have : 0 < 2 ^ k := Nat.pow_pos (by decide)
    omega
  rw [Nat.testBit_and, hmask, Nat.testBit_two_pow_sub_succ hx, Nat.testBit_two_pow_sub_one,
    Nat.mul_comm, Nat.testBit_mul_pow_two, ← Nat.shiftRight_eq_div_pow, Nat.testBit_shiftRight]
  by_cases h1 : i < k
  · have : ¬ (k ≤ i) := by omega
    simp [h1, this]
  · have h2 : k ≤ i := by omega
    have e : k + (i - k) = i := by omega
    by_cases h3 : i < W
    · simp [h1, h2, h3, e]
    · have : t.testBit i = false :=
        Nat.testBit_lt_two_pow (lt_of_lt_of_le ht (Nat.pow_le_pow_right (by decide) (by omega)))
      simp [h1, h2, h3, e, this]

/-- The value of `rounded_size` for a page size `2 ^ k` that a `size_t` holds. -/
theorem rounded_size_eq (P : Plat) (size k : Nat) (hk : 2 ^ k < P.range) :
    rounded_size P size (2 ^ k) =
      ((((size + overhead P) % P.range + 2 ^ k) % P.range + (P.range - 1)) % P.range) /
        2 ^ k * 2 ^ k := by
  have hpos : 0 < 2 ^ k := Nat.pow_pos (by decide)
  have hkW : k < 8 * P.word := (Nat.pow_lt_pow_iff_right (by decide)).mp hk
  have hmask : (P.range - 1) - (2 ^ k + (P.range - 1)) % P.range = P.range - 2 ^ k := by
    have e : 2 ^ k + (P.range - 1) = (2 ^ k - 1) + P.range := by omega
    rw [e, Nat.add_mod_right, Nat.mod_eq_of_lt (by omega)]
    omega
  unfold rounded_size
  simp only [hmask]
  exact land_mask (8 * P.word) k _ (le_of_lt hkW) (Nat.mod_lt _ (range_pos P))

/-- C15.  The remap-based allocation unwinds on failure.  With `code` null,
`ffi_closure_alloc` returns `NULL` and does nothing.  When `mmap` fails it
returns `NULL` having made no other call; when `mremap` fails it returns
`NULL` having unmapped the data mapping; when `mprotect` fails it returns
`NULL` having unmapped the code mapping and the data mapping; each `munmap`
has the rounded size the mapping was made with.  In every one of these cases
no `on_allocate` is called, memory is left as it was and `*code` is not
written. -/
theorem alloc_unwinds_on_failure (P : Plat) (env : Env) (size : Nat) (st : State) :
    ffi_closure_alloc P env size false st = (st, 0, none) ∧
    (env.mmap = none →
      (ffi_closure_alloc P env size true st).2 = (0, none) ∧
      (ffi_closure_alloc P env size true st).1.mem = st.mem ∧
      (ffi_closure_alloc P env size true st).1.log = st.log ++
        [.mmap (rounded_size P size (page_size_used P env st)) none]) ∧
    (∀ d, env.mmap = some d → env.mremap = none →
      (ffi_closure_alloc P env size true st).2 = (0, none) ∧
      (ffi_closure_alloc P env size true st).1.mem = st.mem ∧
      (ffi_closure_alloc P env size true st).1.log = st.log ++
        [.mmap (rounded_size P size (page_size_used P env st)) (some d),
          .mremap d (rounded_size P size (page_size_used P env st)) none,
          .munmap d (rounded_size P size (page_size_used P env st))]) ∧
    (∀ d c, env.mmap = some d → env.mremap = some c → env.mprotect = false →
      (ffi_closure_alloc P env size true st).2 = (0, none) ∧
      (ffi_closure_alloc P env size true st).1.mem = st.mem ∧
      (ffi_closure_alloc P env size true st).1.log = st.log ++
        [.mmap (rounded_size P size (page_size_used P env st)) (some d),
          .mremap d (rounded_size P size (page_size_used P env st)) (some c),
          .mprotect c (rounded_size P size (page_size_used P env st)) false,
          .munmap c (rounded_size P size (page_size_used P env st)),
          .munmap d (rounded_size P size (page_size_used P env st))]) := by
  refine ⟨rfl, ?_, ?_, ?_⟩
  · intro h1
    by_cases hp : st.page_size = 0 <;>
      simp [ffi_closure_alloc, page_size_used, h1, hp]
  · intro d h1 h2
    by_cases hp : st.page_size = 0 <;>
      simp [ffi_closure_alloc, page_size_used, h1, h2, hp]
  · intro d c h1 h2 h3
    by_cases hp : st.page_size = 0 <;>
      simp [ffi_closure_alloc, page_size_used, h1, h2, h3, hp]

theorem alloc_unwinds_on_failure_witness :
    (ffi_closure_alloc lp64 mprotect_refused 100 true State.start).2 = (0, none) ∧
    (ffi_closure_alloc lp64 mprotect_refused 100 true State.start).1.log =
      [.mmap 4096 (some 1048576), .mremap 1048576 4096 (some 2097152),
        .mprotect 2097152 4096 false, .munmap 2097152 4096, .munmap 1048576 4096] :=
  ⟨((alloc_unwinds_on_failure lp64 mprotect_refused 100 State.start).2.2.2
      1048576 2097152 rfl rfl rfl).1,
    ((alloc_unwinds_on_failure lp64 mprotect_refused 100 State.start).2.2.2
      1048576 2097152 rfl rfl rfl).2.2⟩

/-- C16.  The remap-based round trip.  Let `ffi_closure_alloc` succeed with the
data mapping at `d` and the code mapping at `c`, the header `[d, d + overhead)`
and `c + overhead` lying inside the address space, and let `r` be the rounded
size.  Then it returns `p = d + overhead`, stores `c + overhead` in `*code`
and calls `on_allocate (d, r)` and `on_allocate (c, r)`.  In every later state
whose bytes in `[d, p)` are those the allocation left, `ffi_closure_free (p)`
calls `munmap (d, r)`, `munmap (c, r)`, `on_deallocate (c, r)` and
`on_deallocate (d, r)`, and nothing else. -/
theorem alloc_free_round_trip (P : Plat) (env : Env) (size : Nat) (st : State) (d c : Nat)
    (hmmap : env.mmap = some d) (hmremap : env.mremap = some c)
    (hmprotect : env.mprotect = true)
    (hd : d + overhead P < P.range) (hc : c + overhead P < P.range) :
    (ffi_closure_alloc P env size true st).2 = (d + overhead P, some (c + overhead P)) ∧
    (ffi_closure_alloc P env size true st).1.log = st.log ++
      [.mmap (rounded_size P size (page_size_used P env st)) (some d),
        .mremap d (rounded_size P size (page_size_used P env st)) (some c),
        .mprotect c (rounded_size P size (page_size_used P env st)) true,
        .on_allocate d (rounded_size P size (page_size_used P env st)),
        .on_allocate c (rounded_size P size (page_size_used P env st))] ∧
    ∀ st2 : State,
      (∀ a, d ≤ a → a < d + overhead P →
        st2.mem a = (ffi_closure_alloc P env size true st).1.mem a) →
      (ffi_closure_free P (d + overhead P) st2).log = st2.log ++
        [.munmap d (rounded_size P size (page_size_used P env st)),
          .munmap c (rounded_size P size (page_size_used P env st)),
          .on_deallocate c (rounded_size P size (page_size_used P env st)),
          .on_deallocate d (rounded_size P size (page_size_used P env st))] := by
  have hov := overhead_ge P
  have hM := range_pos P
  have e1 : ADD_TO_POINTER P d (overhead P) = d + overhead P := Nat.mod_eq_of_lt hd
  have e2 : ADD_TO_POINTER P c (overhead P) = c + overhead P := Nat.mod_eq_of_lt hc
  have e3 : ADD_TO_POINTER P d P.word = d + P.word := Nat.mod_eq_of_lt (by omega)
  have e4 : ADD_TO_POINTER P (d + overhead P) (negate P (overhead P)) = d := by
    unfold ADD_TO_POINTER negate
    rw [Nat.mod_eq_of_lt (show overhead P < P.range by omega)]
    by_cases h0 : overhead P = 0
    · rw [h0]
      simp only [Nat.sub_zero, Nat.mod_self, Nat.add_zero]
      exact Nat.mod_eq_of_lt (by omega)
    · rw [Nat.mod_eq_of_lt (show P.range - overhead P < P.range by omega)]
      have : d + overhead P + (P.range - overhead P) = d + P.range := by omega
      rw [this, Nat.add_mod_right]
      exact Nat.mod_eq_of_lt (by omega)
  have hmem : (ffi_closure_alloc P env size true st).1.mem =
      write_word (write_word st.mem d P.word (rounded_size P size (page_size_used P env st)))
        (d + P.word) P.word c := by
    by_cases hp : st.page_size = 0 <;>
      simp [ffi_closure_alloc, page_size_used, hmmap, hmremap, hmprotect, hp, e3]
  refine ⟨?_, ?_, ?_⟩
  · by_cases hp : st.page_size = 0 <;>
      simp [ffi_closure_alloc, page_size_used, hmmap, hmremap, hmprotect, hp, e1, e2]
  · by_cases hp : st.page_size = 0 <;>
      simp [ffi_closure_alloc, page_size_used, hmmap, hmremap, hmprotect, hp]
  · intro st2 hsame
    rw [hmem] at hsame
    have hr : read_word st2.mem d P.word = rounded_size P size (page_size_used P env st) := by
      rw [read_word_congr st2.mem _ P.word d (fun x h1 h2 => hsame x h1 (by omega)),
        read_write_word_other _ d P.word (d + P.word) P.word c (Or.inl (le_refl _)),
        read_write_word, ← range_eq]
      exact Nat.mod_eq_of_lt (rounded_size_lt P size _)
    have hcode : read_word st2.mem (d + P.word) P.word = c := by
      rw [read_word_congr st2.mem _ P.word (d + P.word)
        (fun x h1 h2 => hsame x (by omega) (by omega)), read_write_word, ← range_eq]
      exact Nat.mod_eq_of_lt (by omega)
    simp only [ffi_closure_free, e4, e3, hr, hcode]

theorem alloc_free_round_trip_witness :
    (ffi_closure_alloc lp64 all_granted 100 true State.start).2 = (1048608, some 2097184) ∧
    (ffi_closure_free lp64 1048608
      (ffi_closure_alloc lp64 all_granted 100 true State.start).1).log =
      (ffi_closure_alloc lp64 all_granted 100 true State.start).1.log ++
      [.munmap 1048576 4096, .munmap 2097152 4096,
        .on_deallocate 2097152 4096, .on_deallocate 1048576 4096] :=
  ⟨(alloc_free_round_trip lp64 all_granted 100 State.start 1048576 2097152 rfl rfl rfl
      (by decide) (by decide)).1,
    (alloc_free_round_trip lp64 all_granted 100 State.start 1048576 2097152 rfl rfl rfl
      (by decide) (by decide)).2.2 _ (fun _ _ _ => rfl)⟩

/-- C17 (the claim fails on the code).  On a 64-bit target with pages of 4096
bytes and an overhead of 32 bytes, the size `2 ^ 64 - 33` gives the rounded
size 0: the sum `size + overhead + page_size - 1` wraps, and the region mapped
is smaller than `size + overhead`. -/
theorem rounded_size_wraps :
    overhead lp64 = 32 ∧ 2 ^ 64 - 33 < lp64.range ∧
    rounded_size lp64 (2 ^ 64 - 33) 4096 = 0 ∧
    ¬ (2 ^ 64 - 33 + overhead lp64 ≤ rounded_size lp64 (2 ^ 64 - 33) 4096) :=
  ⟨by rfl, by decide, by rfl, by decide⟩

/-- C17, as the code has it.  For a page size `2 ^ k` that a `size_t` holds,
the rounded size is a multiple of the page size for every requested size; and
when `size + overhead + page_size - 1` does not wrap, that is, stays below
`2 ^ w`, it is at least `size + overhead` and less than one page more. -/
theorem rounded_size_holds_request (P : Plat) (size k : Nat) (hk : 2 ^ k < P.range) :
    2 ^ k ∣ rounded_size P size (2 ^ k) ∧
    (size + overhead P + 2 ^ k - 1 < P.range →
      size + overhead P ≤ rounded_size P size (2 ^ k) ∧
      rounded_size P size (2 ^ k) < size + overhead P + 2 ^ k) := by
  have hpos : 0 < 2 ^ k := Nat.pow_pos (by decide)
  rw [rounded_size_eq P size k hk]
  refine ⟨Nat.dvd_mul_left _ _, ?_⟩
  generalize 2 ^ k = p at hk hpos ⊢
  generalize P.range = M at hk ⊢
  generalize size + overhead P = s
  intro hb
  have e1 : s % M = s := Nat.mod_eq_of_lt (by omega)
  have e4 : ((s % M + p) % M + (M - 1)) % M = s + p - 1 := by
    rw [e1]
    by_cases hlt : s + p < M
    · rw [Nat.mod_eq_of_lt hlt]
      have : s + p + (M - 1) = (s + p - 1) + M := by omega
      rw [this, Nat.add_mod_right]
      exact Nat.mod_eq_of_lt hb
    · have : s + p = M := by omega
      rw [this, Nat.mod_self, Nat.zero_add]
      exact Nat.mod_eq_of_lt (by omega)
  rw [e4]
  have h1 := Nat.div_add_mod (s + p - 1) p
  have h2 := Nat.mod_lt (s + p - 1) hpos
  rw [Nat.mul_comm] at h1
  generalize (s + p - 1) / p * p = q at h1 ⊢
  constructor <;> omega

theorem rounded_size_holds_request_witness :
    2 ^ 12 ∣ rounded_size lp64 100 (2 ^ 12) ∧ 100 + overhead lp64 ≤ rounded_size lp64 100 (2 ^ 12) :=
  ⟨(rounded_size_holds_request lp64 100 12 (by decide)).1,
    ((rounded_size_holds_request lp64 100 12 (by decide)).2 (by decide)).1⟩

end NetBSD

end Closures
